import Mathlib

/-!
Verification of the unicode bar chart renderer (`src/index.ts`).

The TypeScript source is shallowly embedded below.  Conventions:

* JS `number` data values are modelled as `ℚ` (exact rational arithmetic
  idealises IEEE doubles; every claim checked here is about the exact
  algebra of the code, not float rounding).
* Requested sizes (`width`, `height`, margins, spacings) are modelled as
  `ℕ`; the claims under study restrict inputs to non-negative sizes.
* Derived layout quantities that can become negative (chart widths after
  label-space subtraction, bar widths, …) are modelled as `ℤ`.
* `(x)|0` on an integral quantity is `Int.tdiv` (truncation towards zero)
  followed by wrapping to 32 bits (`toInt32`), matching JS `ToInt32`.
* `' '.repeat(n)` is `nsp n`.  JS throws a `RangeError` for negative `n`;
  in this embedding negative counts are clamped to `0`.  Every use in the
  source is guarded by `Math.max(_, 0)` except where a comment below notes
  otherwise.
* Strings are Lean `String`s; the ANSI escape byte is `'\x1B'`.
-/

namespace BarChart

/-- The 17 terminal colors of `type Color` (src/index.ts:1073). -/
inductive Color where
  | black | red | green | yellow | blue | magenta | cyan | white | gray
  | bright_red | bright_green | bright_yellow | bright_blue | bright_magenta
  | bright_cyan | bright_white | default
deriving DecidableEq, Repr

/-- `COLOR_MAP` (src/index.ts:1078): foreground and background escape per color. -/
def COLOR_MAP : Color → String × String
  | .black          => ("\x1B[30m", "\x1B[40m")
  | .red            => ("\x1B[31m", "\x1B[41m")
  | .green          => ("\x1B[32m", "\x1B[42m")
  | .yellow         => ("\x1B[33m", "\x1B[43m")
  | .blue           => ("\x1B[34m", "\x1B[44m")
  | .magenta        => ("\x1B[35m", "\x1B[45m")
  | .cyan           => ("\x1B[36m", "\x1B[46m")
  | .white          => ("\x1B[37m", "\x1B[47m")
  | .gray           => ("\x1B[90m", "\x1B[100m")
  | .bright_red     => ("\x1B[91m", "\x1B[101m")
  | .bright_green   => ("\x1B[92m", "\x1B[102m")
  | .bright_yellow  => ("\x1B[93m", "\x1B[103m")
  | .bright_blue    => ("\x1B[94m", "\x1B[104m")
  | .bright_magenta => ("\x1B[95m", "\x1B[105m")
  | .bright_cyan    => ("\x1B[96m", "\x1B[106m")
  | .bright_white   => ("\x1B[97m", "\x1B[107m")
  | .default        => ("\x1B[39m", "\x1B[49m")

/-- `NORMAL` (src/index.ts:1098): the style reset escape. -/
def NORMAL : String := "\x1B[0m"

/-- `DEFAULT_COLOR_SEQUENCE` (src/index.ts:1101). -/
def DEFAULT_COLOR_SEQUENCE : List Color :=
  [.red, .green, .yellow, .blue, .magenta, .cyan, .white, .black]

/-- `VCHAR_MAP` (src/index.ts:1046): vertical eighth-block ramp, index k
holds the glyph for k+1 eighths. -/
def VCHAR_MAP : List Char :=
  ['▁', '▂', '▃', '▄', '▅', '▆', '▇', '█']

/-- `HCHAR_MAP` (src/index.ts:1057): horizontal eighth-block ramp. -/
def HCHAR_MAP : List Char :=
  ['▏', '▎', '▍', '▌', '▋', '▊', '▉', '█']

/-- `' '.repeat n` for a possibly negative count (clamped; see file header). -/
def nsp (n : ℤ) : String := String.mk (List.replicate n.toNat ' ')

/-- `s.repeat n` for a possibly negative count (clamped). -/
def strRepeat (s : String) (n : ℤ) : String :=
  String.join (List.replicate n.toNat s)

/-- `c` repeated `n` times as a string (used for the glyph `.repeat(barWidth)`). -/
def crep (c : Char) (n : ℤ) : String := String.mk (List.replicate n.toNat c)

/-- JS `ToInt32`: wrap an integer into `[-2^31, 2^31)` (applied by storing
into an `Int32Array` and by `|0`). -/
def toInt32 (n : ℤ) : ℤ := (n + 2 ^ 31) % 2 ^ 32 - 2 ^ 31

/-- Truncation of a rational towards zero (JS `(x)|0` before wrapping). -/
def ratTrunc (q : ℚ) : ℤ := if q < 0 then ⌈q⌉ else ⌊q⌋

/-- JS `(q)|0` on a rational: truncate towards zero, then wrap to 32 bits. -/
def or0 (q : ℚ) : ℤ := toInt32 (ratTrunc q)

/-- JS `(a / b)|0` for integers `a`, `b` (float division then `ToInt32`):
truncated division wrapped to 32 bits. -/
def idiv0 (a b : ℤ) : ℤ := toInt32 (Int.tdiv a b)

/-! ## Display-width estimator (`getTextWidth`, src/index.ts:1032-1044)

`ZERO_WIDTH_REGEX = /\x1B\[\d+(;\d+){0,4}m|[\u{E000}-\u{FFFF}\u{200B}-\u{200D}\u{2060}\u{FEFF}\p{Mn}]/gu`

The replacement scan is embedded as a left-to-right scanner: at each
position first try to match the escape-sequence alternative, else drop a
zero-width character, else keep the character.  The Unicode `\p{Mn}`
category is approximated by the Combining Diacritical Marks block
U+0300–U+036F: no string manipulated in this development contains any
other nonspacing mark. -/

/-- Zero-width code points of `ZERO_WIDTH_REGEX`'s character class. -/
def isZeroWidthChar (c : Char) : Bool :=
  let n := c.toNat
  (0xE000 ≤ n && n ≤ 0xFFFF) || (0x200B ≤ n && n ≤ 0x200D) ||
    n = 0x2060 || n = 0xFEFF || (0x0300 ≤ n && n ≤ 0x036F)

/-- Skip a run of ASCII digits. -/
def skipDigits : List Char → List Char
  | c :: rest => if c.isDigit then skipDigits rest else c :: rest
  | [] => []

theorem skipDigits_length_le (cs : List Char) : (skipDigits cs).length ≤ cs.length := by
  induction cs with
  | nil => simp [skipDigits]
  | cons c rest ih =>
    unfold skipDigits
    by_cases h : c.isDigit
    · simp only [h, if_true]
      exact Nat.le_trans ih (Nat.le_succ _)
    · simp [h]

/-- Consume a non-empty run of ASCII digits; `none` if there is no digit. -/
def parseDigits : List Char → Option (List Char)
  | c :: rest => if c.isDigit then some (skipDigits rest) else none
  | [] => none

theorem parseDigits_length_lt {cs r : List Char} (h : parseDigits cs = some r) :
    r.length < cs.length := by
  unfold parseDigits at h
  rcases cs with _ | ⟨c, rest⟩
  · simp at h
  · by_cases hd : c.isDigit
    · simp only [hd, if_true, Option.some.injEq] at h
      subst h
      exact Nat.lt_succ_of_le (skipDigits_length_le rest)
    · simp [hd] at h

/-- Consume up to `n` further `;digits` groups (greedy, as the regex does). -/
def parseGroups : ℕ → List Char → List Char
  | 0, cs => cs
  | n + 1, cs =>
    match cs with
    | ';' :: rest =>
      match parseDigits rest with
      | some rest2 => parseGroups n rest2
      | none => ';' :: rest
    | _ => cs

theorem parseGroups_length_le (n : ℕ) (cs : List Char) :
    (parseGroups n cs).length ≤ cs.length := by
  induction n generalizing cs with
  | zero => exact Nat.le_refl _
  | succ k ih =>
    unfold parseGroups
    split
    · split
      · rename_i rest _ r2 hd
        have h1 : r2.length < rest.length := parseDigits_length_lt hd
        have h2 := ih r2
        simp only [List.length_cons]
        omega
      · exact Nat.le_refl _
    · exact Nat.le_refl _

/-- After an `'\x1B'`, try to match `[\d+(;\d+){0,4}m`; on success return the
remaining characters.  (If the greedy parse is not followed by `m` the regex
as a whole fails: with fewer groups the next character is `';'`, never `m`.) -/
def parseAnsi (cs : List Char) : Option (List Char) :=
  match cs with
  | '[' :: rest =>
    match parseDigits rest with
    | some rest2 =>
      match parseGroups 4 rest2 with
      | 'm' :: rest3 => some rest3
      | _ => none
    | none => none
  | _ => none

theorem parseAnsi_length_lt {cs r : List Char} (h : parseAnsi cs = some r) :
    r.length < cs.length := by
  unfold parseAnsi at h
  split at h
  · split at h
    · split at h
      · rename_i rest _ rest2 hd _ rest3 hg
        injection h with h
        subst h
        have h1 : (parseGroups 4 rest2).length ≤ rest2.length :=
          parseGroups_length_le 4 rest2
        have h2 : rest2.length < rest.length := parseDigits_length_lt hd
        rw [hg] at h1
        simp only [List.length_cons] at h1 ⊢
        omega
      · exact absurd h (by simp)
    · exact absurd h (by simp)
  · exact absurd h (by simp)

/-- The `ZERO_WIDTH_REGEX` replacement scan, with explicit fuel so that the
definition is structurally recursive (and hence kernel-computable).  Every
step consumes at least one character, so fuel `cs.length` never runs out:
see `stripZeroWidthF_fuel`. -/
def stripZeroWidthF : ℕ → List Char → List Char
  | 0, _ => []
  | fuel + 1, cs =>
    match cs with
    | [] => []
    | c :: rest =>
      if c = '\x1B' then
        match parseAnsi rest with
        | some rest2 => stripZeroWidthF fuel rest2
        | none =>
          if isZeroWidthChar c then stripZeroWidthF fuel rest
          else c :: stripZeroWidthF fuel rest
      else if isZeroWidthChar c then stripZeroWidthF fuel rest
      else c :: stripZeroWidthF fuel rest

/-- Remove everything `ZERO_WIDTH_REGEX` matches. -/
def stripZeroWidth (cs : List Char) : List Char := stripZeroWidthF cs.length cs

theorem stripZeroWidthF_fuel : ∀ (fuel fuel2 : ℕ) (cs : List Char),
    cs.length ≤ fuel → cs.length ≤ fuel2 →
    stripZeroWidthF fuel cs = stripZeroWidthF fuel2 cs := by
  intro fuel
  induction fuel with
  | zero =>
    intro fuel2 cs h1 _
    have : cs = [] := List.length_eq_zero.mp (Nat.le_zero.mp h1)
    subst this
    cases fuel2 <;> rfl
  | succ f ih =>
    intro fuel2 cs h1 h2
    cases cs with
    | nil => cases fuel2 <;> rfl
    | cons c rest =>
      cases fuel2 with
      | zero => simp at h2
      | succ f2 =>
        simp only [List.length_cons] at h1 h2
        show (if c = '\x1B' then _ else _) = (if c = '\x1B' then _ else _)
        by_cases hc : c = '\x1B'
        · simp only [if_pos hc]
          cases hp : parseAnsi rest with
          | some rest2 =>
            have hlt := parseAnsi_length_lt hp
            exact ih f2 rest2 (by omega) (by omega)
          | none =>
            by_cases hz : isZeroWidthChar c
            · simp only [if_pos hz]
              exact ih f2 rest (by omega) (by omega)
            · simp only [if_neg hz]
              rw [ih f2 rest (by omega) (by omega)]
        · simp only [if_neg hc]
          by_cases hz : isZeroWidthChar c
          · simp only [if_pos hz]
            exact ih f2 rest (by omega) (by omega)
          · simp only [if_neg hz]
            rw [ih f2 rest (by omega) (by omega)]

/-- `getTextWidth` (src/index.ts:1042): codepoints remaining after stripping
ANSI escapes and zero-width characters. -/
def getTextWidth (s : String) : ℕ := (stripZeroWidth s.data).length

/-! ## Whitespace tokenisation

Both wrappers scan their text with
`/[ \t\r\n\v\u{2000}-\u{200B}\u{205F}\u{3000}]+|\n/gu` (the `|\n`
alternative is dead: `\n` is already in the class, so every maximal
whitespace run — newlines included — is one match).  The `exec` loop
of the source visits the text as a sequence of (word, whitespace-run)
pairs; the final pair's run is `""` when the text ends in a word. -/

/-- Whitespace class of the wrappers' split pattern. -/
def isWsChar (c : Char) : Bool :=
  c = ' ' || c = '\t' || c = '\r' || c = '\n' || c = '\x0B' ||
    (0x2000 ≤ c.toNat && c.toNat ≤ 0x200B) || c.toNat = 0x205F || c.toNat = 0x3000

/-- Longest non-whitespace prefix, and the rest. -/
def splitWord : List Char → List Char × List Char
  | [] => ([], [])
  | c :: rest =>
    if isWsChar c then ([], c :: rest)
    else
      let p := splitWord rest
      (c :: p.1, p.2)

/-- Longest whitespace prefix, and the rest. -/
def splitRun : List Char → List Char × List Char
  | [] => ([], [])
  | c :: rest =>
    if isWsChar c then
      let p := splitRun rest
      (c :: p.1, p.2)
    else ([], c :: rest)

theorem splitWord_length (cs : List Char) :
    (splitWord cs).1.length + (splitWord cs).2.length = cs.length := by
  induction cs with
  | nil => simp [splitWord]
  | cons c rest ih =>
    unfold splitWord
    by_cases h : isWsChar c <;> simp [h] <;> omega

theorem splitRun_length (cs : List Char) :
    (splitRun cs).1.length + (splitRun cs).2.length = cs.length := by
  induction cs with
  | nil => simp [splitRun]
  | cons c rest ih =>
    unfold splitRun
    by_cases h : isWsChar c <;> simp [h] <;> omega

theorem splitWord_ws {c : Char} {rest : List Char} (h : isWsChar c) :
    splitWord (c :: rest) = ([], c :: rest) := by
  unfold splitWord; simp [h]

theorem splitRun_ws {c : Char} {rest : List Char} (h : isWsChar c) :
    (splitRun (c :: rest)).1.length > 0 := by
  unfold splitRun; simp [h]

/-- Key termination fact: a non-empty text always loses at least one
character to its first (word, run) pair. -/
theorem tok_step_lt (cs : List Char) (h : cs ≠ []) :
    (splitRun (splitWord cs).2).2.length < cs.length := by
  rcases cs with _ | ⟨c, rest⟩
  · exact absurd rfl h
  · by_cases hw : isWsChar c
    · rw [splitWord_ws hw]
      have h1 := splitRun_length (c :: rest)
      have h2 := @splitRun_ws c rest hw
      simp only [List.length_cons] at h1 ⊢
      omega
    · have h1 := splitWord_length (c :: rest)
      have h2 := splitRun_length (splitWord (c :: rest)).2
      have h3 : (splitWord (c :: rest)).1.length > 0 := by
        unfold splitWord; simp [hw]
      simp only [List.length_cons] at h1 ⊢
      omega

/-- The (word, run)-pair scan with explicit fuel (structural recursion, so
it is kernel-computable; fuel `cs.length` never runs out, see
`tokenizeWsF_fuel`). -/
def tokenizeWsF : ℕ → List Char → List (String × String)
  | 0, _ => []
  | fuel + 1, cs =>
    if cs = [] then []
    else
      let p := splitWord cs
      let q := splitRun p.2
      (String.mk p.1, String.mk q.1) :: tokenizeWsF fuel q.2

/-- The (word, whitespace-run) pairs the `exec` loops of the wrappers
iterate over, in order.  A leading run yields a first pair with word `""`;
the last pair's run is `""` iff the text ends in a word. -/
def tokenizeWs (cs : List Char) : List (String × String) := tokenizeWsF cs.length cs

theorem tokenizeWsF_fuel : ∀ (fuel fuel2 : ℕ) (cs : List Char),
    cs.length ≤ fuel → cs.length ≤ fuel2 →
    tokenizeWsF fuel cs = tokenizeWsF fuel2 cs := by
  intro fuel
  induction fuel with
  | zero =>
    intro fuel2 cs h1 _
    have : cs = [] := List.length_eq_zero.mp (Nat.le_zero.mp h1)
    subst this
    cases fuel2 <;> rfl
  | succ f ih =>
    intro fuel2 cs h1 h2
    by_cases hcs : cs = []
    · subst hcs
      cases fuel2 <;> rfl
    · cases fuel2 with
      | zero =>
        exact absurd (List.length_eq_zero.mp (Nat.le_zero.mp h2)) hcs
      | succ f2 =>
        have hlt := tok_step_lt cs hcs
        show (if cs = [] then _ else _) = (if cs = [] then _ else _)
        rw [if_neg hcs, if_neg hcs]
        have := ih f2 (splitRun (splitWord cs).2).2 (by omega) (by omega)
        simp only [this]

/-- The one-step unfolding of `tokenizeWs` on a non-empty text. -/
theorem tokenizeWs_cons (cs : List Char) (h : cs ≠ []) :
    tokenizeWs cs =
      (String.mk (splitWord cs).1, String.mk (splitRun (splitWord cs).2).1) ::
        tokenizeWs (splitRun (splitWord cs).2).2 := by
  unfold tokenizeWs
  have hlt := tok_step_lt cs h
  obtain ⟨k, hl⟩ : ∃ k, cs.length = k + 1 := by
    cases hcl : cs.length with
    | zero => exact absurd (List.length_eq_zero.mp hcl) h
    | succ k => exact ⟨k, rfl⟩
  rw [hl] at hlt ⊢
  show (if cs = [] then _ else _) = _
  rw [if_neg h]
  dsimp only
  congr 1
  exact tokenizeWsF_fuel k _ _ (by omega) (by omega)

/-- `text.split(pattern)` with explicit fuel. -/
def splitWsF : ℕ → List Char → List String
  | 0, _ => []
  | fuel + 1, cs =>
    let p := splitWord cs
    let q := splitRun p.2
    if q.1 = [] then [String.mk p.1]
    else String.mk p.1 :: splitWsF fuel q.2

/-- `text.split(pattern)` pieces (used by `getMaxWordWidth`).  The fuel
`cs.length + 1` covers the final empty-remainder step. -/
def splitWs (cs : List Char) : List String := splitWsF (cs.length + 1) cs

/-- Alignment argument of `wrapText` (`'left'|'right'|'center'`). -/
inductive Align where
  | left | right | center
deriving DecidableEq, Repr

/-- `' '.repeat n` for a `ℕ` count. -/
def nspN (n : ℕ) : String := String.mk (List.replicate n ' ')

/-- `alignInternal` (src/index.ts:210): pad `text` of measured width
`textWidth` to `width` cells according to `align`.  (`width` is `ℤ`: the
chart engine calls the wrapper with computed widths that can be negative;
`Math.max(width - textWidth, 0)` then yields 0.) -/
def alignInternal (text : String) (textWidth : ℕ) (width : ℤ) (align : Align) : String :=
  let rem := (width - textWidth).toNat
  match align with
  | .center =>
    let rpad := rem / 2
    let lpad := rem - rpad
    nspN lpad ++ text ++ nspN rpad
  | .left => text ++ nspN rem
  | .right => nspN rem ++ text

/-- `getMaxWordWidth` (src/index.ts:223): widest split piece. -/
def getMaxWordWidth (text : String) (textWidth : String → ℕ) : ℕ :=
  (splitWs text.data).foldl (fun m w => max m (textWidth w)) 0

/-! ## Greedy text wrapper (`wrapText`, src/index.ts:234-317)

The mutable loop state is the record below; the loop body is
`wrapTextStep`, run over the (word, run) pairs by `wrapTextCore`.
Emitted lines are kept together with the `lineWidth` at which they were
flushed (the source pushes `alignInternal(line.join(''), lineWidth, …)`;
`wrapText` projects the strings back out). -/

structure WrapSt where
  line : List String
  lineWidth : ℕ
  prevSpaceWidth : ℕ
  maxWidth : ℤ
  lines : List (String × ℕ)

/-- One iteration of the `wrapText` loop for the pair (word, space). -/
def wrapTextStep (width : ℤ) (margin : ℕ) (align : Align) (textWidth : String → ℕ)
    (st : WrapSt) (tok : String × String) : WrapSt :=
  let word := tok.1
  let space := tok.2
  -- src:254 — a forced `\n` break has width 0; `space = ""` is the final
  -- no-match iteration, whose width the source sets to 0 without measuring.
  let spaceWidth : ℕ := if space = "" ∨ space = "\n" then 0 else textWidth space
  let wordWidth := textWidth word
  let nextLineWidth := st.lineWidth + wordWidth
  -- src:266-285 — place the word, flushing the line first if it overflows
  let st1 : WrapSt :=
    if (nextLineWidth : ℤ) ≤ width - margin ∨ st.lineWidth ≤ margin then
      { st with line := st.line ++ [word], lineWidth := nextLineWidth }
    else
      -- here st.lineWidth > margin, so the inner `if` of src:270 fires
      let popped :=
        if st.prevSpaceWidth > 0 then
          { st with line := st.line.dropLast, lineWidth := st.lineWidth - st.prevSpaceWidth }
        else st
      let flushWidth := popped.lineWidth + margin
      let flushed := String.join (popped.line ++ [nspN margin])
      { line := [nspN margin, word]
        lineWidth := margin + wordWidth
        prevSpaceWidth := st.prevSpaceWidth
        maxWidth := max popped.maxWidth (flushWidth : ℤ)
        lines := popped.lines ++ [(alignInternal flushed flushWidth width align, flushWidth)] }
  -- src:287-302 — place the run, or flush at it
  let nextLineWidth2 := st1.lineWidth + spaceWidth
  if (nextLineWidth2 : ℤ) < width - margin ∧ space ≠ "\n" then
    { st1 with line := st1.line ++ [space], lineWidth := nextLineWidth2,
               prevSpaceWidth := spaceWidth }
  else
    let flushWidth := st1.lineWidth + margin
    let flushed := String.join (st1.line ++ [nspN margin])
    { line := [nspN margin]
      lineWidth := margin
      prevSpaceWidth := 0
      maxWidth := max st1.maxWidth (flushWidth : ℤ)
      lines := st1.lines ++ [(alignInternal flushed flushWidth width align, flushWidth)] }

/-- Initial state of the `wrapText` loop (src:236-244). -/
def wrapTextInit (width : ℤ) (margin : ℕ) : WrapSt :=
  { line := [nspN margin], lineWidth := margin, prevSpaceWidth := 0,
    maxWidth := width, lines := [] }

/-- The trailing flush (src:307-314). -/
def wrapTextFinish (width : ℤ) (margin : ℕ) (align : Align) (st : WrapSt) : WrapSt :=
  if st.lineWidth > margin then
    let flushWidth := st.lineWidth + margin
    let flushed := String.join (st.line ++ [nspN margin])
    { st with
      maxWidth := max st.maxWidth (flushWidth : ℤ)
      lines := st.lines ++ [(alignInternal flushed flushWidth width align, flushWidth)] }
  else st

/-- The full `wrapText` loop over the token pairs. -/
def wrapTextCore (width : ℤ) (align : Align) (margin : ℕ)
    (textWidth : String → ℕ) (text : String) : WrapSt :=
  wrapTextFinish width margin align
    ((tokenizeWs text.data).foldl (wrapTextStep width margin align textWidth)
      (wrapTextInit width margin))

/-- `wrapText` (src/index.ts:234): wrapped lines and the `maxWidth` result. -/
def wrapText (text : String) (width : ℤ) (align : Align := .left) (margin : ℕ := 0)
    (textWidth : String → ℕ := getTextWidth) : List String × ℤ :=
  let st := wrapTextCore width align margin textWidth text
  (st.lines.map Prod.fst, st.maxWidth)

/-! ## Colored-token line wrapper (`wrapColoredText`, src/index.ts:89-208)

Items are (optional text, optional color) pairs; a bare string item of the
source is `(some s, none)`. -/

structure WrapColoredTextOptions where
  width : Option ℕ := none
  textWidth : Option (String → ℕ) := none
  textColor : Option Color := none
  backgroundColor : Option Color := none
  margin : Option ℕ := none
  spacing : Option ℕ := none

/-- Default text color given a background (src:102-105; same rule at
src:330-333). -/
def defaultTextColor (backgroundColor : Color) : Color :=
  if backgroundColor = .white then .black
  else if backgroundColor = .default then .default
  else .white

/-- State of the `wrapColoredText` loop. -/
structure WctSt where
  lineWidth : ℕ
  buf : List String
  lines : List String

/-- Flush the current buffer (src:136-139 et al.): pad to `width` with
spaces, append the reset, emit. -/
def wctFlush (width : ℕ) (st : WctSt) : WctSt :=
  { lineWidth := st.lineWidth
    buf := []
    lines := st.lines ++ [String.join (st.buf ++ [nsp ((width : ℤ) - st.lineWidth), NORMAL])] }

/-- Word placement of the inner word-wrap (src:150-173): append the word to
the current line when it fits (or the line is empty), else flush and start a
fresh line with it. -/
def wctWordPlace (width margin : ℕ) (lineStart fg : String) (textWidth : String → ℕ)
    (st : WctSt) (word : String) : WctSt :=
  let wordWidth := textWidth word
  let nextLineWidth := st.lineWidth + (if st.buf = [] then margin else 0) + wordWidth
  if (nextLineWidth : ℤ) ≤ (width : ℤ) - margin ∨ st.buf = [] then
    { st with
      buf := (if st.buf = [] then [lineStart, fg] else st.buf) ++ [word]
      lineWidth := nextLineWidth }
  else
    let fl := wctFlush width st
    { fl with buf := [lineStart, fg, word], lineWidth := margin + wordWidth }

/-- Whitespace placement of the inner word-wrap (src:175-195): append the
run when it fits, else flush and reset the line width. -/
def wctSpacePlace (width margin : ℕ) (st1 : WctSt) (space : String) (spaceWidth : ℕ) :
    WctSt :=
  let nextLineWidth2 := st1.lineWidth + spaceWidth
  if (nextLineWidth2 : ℤ) ≤ (width : ℤ) - margin then
    { st1 with buf := st1.buf ++ [space], lineWidth := nextLineWidth2 }
  else
    let fl := wctFlush width st1
    { fl with lineWidth := 0 }

/-- Inner word-wrap of one oversized item (src:146-196), one (word, run)
pair. -/
def wctWordStep (width margin : ℕ) (lineStart fg : String) (textWidth : String → ℕ)
    (st : WctSt) (tok : String × String) : WctSt :=
  wctSpacePlace width margin (wctWordPlace width margin lineStart fg textWidth st tok.1)
    tok.2 (if tok.2 = "" then 0 else textWidth tok.2)

/-- One item of the `wrapColoredText` loop (src:118-200). -/
def wctItemStep (width margin spacing : ℕ) (lineStart sep textFG : String)
    (textWidth : String → ℕ) (st : WctSt) (item : Option String × Option Color) : WctSt :=
  match item.1 with
  | none => st
  | some t =>
    if t = "" then st  -- JS truthiness: the empty string is skipped
    else
      let fg := (item.2.map fun c => (COLOR_MAP c).1).getD textFG
      let itemWidth := textWidth t
      let nextLineWidth := st.lineWidth + (if st.buf = [] then margin else spacing) + itemWidth
      if (nextLineWidth : ℤ) ≤ (width : ℤ) - margin then
        { st with
          buf := st.buf ++ [if st.buf = [] then lineStart else sep, fg, t]
          lineWidth := nextLineWidth }
      else
        let st1 := if st.buf = [] then st else wctFlush width st
        let lineWidth1 := margin + itemWidth
        if (lineWidth1 : ℤ) ≤ (width : ℤ) - margin then
          { st1 with buf := [lineStart, fg, t], lineWidth := lineWidth1 }
        else
          (tokenizeWs t.data).foldl (wctWordStep width margin lineStart fg textWidth)
            { st1 with lineWidth := 0 }

/-- `wrapColoredText` (src/index.ts:98). -/
def wrapColoredText (items : List (Option String × Option Color))
    (options : WrapColoredTextOptions := {}) : List String :=
  let width := options.width.getD 80
  let textWidth := options.textWidth.getD getTextWidth
  let backgroundColor := options.backgroundColor.getD .black
  let textColor := options.textColor.getD (defaultTextColor backgroundColor)
  let margin := options.margin.getD 1
  let spacing := options.spacing.getD 2
  let bg := (COLOR_MAP backgroundColor).2
  let textFG := (COLOR_MAP textColor).1
  let lineStart := bg ++ textFG ++ nspN margin
  let sep := textFG ++ nspN spacing
  let st := items.foldl (wctItemStep width margin spacing lineStart sep textFG textWidth)
    { lineWidth := 0, buf := [], lines := [] }
  if st.buf = [] then st.lines else (wctFlush width st).lines

/-! ## Series normalisation (src/index.ts:326-377) -/

/-- `Orientation` (src/index.ts:1). -/
inductive Orientation where
  | horizontal | vertical
deriving DecidableEq, Repr

/-- `LabelPosition` (src/index.ts:2). -/
inductive LabelPosition where
  | before | after
deriving DecidableEq, Repr

/-- A `DataSeries` (src/index.ts:70).  A bare `NumberArray` input item is
the same as a series with no label and no color. -/
structure DataSeries where
  label : Option String := none
  color : Option Color := none
  data : List ℚ

/-- A `ColoredDataSeries` (src/index.ts:76): a series whose color has been
resolved. -/
structure CSeries where
  label : Option String
  color : Color
  data : List ℚ

/-- The auto-assignment cycle (src:335-337): copy `DEFAULT_COLOR_SEQUENCE`
and `splice` out the entry `findIndex` locates.  When the background color
is not in the sequence `findIndex` yields `-1`, and `splice(-1, 1)` removes
the *last* element instead. -/
def removeBackgroundColor (backgroundColor : Color) : List Color :=
  match DEFAULT_COLOR_SEQUENCE.findIdx? (· = backgroundColor) with
  | some i => DEFAULT_COLOR_SEQUENCE.eraseIdx i
  | none => DEFAULT_COLOR_SEQUENCE.eraseIdx (DEFAULT_COLOR_SEQUENCE.length - 1)

/-- `defaultColors[(defaultColors.indexOf(prev) + 1) % defaultColors.length]`
(src:350).  `indexOf` yields `-1` when absent, making the index `0`.
(The cycle always has 7 elements, so the `getD` default is unreachable.) -/
def nextAutoColor (cycle : List Color) (prev : Color) : Color :=
  let i : ℤ := match cycle.findIdx? (· = prev) with
    | some k => (k : ℤ)
    | none => -1
  cycle.getD ((i + 1).toNat % cycle.length) .black

/-- The auto color for one series: the cycle head for the series at index 0,
else the cycle successor of the previous series' resolved color
(src:348-350/355-357). -/
def autoColor (cycle : List Color) (prev : Option Color) : Color :=
  match prev with
  | none => cycle.getD 0 .black
  | some p => nextAutoColor cycle p

/-- The color-resolution loop of src:342-377, threading the previous
series' resolved color.  An explicit `color` is preserved. -/
def assignColors (cycle : List Color) : Option Color → List DataSeries → List CSeries
  | _, [] => []
  | prev, s :: rest =>
    let c := s.color.getD (autoColor cycle prev)
    ⟨s.label, c, s.data⟩ :: assignColors cycle (some c) rest

/-- One step of the running-minimum fold: `if (y < yMin) yMin = y`, where
`none` stands for the initial `Infinity` (src:340,371-373). -/
def foldMinQ (acc : Option ℚ) (y : ℚ) : Option ℚ :=
  match acc with
  | none => some y
  | some a => if y < a then some y else some a

/-- One step of the running-maximum fold: `if (y > yMax) yMax = y`, where
`none` stands for the initial `-Infinity` (src:341,367-369). -/
def foldMaxQ (acc : Option ℚ) (y : ℚ) : Option ℚ :=
  match acc with
  | none => some y
  | some a => if y > a then some y else some a

/-- Global minimum over all series' values (`yMin`, src:340-374). -/
def yMinOf (datas : List CSeries) : Option ℚ :=
  datas.foldl (fun acc s => s.data.foldl foldMinQ acc) none

/-- Global maximum over all series' values (`yMax`, src:341-374). -/
def yMaxOf (datas : List CSeries) : Option ℚ :=
  datas.foldl (fun acc s => s.data.foldl foldMaxQ acc) none

/-- `xSize`: maximum series length (src:339,361-364). -/
def xSizeOf (datas : List CSeries) : ℕ :=
  datas.foldl (fun m s => max m s.data.length) 0

/-- All data values of all series, in iteration order (the values the
`yMin`/`yMax` loop of src:366-374 visits). -/
def allValues (datas : List CSeries) : List ℚ :=
  (datas.map fun s => s.data).flatten

/-! ## Domain resolution and eighths quantisation -/

/-- Resolution of the rendering domain (src:421-431): an explicit `yRange`
is used verbatim, else `yStart = yMin > 0 ? 0 : yMin` and
`yEnd = yMax < 0 ? 0 : yMax`.  `none` models the initial `±Infinity` of the
empty-data case, for which the JS comparisons also produce `(0, 0)`. -/
def resolveDomain (yRange : Option (ℚ × ℚ)) (yMin yMax : Option ℚ) : ℚ × ℚ :=
  match yRange with
  | some r => r
  | none =>
    (match yMin with
     | none => 0
     | some q => if q > 0 then 0 else q,
     match yMax with
     | none => 0
     | some q => if q < 0 then 0 else q)

/-- The eighths quantisation (src:568-572 and src:913-916):
`intY = subChar * (y / ySize)` rounded with `Math.floor` when negative and
`Math.ceil` otherwise, where `subChar` is `chartHeight * 8`
(resp. `chartWidth * 8`). -/
def quantizeEighths (y ySize : ℚ) (subChar : ℤ) : ℤ :=
  let intY : ℚ := (subChar : ℚ) * (y / ySize)
  if intY < 0 then ⌊intY⌋ else ⌈intY⌉

/-- The `BarChartOptions` record (src/index.ts:4-66), all fields optional.
`yLabel`/`xLabel` are modelled after the conversion of src:418-419:
`false`/absent is `none`, a formatter is `some f` (the `true` case is
`some` of JS number stringification, which no claim exercises). -/
structure BarChartOptions where
  yLabel : Option (ℚ → String) := none
  xLabel : Option (ℕ → String) := none
  yLabelMin : Option Bool := none
  yLabelMax : Option Bool := none
  yLabelPosition : Option LabelPosition := none
  xLabelPosition : Option LabelPosition := none
  width : Option ℕ := none
  height : Option ℕ := none
  barWidth : Option ℤ := none
  yRange : Option (ℚ × ℚ) := none
  orientation : Option Orientation := none
  backgroundColor : Option Color := none
  textColor : Option Color := none
  textWidth : Option (String → ℕ) := none

/-! ## The chart engine (`unicodeBarChart`, src/index.ts:326-1030) -/

/-- JS `Map.set`: update the entry for `k` in insertion order, or append. -/
def mapSet (m : List (ℤ × String)) (k : ℤ) (v : String) : List (ℤ × String) :=
  if m.any (fun p => p.1 = k) then m.map (fun p => if p.1 = k then (k, v) else p)
  else m ++ [(k, v)]

/-- JS `Map.get`. -/
def mapGet (m : List (ℤ × String)) (k : ℤ) : Option String :=
  (m.find? (fun p => p.1 = k)).map Prod.snd

/-- Everything src:329-436 resolves before the orientation split. -/
structure Env where
  datas : List CSeries
  xSize : ℕ
  width : ℕ
  height : ℕ
  textWidth : String → ℕ
  backgroundColor : Color
  textColor : Color
  footer : List String
  yStart : ℚ
  yEnd : ℚ
  yMinUsed : ℚ
  yMaxUsed : ℚ
  opts : BarChartOptions

def Env.bg (e : Env) : String := (COLOR_MAP e.backgroundColor).2
def Env.bgInv (e : Env) : String := (COLOR_MAP e.backgroundColor).1
def Env.textFG (e : Env) : String := (COLOR_MAP e.textColor).1
def Env.ySize (e : Env) : ℚ := e.yEnd - e.yStart
def Env.yZero (e : Env) : ℚ := -e.yStart

/-- The legend footer (src:388-396): one background-styled blank line, then
the series labels wrapped by `wrapColoredText`. -/
def mkFooter (datas : List CSeries) (width : ℕ) (textWidth : String → ℕ)
    (textColor backgroundColor : Color) : List String :=
  ((COLOR_MAP backgroundColor).2 ++ (COLOR_MAP textColor).1 ++ nspN width ++ NORMAL) ::
    wrapColoredText (datas.map fun s => (s.label, some s.color))
      { width := some width, textWidth := some textWidth,
        textColor := some textColor, backgroundColor := some backgroundColor }

/-- src:329-436: resolve colors, sizes, extrema, footer and domain. -/
def mkEnv (data : List DataSeries) (options : BarChartOptions) : Env :=
  let backgroundColor := options.backgroundColor.getD .black
  let textColor := options.textColor.getD (defaultTextColor backgroundColor)
  let datas := assignColors (removeBackgroundColor backgroundColor) none data
  let width := options.width.getD 80
  let height := options.height.getD 40
  let textWidth := options.textWidth.getD getTextWidth
  let yMin := yMinOf datas
  let yMax := yMaxOf datas
  let dom := resolveDomain options.yRange yMin yMax
  { datas, xSize := xSizeOf datas, width, height, textWidth,
    backgroundColor, textColor,
    footer := mkFooter datas width textWidth textColor backgroundColor,
    yStart := dom.1, yEnd := dom.2,
    -- `yMin`/`yMax` are only read (for labels) on the non-degenerate path,
    -- where at least one value exists; `getD 0` totalises the unreachable case
    yMinUsed := yMin.getD 0, yMaxUsed := yMax.getD 0,
    opts := options }

/-- The degenerate blank canvas (src:403-416 and src:543-556): `chartHeight`
blank rows plus the footer when the footer fits below `height`, else
`height` blank rows.  (A negative `chartHeight` contributes no rows.) -/
def blankCanvas (width height : ℕ) (chartHeight : ℤ) (footer : List String) : List String :=
  if footer.length < height then
    List.replicate chartHeight.toNat (nspN width) ++ footer
  else
    List.replicate height (nspN width)

/-- The first degenerate check (src:403): no data points, more bars per
group than columns, or no row left under the footer. -/
def degenerate1 (e : Env) : Prop :=
  e.xSize = 0 ∨ (e.width : ℤ) < e.datas.length * e.xSize ∨ (e.height : ℤ) - e.footer.length ≤ 0

instance (e : Env) : Decidable (degenerate1 e) := by
  unfold degenerate1; infer_instance

/-! ### Horizontal orientation (src:438-689) -/

/-- The y-axis label values `[yStart, yEnd, 0] (++ yMin) (++ yMax)`
(src:448-456). -/
def hYLabelValues (e : Env) : List ℚ :=
  [e.yStart, e.yEnd, 0] ++ (if e.opts.yLabelMin.getD true then [e.yMinUsed] else [])
    ++ (if e.opts.yLabelMax.getD true then [e.yMaxUsed] else [])

/-- Layout quantities of the horizontal branch, src:441-541. -/
structure HLayout where
  yLabels : List (ℚ × String × ℕ)
  maxYLabelWidth : ℕ
  chartWidth : ℤ
  barWidth : ℤ
  hSpaceWidth : ℤ
  endSpace : String
  header : List String
  footer2 : List String
  chartHeight : ℤ

/-- The full-label x-label band of the horizontal branch (src:498-505):
one line per wrapped label row, padded left and right.  src:501 computes
the right `repeat` unguarded; the negative remainder (reachable only in a
corner where JS throws) is clamped here. -/
def hFitsLines (e : Env) (lpadWidth maxLabelWidth : ℤ) (maxLabelLines : ℕ)
    (xLabels : List (String × List String × ℤ)) : List String :=
  let emptyLabel := nsp maxLabelWidth
  let rpad := nsp ((e.width : ℤ) - maxLabelWidth * e.xSize - lpadWidth)
  (List.range maxLabelLines).map fun i =>
    e.bg ++ e.textFG ++ nsp lpadWidth ++
      String.join (xLabels.map fun p => p.2.1.getD i emptyLabel) ++ rpad ++ NORMAL

/-- The numbered-marker x-label line of the horizontal branch
(src:507-517); JS `space >> 1` is an arithmetic shift. -/
def hMarkerLine (e : Env) (lpadWidth maxLabelWidth : ℤ) : List String :=
  [e.bg ++ e.textFG ++ nsp lpadWidth ++
    String.join ((List.range e.xSize).map fun x =>
      let fn := toString (x + 1)
      let space : ℤ := maxLabelWidth - e.textWidth fn
      let lp := Int.fdiv space 2
      nsp lp ++ fn ++ nsp (space - lp)) ++
    nsp ((e.width : ℤ) - (lpadWidth + e.xSize * maxLabelWidth)) ++ NORMAL]

/-- The numbered-footnote block of the horizontal branch (src:519-529):
one styled blank line, then the `[n] label` list wrapped. -/
def hFootnote (e : Env) (f : ℕ → String) : List String :=
  (e.bg ++ e.textFG ++ nspN e.width ++ NORMAL) ::
    wrapColoredText ((List.range e.xSize).map fun x =>
        (some ("[" ++ toString (x + 1) ++ "] " ++ f x), none))
      { width := some e.width, textWidth := some e.textWidth,
        textColor := some e.textColor, backgroundColor := some e.backgroundColor }

/-- src:441-541: reserve the y-label column, size the bars, and lay out the
x-labels (full wrapped labels in a header/footer band when they fit, else a
numbered-marker line plus a footnote list in the footer). -/
def horizLayout (e : Env) : HLayout :=
  let yLabels := match e.opts.yLabel with
    | none => []
    | some f => (hYLabelValues e).map fun y =>
        let l := f y
        (y, l, e.textWidth l)
  let maxYLabelWidth : ℕ := yLabels.foldl (fun m p => max m p.2.2) 0
  let chartWidth : ℤ :=
    (e.width : ℤ) - (if e.opts.yLabel.isSome then (maxYLabelWidth : ℤ) + 1 else 0)
  let barWidth := e.opts.barWidth.getD
    (max (idiv0 chartWidth (1 + ((e.datas.length : ℤ) + 1) * e.xSize)) 1)
  let hSpaceWidth :=
    max (idiv0 (chartWidth - e.datas.length * barWidth * e.xSize) ((e.xSize : ℤ) + 1)) 0
  let endSpace := nsp (max (chartWidth - e.xSize * (e.datas.length * barWidth + hSpaceWidth)) 0)
  match e.opts.xLabel with
  | none =>
    { yLabels, maxYLabelWidth, chartWidth, barWidth, hSpaceWidth, endSpace,
      header := [], footer2 := e.footer,
      chartHeight := (e.height : ℤ) - e.footer.length }
  | some f =>
    let xLabelPosition := e.opts.xLabelPosition.getD .after
    let yLabelPosition := e.opts.yLabelPosition.getD .after
    let maxLabelWidth : ℤ := barWidth * e.datas.length + hSpaceWidth
    let xLabels := (List.range e.xSize).map fun x =>
      (f x, wrapText (f x) maxLabelWidth .center 1 e.textWidth)
    let maxActualLabelWidth : ℤ := xLabels.foldl (fun m p => max m p.2.2) 0
    let maxLabelLines := xLabels.foldl (fun m p => max m p.2.1.length) 0
    -- `Math.ceil(hSpaceWidth / 2)` (src:496); `hSpaceWidth ≥ 0`
    let lpadWidth : ℤ := (hSpaceWidth + 1).tdiv 2 +
      (if yLabelPosition = .before then (maxYLabelWidth : ℤ) + 1 else 0)
    let fits := maxActualLabelWidth ≤ maxLabelWidth
    let sectionLines : List String :=
      if fits then hFitsLines e lpadWidth maxLabelWidth maxLabelLines xLabels
      else hMarkerLine e lpadWidth maxLabelWidth
    let footnoteFooter : List String :=
      if fits then [] else hFootnote e f
    let header := if xLabelPosition = .before then sectionLines else []
    let footer2 := (if xLabelPosition = .after then sectionLines else []) ++ footnoteFooter ++ e.footer
    { yLabels, maxYLabelWidth, chartWidth, barWidth, hSpaceWidth, endSpace,
      header, footer2,
      chartHeight := (e.height : ℤ) - footer2.length - header.length }

/-- The second degenerate check (src:543). -/
def degenerate2 (e : Env) (L : HLayout) : Prop :=
  L.chartHeight ≤ 0 ∨
    L.chartWidth < e.datas.length * e.xSize * L.barWidth + ((e.xSize : ℤ) + 1) * L.hSpaceWidth

instance (e : Env) (L : HLayout) : Decidable (degenerate2 e L) := by
  unfold degenerate2; infer_instance

/-- What the bar for quantised `value` contributes to chart row `r`
(src:607-667 transcribed row-wise; `E` is the clamped `yEndIndex`, `Z` the
clamped `clampedYZeroIndex`).  For `value ≥ 0` the loops paint rows
`0 ≤ r ≤ E-2` with spaces, row `E-1` with the `value % 8` partial glyph
(space when the remainder is 0), rows up to `Z` with full blocks and the
rest with spaces; row indices `≤ E-2`/`= E-1` are unpopulated when `E = 0`,
exactly as the `yIndex < chartHeight` guard skips them.  For `value < 0`
rows `0..Z` are spaces, rows `Z+1..E-1` full blocks, the row
`max (Z+1) E` holds the inverted partial glyph when the remainder is
non-zero, and the rest are spaces. -/
def hBarSeg (value E Z barWidth : ℤ) (fg fgInv textFG bg bgInv : String) (r : ℤ) : String :=
  let sub := Int.tmod value 8
  if 0 ≤ value then
    if r ≤ E - 2 then crep ' ' barWidth
    else if r = E - 1 then
      if sub ≠ 0 then fg ++ crep (VCHAR_MAP.getD sub.toNat ' ') barWidth ++ textFG
      else crep ' ' barWidth
    else if r ≤ Z then fg ++ crep '█' barWidth ++ textFG
    else crep ' ' barWidth
  else
    if r ≤ Z then crep ' ' barWidth
    else if r < E then fg ++ crep '█' barWidth ++ textFG
    else if r = max (Z + 1) E ∧ sub ≠ 0 then
      bgInv ++ fgInv ++ crep (VCHAR_MAP.getD (8 + sub).toNat ' ') barWidth ++ textFG ++ bg
    else crep ' ' barWidth

/-- `yEndIndex` clamped into `[0, chartHeight]` (src:615-620). -/
def clampEnd (chartHeight v : ℤ) : ℤ :=
  if v < 0 then 0 else if v > chartHeight then chartHeight else v

/-- The y-label row map of the horizontal branch (src:577-587). -/
def hYLabelMap (e : Env) (L : HLayout) (intYZero : ℤ) : List (ℤ × String) :=
  L.yLabels.foldl (fun m p =>
    let yIndex : ℤ :=
      if p.1 = e.yEnd then 0
      else if p.1 = e.yStart then L.chartHeight - 1
      else L.chartHeight - or0 (((L.chartHeight * 8 : ℤ) : ℚ) * (p.1 / e.ySize) / 8) -
        idiv0 intYZero 8 - 1
    if 0 ≤ yIndex ∧ yIndex < L.chartHeight then
      mapSet m yIndex (p.2.1 ++ nspN (L.maxYLabelWidth - p.2.2))
    else m) []

/-- The left end of a horizontal chart row (src:589-603). -/
def hRowStart (e : Env) (L : HLayout) (yLabelMap : List (ℤ × String)) (r : ℕ) : String :=
  let labelFiller := nspN (1 + L.maxYLabelWidth)
  if e.opts.yLabelPosition.getD .after = .before then
    match mapGet yLabelMap r with
    | some l => if l = "" then e.bg ++ e.textFG ++ labelFiller
                else e.bg ++ e.textFG ++ l ++ " "
    | none => e.bg ++ e.textFG ++ labelFiller
  else e.bg ++ e.textFG

/-- The bar segments of a horizontal chart row (src:605-669). -/
def hRowBars (e : Env) (L : HLayout) (intYZero : ℤ) (intValues : List (List ℤ)) (r : ℕ) :
    String :=
  let zRows := idiv0 intYZero 8
  let zIdx := min (max (L.chartHeight - zRows - 1) 0) (L.chartHeight - 1)
  String.join ((List.range e.xSize).map fun x =>
    String.join (e.datas.enum.map fun pr =>
      let value := (intValues.getD pr.1 []).getD x 0
      let fg := (COLOR_MAP pr.2.color).1
      let fgInv := (COLOR_MAP pr.2.color).2
      let E := clampEnd L.chartHeight (L.chartHeight - idiv0 value 8 - zRows)
      (if pr.1 = 0 then nsp L.hSpaceWidth else "") ++
        hBarSeg value E zIdx L.barWidth fg fgInv e.textFG e.bg e.bgInv r))

/-- The right end of a horizontal chart row (src:671-685). -/
def hRowEnd (e : Env) (L : HLayout) (yLabelMap : List (ℤ × String)) (r : ℕ) : String :=
  let labelFiller := nspN (1 + L.maxYLabelWidth)
  if e.opts.yLabelPosition.getD .after = .after then
    match mapGet yLabelMap r with
    | some l => if l = "" then L.endSpace ++ labelFiller ++ NORMAL
                else L.endSpace ++ " " ++ l ++ NORMAL
    | none => L.endSpace ++ labelFiller ++ NORMAL
  else L.endSpace ++ NORMAL

/-- The integer core of the horizontal rasterisation (src:558-689):
everything after `intYZero` (src:561) and the `intValues` quantisation
(src:565-575) have been computed.  Split out so that those two
rational-valued computations are isolated in `hRender`. -/
def hRenderCore (e : Env) (L : HLayout) (intYZero : ℤ) (intValues : List (List ℤ)) :
    List String :=
  let yLabelMap := hYLabelMap e L intYZero
  L.header ++
    (List.range L.chartHeight.toNat).map
      (fun r => hRowStart e L yLabelMap r ++ hRowBars e L intYZero intValues r ++
        hRowEnd e L yLabelMap r) ++
    L.footer2

/-- Rasterisation and assembly of the horizontal chart (src:558-689),
assuming both degenerate checks have passed. -/
def hRender (e : Env) (L : HLayout) : List String :=
  let ySize := e.ySize
  let subCharHeight := L.chartHeight * 8
  hRenderCore e L (or0 ((subCharHeight : ℚ) * (e.yZero / ySize)))
    (e.datas.map fun s =>
      (List.range e.xSize).map fun x =>
        toInt32 (quantizeEighths (s.data.getD x 0) ySize subCharHeight))

/-! ### Vertical orientation (src:690-1025) -/

/-- Layout quantities of the vertical branch, src:691-830. -/
structure VLayout where
  chartHeight : ℤ
  barWidth : ℤ
  vSpaceWidth : ℤ
  chartWidth : ℤ
  prefixWidth : ℕ
  pfx : List String
  sfx : List String
  footerV : List String

/-- The x-label band builder shared by the fits- and footnote-branches
(src:743-764 and src:796-814): `linesBefore` empty lines, then each label
block centred in `fullV` rows, then padding up to `chartHeight`. -/
def vLabelSection (fullV linesBefore chartHeight : ℤ) (emptyLine : String)
    (blocks : List (List String)) : List String :=
  let mid := blocks.foldl (fun acc ls =>
    let rem := fullV - ls.length
    let after := Int.fdiv rem 2  -- `rem >> 1`
    let before := rem - after
    acc ++ List.replicate before.toNat emptyLine ++ ls ++
      List.replicate after.toNat emptyLine)
    (List.replicate linesBefore.toNat emptyLine)
  mid ++ List.replicate (chartHeight - mid.length).toNat emptyLine

/-- The numbered-footnote block of the vertical branch (src:778-787): one
styled blank line, then the `[n] label` list wrapped. -/
def vFootnote (e : Env) (labels : List String) : List String :=
  (e.bg ++ e.textFG ++ nspN e.width ++ NORMAL) ::
    wrapColoredText (labels.enum.map fun p =>
        (some ("[" ++ toString (p.1 + 1) ++ "] " ++ p.2), none))
      { width := some e.width, textWidth := some e.textWidth,
        textColor := some e.textColor, backgroundColor := some e.backgroundColor }

/-- src:691-830: bar/space sizing and the x-label column (wrapped labels
when they fit beside the bars, else numeric markers plus a footnote list
appended to the footer, with the bar sizing recomputed). -/
def vLayout (e : Env) : VLayout :=
  let xLabelPosition := e.opts.xLabelPosition.getD .before
  let yl := e.opts.yLabel.isSome
  let ch1 : ℤ := (e.height : ℤ) - e.footer.length - (if yl then 1 else 0)
  let bw1 := e.opts.barWidth.getD
    (max (idiv0 ch1 (1 + ((e.datas.length : ℤ) + 1) * e.xSize)) 1)
  let vs1 := max (idiv0 (ch1 - e.datas.length * bw1 * e.xSize) ((e.xSize : ℤ) + 1)) 0
  match e.opts.xLabel with
  | none =>
    { chartHeight := ch1, barWidth := bw1, vSpaceWidth := vs1,
      chartWidth := (e.width : ℤ), prefixWidth := 0, pfx := [], sfx := [],
      footerV := e.footer }
  | some f =>
    let labels := (List.range e.xSize).map f
    let maxWordWidth := labels.foldl (fun m l => max m (getMaxWordWidth l e.textWidth)) 0
    let maxSingleLineLabelWidth := labels.foldl (fun m l => max m (e.textWidth l)) 0
    let maxLabelWidth : ℕ :=
      min (max maxWordWidth (min 16 maxSingleLineLabelWidth)) (e.width / 2)
    let align : Align := if xLabelPosition = .before then .right else .left
    let xLabels := labels.map fun l => wrapText l (maxLabelWidth : ℤ) align 0 e.textWidth
    let maxActualLabelWidth : ℤ := xLabels.foldl (fun m p => max m p.2) 0
    let maxLabelLines := xLabels.foldl (fun m p => max m p.1.length) 0
    let vLabelSpace : ℤ := e.datas.length * bw1 + max (vs1 - 2) 0
    if (maxLabelLines : ℤ) ≤ vLabelSpace ∧ maxActualLabelWidth ≤ (maxLabelWidth : ℤ) then
      let sectionLines := vLabelSection (e.datas.length * bw1 + vs1) (Int.fdiv vs1 2) ch1
        (nspN maxLabelWidth) (xLabels.map Prod.fst)
      { chartHeight := ch1, barWidth := bw1, vSpaceWidth := vs1,
        chartWidth := (e.width : ℤ) - maxLabelWidth,
        prefixWidth := if xLabelPosition = .before then maxLabelWidth else 0,
        pfx := if xLabelPosition = .before then sectionLines else [],
        sfx := if xLabelPosition = .before then [] else sectionLines,
        footerV := e.footer }
    else
      let footerV := e.footer ++ vFootnote e labels
      let ch2 : ℤ := (e.height : ℤ) - footerV.length - (if yl then 1 else 0)
      let bw2 := e.opts.barWidth.getD
        (max (idiv0 ch2 (1 + ((e.datas.length : ℤ) + 1) * e.xSize)) 1)
      let vs2 := max (idiv0 (ch2 - e.datas.length * bw2 * e.xSize) ((e.xSize : ℤ) + 1)) 0
      let shortLabels := (List.range e.xSize).map fun x =>
        let l := toString (x + 1)
        (l, e.textWidth l)
      let maxLabelWidth2 : ℕ := if e.xSize > 0 then ((shortLabels.getLast?).getD ("", 0)).2 else 0
      let sectionLines := vLabelSection (e.datas.length * bw2 + vs2) (Int.fdiv vs2 2) ch2
        (nspN maxLabelWidth2)
        (shortLabels.map fun p => [alignInternal p.1 p.2 (maxLabelWidth2 : ℤ) align])
      { chartHeight := ch2, barWidth := bw2, vSpaceWidth := vs2,
        chartWidth := (e.width : ℤ) - maxLabelWidth2,
        prefixWidth := if xLabelPosition = .before then maxLabelWidth2 else 0,
        pfx := if xLabelPosition = .before then sectionLines else [],
        sfx := if xLabelPosition = .before then [] else sectionLines,
        footerV := footerV }

/-- One vertical bar line (src:938-1012), built left to right.  `E` is the
clamped `yEndIndex`, `Z` the clamped zero column; `yIndex` walks from the
rightmost column `chartWidth - 1` down to `0` exactly as in the source. -/
def vBarLine (chartWidth E Z value : ℤ) (fg fgInv textFG bg bgInv : String) : String :=
  let sub := Int.tmod value 8
  if 0 ≤ value then
    let y0 := chartWidth - 1
    let p1 := if y0 > Z then ([textFG, nsp (y0 - Z)], Z) else (([] : List String), y0)
    let p2 := if p1.2 ≥ E then (p1.1 ++ [fg, crep '█' (p1.2 - E + 1)], E - 1)
              else (p1.1 ++ [fg], p1.2)
    if p2.2 ≥ 0 then
      let p3 := if p2.2 = E - 1 ∧ sub ≠ 0 then
          (p2.1 ++ [String.mk [HCHAR_MAP.getD sub.toNat ' ']], p2.2 - 1)
        else p2
      String.join (p3.1 ++ [textFG] ++ (if p3.2 ≥ 0 then [nsp (p3.2 + 1)] else []))
    else String.join (p2.1 ++ [textFG])
  else
    let y0 := chartWidth - 1
    let p1 := if y0 > E then ([textFG, nsp (y0 - E)], E) else (([] : List String), y0)
    if p1.2 ≥ 0 then
      let p2 := if p1.2 = E then
          (if sub ≠ 0 then
            (p1.1 ++ [bgInv, fgInv, String.mk [HCHAR_MAP.getD (8 + sub).toNat ' '], bg, fg], p1.2 - 1)
          else (p1.1 ++ [" ", fg], p1.2 - 1))
        else (p1.1 ++ [fg], p1.2)
      let p3 := if p2.2 > Z then (p2.1 ++ [crep '█' (p2.2 - Z)], Z) else p2
      String.join (p3.1 ++ [textFG] ++ (if p3.2 ≥ 0 then [nsp (p3.2 + 1)] else []))
    else String.join (p1.1 ++ [textFG])

/-- The vertical y-label overlay line (src:837-907): candidate positions in
visit order, overlap suppression first-claimed-wins, stable sort by column,
gaps filled with spaces.  Note src:870 destructures `[left, labelWidth]`,
shadowing the candidate's own width: both widths of the overlap test are the
already-placed label's width, and that is transcribed faithfully here. -/
def vOverlay (e : Env) (f : ℚ → String) (subCharWidth zCols : ℤ) (prefixWidth : ℕ) : String :=
  let yValues :=
    (if e.opts.yLabelMin.getD true then [e.yMinUsed] else []) ++
    (if e.opts.yLabelMax.getD true then [e.yMaxUsed] else []) ++
    [e.yEnd, e.yStart, 0]
  let placed := yValues.foldl (fun (acc : List (ℤ × ℕ × String)) y =>
    let label := f y
    let lw := e.textWidth label
    let intY := quantizeEighths y e.ySize subCharWidth
    let yIndex0 : ℤ := idiv0 intY 8 + zCols + prefixWidth
    let yIndex1 := if yIndex0 + lw > (e.width : ℤ) then (e.width : ℤ) - lw else yIndex0
    let yIndex := if yIndex1 < 0 then 0 else yIndex1
    let overlap := acc.any fun q =>
      (yIndex ≥ q.1 ∧ q.1 + (q.2.1 : ℤ) > yIndex) ∨
        (q.1 ≥ yIndex ∧ yIndex + (q.2.1 : ℤ) > q.1)
    if overlap then acc else acc ++ [(yIndex, lw, label)]) []
  let sorted := placed.mergeSort (fun a b => a.1 ≤ b.1)
  let st := sorted.foldl (fun (st : ℤ × String) q =>
    (q.1 + q.2.1, st.2 ++ (if st.1 < q.1 then nsp (q.1 - st.1) else "") ++ q.2.2))
    ((0 : ℤ), "")
  e.bg ++ e.textFG ++ st.2 ++
    (if st.1 < (e.width : ℤ) then nsp ((e.width : ℤ) - st.1) else "") ++ NORMAL

/-- One emitted vertical line (src:945, :1017, :1023): background and text
escapes, the x-label column, the content, the suffix column, reset. -/
def vTemplate (e : Env) (pfx sfx : List String) (li : ℤ) (content : String) : String :=
  e.bg ++ e.textFG ++ pfx.getD li.toNat "" ++ content ++ sfx.getD li.toNat "" ++ NORMAL

/-- One series of one x-position of the vertical bar loop (src:935-1014):
prepend the spacer lines when this is the first series of the group, then
emit `barWidth` copies of the bar line. -/
def vInner (e : Env) (V : VLayout) (pfx sfx : List String) (zCols zIdx : ℤ)
    (intValues : List (List ℤ)) (x : ℕ) (acc2 : ℤ × List String) (pr : ℕ × CSeries) :
    ℤ × List String :=
  let value := (intValues.getD pr.1 []).getD x 0
  let fg := (COLOR_MAP pr.2.color).1
  let fgInv := (COLOR_MAP pr.2.color).2
  let E := clampEnd V.chartWidth (V.chartWidth - idiv0 value 8 - zCols)
  let withSpace : ℤ × List String :=
    if pr.1 = 0 then
      (acc2.1 + V.vSpaceWidth,
       acc2.2 ++ (List.range V.vSpaceWidth.toNat).map fun k =>
         vTemplate e pfx sfx (acc2.1 + k) (nsp V.chartWidth))
    else acc2
  let content := vBarLine V.chartWidth E zIdx value fg fgInv e.textFG e.bg e.bgInv
  (withSpace.1 + V.barWidth,
   withSpace.2 ++ (List.range V.barWidth.toNat).map fun k =>
     vTemplate e pfx sfx (withSpace.1 + k) content)

/-- One x-position of the vertical bar loop: fold `vInner` over the series. -/
def vStep (e : Env) (V : VLayout) (pfx sfx : List String) (zCols zIdx : ℤ)
    (intValues : List (List ℤ)) (acc : ℤ × List String) (x : ℕ) : ℤ × List String :=
  e.datas.enum.foldl (vInner e V pfx sfx zCols zIdx intValues x) acc

/-- Vertical orientation (src:690-1025). -/
def vRender (e : Env) : List String :=
  let V := vLayout e
  let yLabelPosition := e.opts.yLabelPosition.getD .before
  let pfx := V.pfx ++ List.replicate (V.chartHeight - V.pfx.length).toNat ""
  let sfx := V.sfx ++ List.replicate (V.chartHeight - V.sfx.length).toNat ""
  let ySize := e.ySize
  let subCharWidth := V.chartWidth * 8
  let intYZero := or0 ((subCharWidth : ℚ) * (e.yZero / ySize))
  let zCols := idiv0 intYZero 8
  let zIdx := min (max (V.chartWidth - zCols - 1) 0) (V.chartWidth - 1)
  let overlay := e.opts.yLabel.map fun f => vOverlay e f subCharWidth zCols V.prefixWidth
  let headLines := match overlay, yLabelPosition with
    | some l, .before => [l]
    | _, _ => []
  let footerF := match overlay, yLabelPosition with
    | some l, .after => l :: V.footerV
    | _, _ => V.footerV
  let intValues : List (List ℤ) := e.datas.map fun s =>
    (List.range e.xSize).map fun x =>
      toInt32 (quantizeEighths (s.data.getD x 0) ySize subCharWidth)
  let emptyLine := nsp V.chartWidth
  let template (li : ℤ) (content : String) : String := vTemplate e pfx sfx li content
  let st := (List.range e.xSize).foldl (vStep e V pfx sfx zCols zIdx intValues) ((0 : ℤ), [])
  let trailing := (List.range (V.chartHeight - st.1).toNat).map fun k =>
    template (st.1 + k) emptyLine
  headLines ++ st.2 ++ trailing ++ footerF



/-- `unicodeBarChart` (src/index.ts:326). -/
def unicodeBarChart (data : List DataSeries) (options : BarChartOptions := {}) : List String :=
  let e := mkEnv data options
  if degenerate1 e then
    blankCanvas e.width e.height ((e.height : ℤ) - e.footer.length) e.footer
  else
    match e.opts.orientation.getD .horizontal with
    | .horizontal =>
      let L := horizLayout e
      if degenerate2 e L then blankCanvas e.width e.height L.chartHeight L.footer2
      else hRender e L
    | .vertical => vRender e

/-! # Claims

Everything above embeds `src/index.ts`; the theorems below settle the
claims. -/

/-! ## C5: eighths quantisation -/

/-- C5: in horizontal rasterisation every data value is quantised to
`value / ySize * chartHeight * 8`, rounded with `floor` when the product is
negative and `ceil` when it is non-negative; a value of exactly 0 always
quantises to 0 eighths. -/
theorem claim_C5 : ∀ (y ySize : ℚ) (chartHeight : ℤ),
    (quantizeEighths y ySize (chartHeight * 8) =
      if y / ySize * chartHeight * 8 < 0 then ⌊y / ySize * chartHeight * 8⌋
      else ⌈y / ySize * chartHeight * 8⌉) ∧
    quantizeEighths 0 ySize (chartHeight * 8) = 0 := by
  intro y ySize chartHeight
  have key : ((chartHeight * 8 : ℤ) : ℚ) * (y / ySize) = y / ySize * chartHeight * 8 := by
    push_cast
    ring
  constructor
  · unfold quantizeEighths
    simp only [key]
  · unfold quantizeEighths
    simp

/-! ## C3: zero-inclusion of the resolved domain -/

theorem foldMinQ_some (l : List ℚ) (a : ℚ) :
    l.foldl foldMinQ (some a) = some (l.foldl min a) := by
  induction l generalizing a with
  | nil => rfl
  | cons y t ih =>
    have h1 : foldMinQ (some a) y = some (min a y) := by
      show (if y < a then some y else some a) = some (min a y)
      rcases lt_or_le y a with h | h
      · rw [if_pos h, min_eq_right h.le]
      · rw [if_neg (not_lt.mpr h), min_eq_left h]
    simp only [List.foldl_cons, h1, ih]

theorem foldMaxQ_some (l : List ℚ) (a : ℚ) :
    l.foldl foldMaxQ (some a) = some (l.foldl max a) := by
  induction l generalizing a with
  | nil => rfl
  | cons y t ih =>
    have h1 : foldMaxQ (some a) y = some (max a y) := by
      show (if y > a then some y else some a) = some (max a y)
      rcases lt_or_le a y with h | h
      · rw [if_pos h, max_eq_right h.le]
      · rw [if_neg (not_lt.mpr h), max_eq_left h]
    simp only [List.foldl_cons, h1, ih]

theorem foldMinQ_none (l : List ℚ) : l.foldl foldMinQ none = l.min? := by
  cases l with
  | nil => rfl
  | cons a t => simp only [List.foldl_cons, foldMinQ, foldMinQ_some t a, List.min?]

theorem foldMaxQ_none (l : List ℚ) : l.foldl foldMaxQ none = l.max? := by
  cases l with
  | nil => rfl
  | cons a t => simp only [List.foldl_cons, foldMaxQ, foldMaxQ_some t a, List.max?]

theorem yMinOf_eq_min? (datas : List CSeries) : yMinOf datas = (allValues datas).min? := by
  rw [← foldMinQ_none]
  unfold yMinOf allValues
  generalize (none : Option ℚ) = acc
  induction datas generalizing acc with
  | nil => rfl
  | cons s t ih =>
    simp only [List.foldl_cons, List.map_cons, List.flatten_cons, List.foldl_append]
    exact ih _

theorem yMaxOf_eq_max? (datas : List CSeries) : yMaxOf datas = (allValues datas).max? := by
  rw [← foldMaxQ_none]
  unfold yMaxOf allValues
  generalize (none : Option ℚ) = acc
  induction datas generalizing acc with
  | nil => rfl
  | cons s t ih =>
    simp only [List.foldl_cons, List.map_cons, List.flatten_cons, List.foldl_append]
    exact ih _

/-- C3: with no explicit `yRange`, the resolved domain is
`(min 0 yMin, max 0 yMax)`; for all-positive data `yStart = 0`, for
all-negative data `yEnd = 0`. -/
theorem claim_C3 : ∀ (datas : List CSeries) (m M : ℚ),
    (allValues datas).min? = some m → (allValues datas).max? = some M →
    resolveDomain none (yMinOf datas) (yMaxOf datas) = (min 0 m, max 0 M) ∧
    ((∀ v ∈ allValues datas, 0 < v) →
      (resolveDomain none (yMinOf datas) (yMaxOf datas)).1 = 0) ∧
    ((∀ v ∈ allValues datas, v < 0) →
      (resolveDomain none (yMinOf datas) (yMaxOf datas)).2 = 0) := by
  intro datas m M hm hM
  have hmin : yMinOf datas = some m := by rw [yMinOf_eq_min?, hm]
  have hmax : yMaxOf datas = some M := by rw [yMaxOf_eq_max?, hM]
  have hdom : resolveDomain none (yMinOf datas) (yMaxOf datas) = (min 0 m, max 0 M) := by
    rw [hmin, hmax]
    show ((if m > 0 then (0 : ℚ) else m, if M < 0 then (0 : ℚ) else M) : ℚ × ℚ) = _
    have h1 : (if m > 0 then (0 : ℚ) else m) = min 0 m := by
      rcases lt_or_le 0 m with h | h
      · rw [if_pos h, min_eq_left h.le]
      · rw [if_neg (not_lt.mpr h), min_eq_right h]
    have h2 : (if M < 0 then (0 : ℚ) else M) = max 0 M := by
      rcases lt_or_le M 0 with h | h
      · rw [if_pos h, max_eq_left h.le]
      · rw [if_neg (not_lt.mpr h), max_eq_right h]
    rw [h1, h2]
  refine ⟨hdom, ?_, ?_⟩
  · intro hall
    have hmem : m ∈ allValues datas := List.min?_mem min_choice hm
    have h0 : 0 < m := hall m hmem
    rw [hdom]
    exact min_eq_left h0.le
  · intro hall
    have hmem : M ∈ allValues datas := List.max?_mem max_choice hM
    have h0 : M < 0 := hall M hmem
    rw [hdom]
    exact max_eq_left h0.le

/-- Witness for C3 at the single series `[5]`. -/
theorem claim_C3_witness :
    resolveDomain none (yMinOf [⟨none, .red, [5]⟩]) (yMaxOf [⟨none, .red, [5]⟩]) =
      (min 0 5, max 0 5) :=
  (claim_C3 [⟨none, .red, [5]⟩] 5 5 rfl rfl).1

/-! ## C4 / C10: auto-color assignment -/

theorem getD_mem_of_lt {l : List Color} {k : ℕ} (h : k < l.length) (d : Color) :
    l.getD k d ∈ l := by
  rw [List.getD_eq_getElem?_getD, List.getElem?_eq_getElem h]
  exact List.getElem_mem h

theorem autoColor_mem (cycle : List Color) (prev : Option Color) (h : cycle ≠ []) :
    autoColor cycle prev ∈ cycle := by
  have hlen : 0 < cycle.length := List.length_pos.mpr h
  cases prev with
  | none => exact getD_mem_of_lt hlen .black
  | some p =>
    unfold autoColor nextAutoColor
    exact getD_mem_of_lt (Nat.mod_lt _ hlen) .black

/-- An uncolored input series is resolved to a cycle color. -/
theorem assignColors_uncolored_mem (cycle : List Color) (hc : cycle ≠ []) :
    ∀ (prev : Option Color) (data : List DataSeries) (i : ℕ) (s : CSeries) (ds : DataSeries),
      (assignColors cycle prev data).get? i = some s → data.get? i = some ds →
      ds.color = none → s.color ∈ cycle := by
  intro prev data
  induction data generalizing prev with
  | nil => intro i s ds h1; simp [assignColors] at h1
  | cons d t ih =>
    intro i s ds h1 h2 h3
    cases i with
    | zero =>
      simp only [assignColors, List.get?_cons_zero, Option.some.injEq] at h1 h2
      subst h1; subst h2
      simp only [h3, Option.getD_none]
      exact autoColor_mem cycle prev hc
    | succ k =>
      simp only [assignColors, List.get?_cons_succ] at h1 h2
      exact ih _ k s ds h1 h2 h3

/-- An explicit series color is preserved. -/
theorem assignColors_explicit (cycle : List Color) :
    ∀ (prev : Option Color) (data : List DataSeries) (i : ℕ) (s : CSeries) (ds : DataSeries)
      (c : Color),
      (assignColors cycle prev data).get? i = some s → data.get? i = some ds →
      ds.color = some c → s.color = c := by
  intro prev data
  induction data generalizing prev with
  | nil => intro i s ds c h1; simp [assignColors] at h1
  | cons d t ih =>
    intro i s ds c h1 h2 h3
    cases i with
    | zero =>
      simp only [assignColors, List.get?_cons_zero, Option.some.injEq] at h1 h2
      subst h1; subst h2
      simp [h3]
    | succ k =>
      simp only [assignColors, List.get?_cons_succ] at h1 h2
      exact ih _ k s ds c h1 h2 h3

/-- An uncolored series at index 0 resolves to the head of the cycle. -/
theorem assignColors_head (cycle : List Color) (data : List DataSeries) (s : CSeries)
    (ds : DataSeries) (h1 : (assignColors cycle none data).get? 0 = some s)
    (h2 : data.get? 0 = some ds) (h3 : ds.color = none) :
    s.color = cycle.getD 0 .black := by
  cases data with
  | nil => simp [assignColors] at h1
  | cons d t =>
    simp only [assignColors, List.get?_cons_zero, Option.some.injEq] at h1 h2
    subst h1; subst h2
    simp [h3, autoColor]

/-- An uncolored series after any series resolves to the cycle successor of
the previous series' resolved color. -/
theorem assignColors_succ (cycle : List Color) :
    ∀ (prev : Option Color) (data : List DataSeries) (i : ℕ) (s t : CSeries)
      (dt : DataSeries),
      (assignColors cycle prev data).get? i = some s →
      (assignColors cycle prev data).get? (i + 1) = some t →
      data.get? (i + 1) = some dt → dt.color = none →
      t.color = nextAutoColor cycle s.color := by
  intro prev data
  induction data generalizing prev with
  | nil => intro i s t dt h1; simp [assignColors] at h1
  | cons d r ih =>
    intro i s t dt h1 h2 h3 h4
    cases i with
    | zero =>
      simp only [assignColors, List.get?_cons_zero, List.get?_cons_succ,
        Option.some.injEq] at h1 h2 h3
      subst h1
      cases r with
      | nil => simp [assignColors] at h2
      | cons d2 r2 =>
        simp only [assignColors, List.get?_cons_zero, Option.some.injEq] at h2 h3
        subst h2; subst h3
        simp [h4, autoColor]
    | succ k =>
      simp only [assignColors, List.get?_cons_succ] at h1 h2 h3
      exact ih _ k s t dt h1 h2 h3 h4

theorem findIdx?_eq_some_findIdx {l : List Color} {c : Color} (h : c ∈ l) :
    l.findIdx? (· = c) = some (l.findIdx (· = c)) := by
  induction l with
  | nil => simp at h
  | cons a t ih =>
    by_cases ha : a = c
    · simp [List.findIdx?_cons, List.findIdx_cons, ha]
    · have hct : c ∈ t := by
        rcases List.mem_cons.mp h with hx | hx
        · exact absurd hx.symm ha
        · exact hx
      simp only [List.findIdx?_cons, List.findIdx_cons, decide_eq_true_eq]
      rw [if_neg ha]
      simp only [cond_eq_if, decide_eq_true_eq, if_neg ha]
      rw [List.findIdx?_start_succ, ih hct]
      rfl

/-- For a color in the cycle, `nextAutoColor` is the cycle successor in the
sense of the claim: the element after the color's index, wrapping around. -/
theorem nextAutoColor_spec {cycle : List Color} {c : Color} (h : c ∈ cycle) :
    nextAutoColor cycle c =
      cycle.getD ((cycle.findIdx (· = c) + 1) % cycle.length) .black := by
  unfold nextAutoColor
  rw [findIdx?_eq_some_findIdx h]
  congr 1

/-- C4 counterexample input: an explicitly blue series followed by an
uncolored one. -/
def c4data : List DataSeries := [⟨none, some .blue, []⟩, ⟨none, none, []⟩]

/-- C4 counterexample: with the default black background the reduced cycle
starts with red, yet the first series *without* an explicit color (index 1,
after an explicitly blue series) resolves to magenta — the successor of
blue — not to the first color of the cycle. -/
theorem claim_C4_counterexample :
    c4data.map (fun s => s.color) = [some .blue, none] ∧
    (assignColors (removeBackgroundColor .black) none c4data).map (fun s => s.color) =
      [.blue, .magenta] ∧
    (removeBackgroundColor .black).getD 0 .black = .red ∧
    Color.magenta ≠ .red := by
  refine ⟨rfl, rfl, rfl, ?_⟩
  decide

/-- C4 (amended): with a background from the default sequence, the reduced
cycle is the default sequence with the background erased; explicit series
colors are preserved; an uncolored *first* (index 0) series receives the
first cycle color; and for two consecutive uncolored series the second
resolves to the cycle successor of the first's resolved color. -/
theorem claim_C4_amended : ∀ (bg : Color) (data : List DataSeries),
    bg ∈ DEFAULT_COLOR_SEQUENCE →
    removeBackgroundColor bg = DEFAULT_COLOR_SEQUENCE.erase bg ∧
    (∀ (i : ℕ) s ds c, (assignColors (removeBackgroundColor bg) none data).get? i = some s →
      data.get? i = some ds → ds.color = some c → s.color = c) ∧
    (∀ s ds, (assignColors (removeBackgroundColor bg) none data).get? 0 = some s →
      data.get? 0 = some ds → ds.color = none →
      s.color = (removeBackgroundColor bg).getD 0 .black) ∧
    (∀ (i : ℕ) s t ds dt,
      (assignColors (removeBackgroundColor bg) none data).get? i = some s →
      (assignColors (removeBackgroundColor bg) none data).get? (i + 1) = some t →
      data.get? i = some ds → data.get? (i + 1) = some dt →
      ds.color = none → dt.color = none →
      t.color = (removeBackgroundColor bg).getD
        (((removeBackgroundColor bg).findIdx (· = s.color) + 1) %
          (removeBackgroundColor bg).length) .black) := by
  intro bg data hbg
  have hne : removeBackgroundColor bg ≠ [] := by
    cases bg <;> first | exact absurd hbg (by decide) | decide
  refine ⟨?_, ?_, ?_, ?_⟩
  · cases bg <;> first | exact absurd hbg (by decide) | rfl
  · intro i s ds c h1 h2 h3
    exact assignColors_explicit _ none data i s ds c h1 h2 h3
  · intro s ds h1 h2 h3
    exact assignColors_head _ data s ds h1 h2 h3
  · intro i s t ds dt h1 h2 h3 h4 h5 h6
    have hmem : s.color ∈ removeBackgroundColor bg :=
      assignColors_uncolored_mem _ hne none data i s ds h1 h3 h5
    rw [assignColors_succ _ none data i s t dt h1 h2 h4 h6]
    exact nextAutoColor_spec hmem

/-- Witness for C4 at two uncolored series on a black background: the
second series resolves to the successor of the first's red. -/
theorem claim_C4_witness :
    (⟨none, Color.green, ([] : List ℚ)⟩ : CSeries).color =
      (removeBackgroundColor .black).getD
        (((removeBackgroundColor .black).findIdx
            (· = (⟨none, Color.red, ([] : List ℚ)⟩ : CSeries).color) + 1) %
          (removeBackgroundColor .black).length) .black :=
  (claim_C4_amended .black [⟨none, none, []⟩, ⟨none, none, []⟩] (by decide)).2.2.2
    0 _ _ _ _ rfl rfl rfl rfl rfl rfl

/-- C10: a background color outside the default sequence removes the last
sequence entry (black) from the auto-assignment cycle, so black is never
auto-assigned to an uncolored series. -/
theorem claim_C10 : ∀ (bg : Color), bg ∉ DEFAULT_COLOR_SEQUENCE →
    removeBackgroundColor bg = [.red, .green, .yellow, .blue, .magenta, .cyan, .white] ∧
    (∀ (data : List DataSeries) (i : ℕ) s ds,
      (assignColors (removeBackgroundColor bg) none data).get? i = some s →
      data.get? i = some ds → ds.color = none → s.color ≠ .black) := by
  intro bg hbg
  have hrm : removeBackgroundColor bg =
      [.red, .green, .yellow, .blue, .magenta, .cyan, .white] := by
    cases bg <;> first | exact absurd (by decide) hbg | rfl
  refine ⟨hrm, ?_⟩
  intro data i s ds h1 h2 h3
  have hmem : s.color ∈ removeBackgroundColor bg := by
    refine assignColors_uncolored_mem _ ?_ none data i s ds h1 h2 h3
    rw [hrm]; decide
  rw [hrm] at hmem
  intro hblack
  rw [hblack] at hmem
  exact absurd hmem (by decide)

/-- Witness for C10 with a gray background: the single uncolored series is
resolved to red, not black. -/
theorem claim_C10_witness :
    removeBackgroundColor .gray = [.red, .green, .yellow, .blue, .magenta, .cyan, .white] ∧
    (⟨none, Color.red, ([] : List ℚ)⟩ : CSeries).color ≠ Color.black := by
  have h := claim_C10 .gray (by decide)
  exact ⟨h.1, h.2 [⟨none, none, []⟩] 0 _ _ rfl rfl rfl⟩

/-! ## C9: the `maxWidth` result of `wrapText` -/

/-- The `maxWidth` bookkeeping invariant of the wrap loop. -/
def maxWidthInv (W : ℤ) (st : WrapSt) : Prop :=
  st.maxWidth = (st.lines.map fun p => (p.2 : ℤ)).foldl max W

theorem foldMax_append_one (l : List (String × ℕ)) (p : String × ℕ) (W : ℤ) :
    ((l ++ [p]).map fun q => (q.2 : ℤ)).foldl max W =
      max ((l.map fun q => (q.2 : ℤ)).foldl max W) (p.2 : ℤ) := by
  rw [List.map_append, List.foldl_append]
  rfl

theorem wrapTextStep_maxWidthInv (width : ℤ) (margin : ℕ) (align : Align)
    (f : String → ℕ) (W : ℤ) (st : WrapSt) (tok : String × String)
    (h : maxWidthInv W st) : maxWidthInv W (wrapTextStep width margin align f st tok) := by
  unfold maxWidthInv at h ⊢
  unfold wrapTextStep
  dsimp only
  split_ifs <;>
    first
      | exact h
      | (simp only [foldMax_append_one]; rw [h])

theorem wrapTextFold_maxWidthInv (width : ℤ) (margin : ℕ) (align : Align)
    (f : String → ℕ) (W : ℤ) (toks : List (String × String)) (st : WrapSt)
    (h : maxWidthInv W st) :
    maxWidthInv W (toks.foldl (wrapTextStep width margin align f) st) := by
  induction toks generalizing st with
  | nil => exact h
  | cons tok rest ih =>
    exact ih _ (wrapTextStep_maxWidthInv width margin align f W st tok h)

theorem wrapTextFinish_maxWidthInv (width : ℤ) (margin : ℕ) (align : Align)
    (W : ℤ) (st : WrapSt) (h : maxWidthInv W st) :
    maxWidthInv W (wrapTextFinish width margin align st) := by
  unfold maxWidthInv at h ⊢
  unfold wrapTextFinish
  dsimp only
  split_ifs
  · simp only [foldMax_append_one]
    rw [h]
  · exact h

/-- C9 counterexample: `wrapText "a" 3` uses a single line of content width
1, yet reports `maxWidth = 3` — the `maxWidth` accumulator starts at
`width` (src:238), not at the widths actually used. -/
theorem claim_C9_counterexample :
    (wrapText "a" 3).2 = 3 ∧
    (wrapTextCore 3 .left 0 getTextWidth "a").lines.map Prod.snd = [1] ∧
    (3 : ℤ) ≠ 1 := by
  refine ⟨rfl, rfl, ?_⟩
  decide

/-- C9 (amended): the `maxWidth` returned by `wrapText` is the maximum of
the requested `width` and the content widths of all produced lines (so it
still exceeds `width` exactly when some line did not fit, which is what
callers test; it just never reports less than `width`). -/
theorem claim_C9_amended : ∀ (text : String) (width : ℤ) (align : Align) (margin : ℕ)
    (f : String → ℕ),
    (wrapText text width align margin f).2 =
      ((wrapTextCore width align margin f text).lines.map fun p => (p.2 : ℤ)).foldl
        max width ∧
    (wrapText text width align margin f).1 =
      (wrapTextCore width align margin f text).lines.map Prod.fst := by
  intro text width align margin f
  refine ⟨?_, rfl⟩
  have hinit : maxWidthInv width (wrapTextInit width margin) := rfl
  exact wrapTextFinish_maxWidthInv width margin align width _
    (wrapTextFold_maxWidthInv width margin align f width (tokenizeWs text.data)
      (wrapTextInit width margin) hinit)

/-! ## C2: the degenerate-input policy -/

theorem horizLayout_chartHeight (e : Env) :
    (horizLayout e).chartHeight =
      (e.height : ℤ) - (horizLayout e).footer2.length - (horizLayout e).header.length := by
  rcases hy : e.opts.yLabel with _ | fy <;> rcases hx : e.opts.xLabel with _ | fx <;>
    simp only [horizLayout, hy, hx, Option.isSome_none, Option.isSome_some] <;>
    first | rfl | simp

/-- C2: whenever the computed chart region is degenerate — no data points,
insufficient width, or no height left under the footer, at either of the
two checks — `unicodeBarChart` returns the blank canvas: blank rows
followed by the legend footer when the footer fits strictly below the
requested height, else blank rows only; the result never exceeds `height`
lines (at the first check it is exactly `height` lines).  The embedding is
total, mirroring that the source path raises no error. -/
theorem claim_C2 : ∀ (data : List DataSeries) (options : BarChartOptions),
    (degenerate1 (mkEnv data options) →
      unicodeBarChart data options =
        (if (mkEnv data options).footer.length < (mkEnv data options).height then
          List.replicate
              ((mkEnv data options).height - (mkEnv data options).footer.length)
              (nspN (mkEnv data options).width) ++ (mkEnv data options).footer
        else List.replicate (mkEnv data options).height (nspN (mkEnv data options).width)) ∧
      (unicodeBarChart data options).length = (mkEnv data options).height) ∧
    (¬ degenerate1 (mkEnv data options) →
      options.orientation.getD .horizontal = .horizontal →
      degenerate2 (mkEnv data options) (horizLayout (mkEnv data options)) →
      unicodeBarChart data options =
        (if (horizLayout (mkEnv data options)).footer2.length < (mkEnv data options).height then
          List.replicate (horizLayout (mkEnv data options)).chartHeight.toNat
              (nspN (mkEnv data options).width) ++ (horizLayout (mkEnv data options)).footer2
        else List.replicate (mkEnv data options).height (nspN (mkEnv data options).width)) ∧
      (unicodeBarChart data options).length ≤ (mkEnv data options).height) := by
  intro data options
  constructor
  · intro hdeg
    have heq : unicodeBarChart data options =
        blankCanvas (mkEnv data options).width (mkEnv data options).height
          (((mkEnv data options).height : ℤ) - (mkEnv data options).footer.length)
          (mkEnv data options).footer := by
      unfold unicodeBarChart
      rw [if_pos hdeg]
    have hcount : ((((mkEnv data options).height : ℤ)) -
        ((mkEnv data options).footer.length : ℕ)).toNat =
        (mkEnv data options).height - (mkEnv data options).footer.length := by
      omega
    rw [heq]
    unfold blankCanvas
    rw [hcount]
    refine ⟨rfl, ?_⟩
    by_cases hlt : (mkEnv data options).footer.length < (mkEnv data options).height
    · rw [if_pos hlt]
      simp only [List.length_append, List.length_replicate]
      omega
    · rw [if_neg hlt]
      simp only [List.length_replicate]
  · intro hnd hor hdeg2
    have heq : unicodeBarChart data options =
        blankCanvas (mkEnv data options).width (mkEnv data options).height
          (horizLayout (mkEnv data options)).chartHeight
          (horizLayout (mkEnv data options)).footer2 := by
      unfold unicodeBarChart
      rw [if_neg hnd]
      have hopts : (mkEnv data options).opts = options := rfl
      rw [hopts, hor]
      rw [if_pos hdeg2]
    rw [heq]
    unfold blankCanvas
    refine ⟨rfl, ?_⟩
    have hch := horizLayout_chartHeight (mkEnv data options)
    by_cases hlt :
        (horizLayout (mkEnv data options)).footer2.length < (mkEnv data options).height
    · rw [if_pos hlt]
      simp only [List.length_append, List.length_replicate]
      omega
    · rw [if_neg hlt]
      simp only [List.length_replicate]
      exact Nat.le_refl _

/-- Witness for C2 at the empty series list with default options: the chart
degenerates to 39 blank lines plus the one-line legend footer, 40 = height
lines in total. -/
theorem claim_C2_witness :
    unicodeBarChart [] ({} : BarChartOptions) =
      List.replicate 39 (nspN 80) ++ mkFooter [] 80 getTextWidth .white .black ∧
    (unicodeBarChart [] ({} : BarChartOptions)).length = 40 := by
  have h := (claim_C2 [] ({} : BarChartOptions)).1 (by decide)
  exact ⟨h.1.trans (by rfl), h.2⟩

/-! ## C7: the single-value 1.5 scenario -/

/-- The claim's input: one series `[1.5]`, `yRange = [0, 8]`, `height = 1`,
default horizontal orientation. -/
def c7data : List DataSeries := [⟨none, none, [3 / 2]⟩]

/-- C7 counterexample: at the claim's exact input the legend footer already
consumes the single requested row, so the chart region is degenerate and the
output is one bare blank line — no `'▁'` (or any bar glyph) is rendered at
all. -/
theorem claim_C7_counterexample :
    unicodeBarChart c7data { yRange := some (0, 8), height := some 1 } = [nspN 80] ∧
    '▁' ∉ (nspN 80).data := by
  refine ⟨rfl, ?_⟩
  decide

/-- C7 (amended): with `height = 2` — one chart row above the one-line
legend, which is what "8 eighths total" requires — the value 1.5 quantises
to `ceil(1.5/8*8) = 2` eighths and the bar cells render as the glyph
`VCHAR_MAP[2] = '▃'` (the code indexes the ramp with `value % 8` directly,
whose entry 2 is the three-eighths glyph), not `'▁'` and not a full
block. -/
theorem claim_C7_amended :
    unicodeBarChart c7data { yRange := some (0, 8), height := some 2 } =
      [(COLOR_MAP .black).2 ++ (COLOR_MAP .white).1 ++ nspN 27 ++ (COLOR_MAP .red).1 ++
        crep '▃' 26 ++ (COLOR_MAP .white).1 ++ nspN 27 ++ " " ++ NORMAL,
       (COLOR_MAP .black).2 ++ (COLOR_MAP .white).1 ++ nspN 80 ++ NORMAL] ∧
    '▁' ∉ ((COLOR_MAP .black).2 ++ (COLOR_MAP .white).1 ++ nspN 27 ++ (COLOR_MAP .red).1 ++
        crep '▃' 26 ++ (COLOR_MAP .white).1 ++ nspN 27 ++ " " ++ NORMAL).data := by
  constructor
  · show hRenderCore (mkEnv c7data { yRange := some (0, 8), height := some 2 })
        (horizLayout (mkEnv c7data { yRange := some (0, 8), height := some 2 }))
        (or0 ((((horizLayout (mkEnv c7data { yRange := some (0, 8), height := some 2 })).chartHeight
            * 8 : ℤ) : ℚ) *
          ((mkEnv c7data { yRange := some (0, 8), height := some 2 }).yZero /
            (mkEnv c7data { yRange := some (0, 8), height := some 2 }).ySize)))
        ((mkEnv c7data { yRange := some (0, 8), height := some 2 }).datas.map fun s =>
          (List.range (mkEnv c7data { yRange := some (0, 8), height := some 2 }).xSize).map
            fun x =>
              toInt32 (quantizeEighths (s.data.getD x 0)
                (mkEnv c7data { yRange := some (0, 8), height := some 2 }).ySize
                ((horizLayout (mkEnv c7data { yRange := some (0, 8), height := some 2 })).chartHeight
                  * 8))) = _
    have h1 : or0 ((((horizLayout (mkEnv c7data { yRange := some (0, 8), height := some 2 })).chartHeight
        * 8 : ℤ) : ℚ) *
        ((mkEnv c7data { yRange := some (0, 8), height := some 2 }).yZero /
          (mkEnv c7data { yRange := some (0, 8), height := some 2 }).ySize)) = 0 := by
      have hch : (horizLayout (mkEnv c7data { yRange := some (0, 8), height := some 2 })).chartHeight = 1 := rfl
      have hz : (mkEnv c7data { yRange := some (0, 8), height := some 2 }).yZero = -(0 : ℚ) := rfl
      have hs : (mkEnv c7data { yRange := some (0, 8), height := some 2 }).ySize = (8 : ℚ) - 0 := rfl
      rw [hch, hz, hs]
      norm_num [or0, ratTrunc, toInt32]
    have h2 : ((mkEnv c7data { yRange := some (0, 8), height := some 2 }).datas.map fun s =>
        (List.range (mkEnv c7data { yRange := some (0, 8), height := some 2 }).xSize).map fun x =>
          toInt32 (quantizeEighths (s.data.getD x 0)
            (mkEnv c7data { yRange := some (0, 8), height := some 2 }).ySize
            ((horizLayout (mkEnv c7data { yRange := some (0, 8), height := some 2 })).chartHeight
              * 8))) = [[2]] := by
      have hch : (horizLayout (mkEnv c7data { yRange := some (0, 8), height := some 2 })).chartHeight = 1 := rfl
      have hs : (mkEnv c7data { yRange := some (0, 8), height := some 2 }).ySize = (8 : ℚ) - 0 := rfl
      have hd : (mkEnv c7data { yRange := some (0, 8), height := some 2 }).datas =
        [⟨none, .red, [3 / 2]⟩] := rfl
      have hx : (mkEnv c7data { yRange := some (0, 8), height := some 2 }).xSize = 1 := rfl
      rw [hch, hs, hd, hx]
      rw [show List.range 1 = [0] from rfl]
      have hc : ⌈(3 : ℚ) / 2⌉ = 2 := by norm_num [Int.ceil_eq_iff]
      norm_num [toInt32, quantizeEighths]
      rw [hc]
      decide
    rw [h1, h2]
    rfl
  · decide

/-! ## C1: line count and measured line width -/

/-- The first chart line of `unicodeBarChart [[1]] {width: 10, height: 5}`. -/
def c1line : String :=
  (COLOR_MAP .black).2 ++ (COLOR_MAP .white).1 ++ nspN 3 ++ (COLOR_MAP .red).1 ++
    crep '█' 3 ++ (COLOR_MAP .white).1 ++ nspN 4 ++ " " ++ NORMAL

/-- C1 failing input: with no y-labels and the default
`yLabelPosition = 'after'`, src:671-679 appends the one-column
`labelFiller` that src:467 only reserves when a y-label is present, so
every chart line measures `width + 1 = 11` columns instead of the requested
10.  (The line count, 5, does respect `height`.) -/
theorem claim_C1_bug :
    unicodeBarChart [⟨none, none, [1]⟩] { width := some 10, height := some 5 } =
      [c1line, c1line, c1line, c1line,
       (COLOR_MAP .black).2 ++ (COLOR_MAP .white).1 ++ nspN 10 ++ NORMAL] ∧
    getTextWidth c1line = 11 ∧
    (11 : ℕ) ≠ 10 := by
  refine ⟨?_, by decide, by decide⟩
  show hRenderCore (mkEnv [⟨none, none, [1]⟩] { width := some 10, height := some 5 })
      (horizLayout (mkEnv [⟨none, none, [1]⟩] { width := some 10, height := some 5 }))
      (or0 ((((horizLayout (mkEnv [⟨none, none, [1]⟩] { width := some 10, height := some 5 })).chartHeight
          * 8 : ℤ) : ℚ) *
        ((mkEnv [⟨none, none, [1]⟩] { width := some 10, height := some 5 }).yZero /
          (mkEnv [⟨none, none, [1]⟩] { width := some 10, height := some 5 }).ySize)))
      ((mkEnv [⟨none, none, [1]⟩] { width := some 10, height := some 5 }).datas.map fun s =>
        (List.range (mkEnv [⟨none, none, [1]⟩] { width := some 10, height := some 5 }).xSize).map
          fun x =>
            toInt32 (quantizeEighths (s.data.getD x 0)
              (mkEnv [⟨none, none, [1]⟩] { width := some 10, height := some 5 }).ySize
              ((horizLayout (mkEnv [⟨none, none, [1]⟩] { width := some 10, height := some 5 })).chartHeight
                * 8))) = _
  have h1 : or0 ((((horizLayout (mkEnv [⟨none, none, [1]⟩] { width := some 10, height := some 5 })).chartHeight
      * 8 : ℤ) : ℚ) *
      ((mkEnv [⟨none, none, [1]⟩] { width := some 10, height := some 5 }).yZero /
        (mkEnv [⟨none, none, [1]⟩] { width := some 10, height := some 5 }).ySize)) = 0 := by
    have hch : (horizLayout (mkEnv [⟨none, none, [1]⟩] { width := some 10, height := some 5 })).chartHeight = 4 := rfl
    have hz : (mkEnv [⟨none, none, [1]⟩] { width := some 10, height := some 5 }).yZero = -(0 : ℚ) := rfl
    have hs : (mkEnv [⟨none, none, [1]⟩] { width := some 10, height := some 5 }).ySize = (1 : ℚ) - 0 := rfl
    rw [hch, hz, hs]
    norm_num [or0, ratTrunc, toInt32]
  have h2 : ((mkEnv [⟨none, none, [1]⟩] { width := some 10, height := some 5 }).datas.map fun s =>
      (List.range (mkEnv [⟨none, none, [1]⟩] { width := some 10, height := some 5 }).xSize).map fun x =>
        toInt32 (quantizeEighths (s.data.getD x 0)
          (mkEnv [⟨none, none, [1]⟩] { width := some 10, height := some 5 }).ySize
          ((horizLayout (mkEnv [⟨none, none, [1]⟩] { width := some 10, height := some 5 })).chartHeight
            * 8))) = [[32]] := by
    have hch : (horizLayout (mkEnv [⟨none, none, [1]⟩] { width := some 10, height := some 5 })).chartHeight = 4 := rfl
    have hs : (mkEnv [⟨none, none, [1]⟩] { width := some 10, height := some 5 }).ySize = (1 : ℚ) - 0 := rfl
    have hd : (mkEnv [⟨none, none, [1]⟩] { width := some 10, height := some 5 }).datas =
      [⟨none, .red, [1]⟩] := rfl
    have hx : (mkEnv [⟨none, none, [1]⟩] { width := some 10, height := some 5 }).xSize = 1 := rfl
    rw [hch, hs, hd, hx]
    rw [show List.range 1 = [0] from rfl]
    have hc : ⌈(32 : ℚ)⌉ = 32 := by norm_num
    norm_num [toInt32, quantizeEighths]
  rw [h1, h2]
  rfl

/-! ## C6: line styling invariant -/

theorem strFoldlApp (t : List String) (a : String) :
    t.foldl (fun r s => r ++ s) a = a ++ t.foldl (fun r s => r ++ s) "" := by
  induction t generalizing a with
  | nil => simp [String.append_empty]
  | cons b t ih =>
    simp only [List.foldl_cons]
    rw [ih (a ++ b), ih ("" ++ b), String.empty_append, String.append_assoc]

theorem strJoin_cons (a : String) (t : List String) :
    String.join (a :: t) = a ++ String.join t := by
  show (a :: t).foldl (fun r s => r ++ s) "" = _
  simp only [List.foldl_cons, String.empty_append]
  exact strFoldlApp t a

theorem strJoin_app (xs : List String) (a : String) :
    String.join (xs ++ [a]) = String.join xs ++ a := by
  show (xs ++ [a]).foldl (fun r s => r ++ s) "" = _
  rw [List.foldl_append]
  rfl

theorem pfx_self (a b : String) : a.data <+: (a ++ b).data :=
  ⟨b.data, (String.data_append a b).symm⟩

theorem pfx_ext {x : List Char} {a : String} (b : String) (h : x <+: a.data) :
    x <+: (a ++ b).data := by
  obtain ⟨t, ht⟩ := h
  exact ⟨t ++ b.data, by rw [String.data_append, ← ht, List.append_assoc]⟩

theorem sfx_self (a b : String) : b.data <:+ (a ++ b).data :=
  ⟨a.data, (String.data_append a b).symm⟩

theorem sfx_ext {x : List Char} (a : String) {b : String} (h : x <:+ b.data) :
    x <:+ (a ++ b).data := by
  obtain ⟨t, ht⟩ := h
  exact ⟨a.data ++ t, by rw [String.data_append, ← ht, List.append_assoc]⟩

/-- The styling discipline of C6: the line opens with the given
background-plus-foreground escape pair and closes with the reset. -/
def styledLine (bgfg l : String) : Prop :=
  bgfg.data <+: l.data ∧ NORMAL.data <:+ l.data

/-- Invariant of the `wrapColoredText` loop: the buffer is empty or opens
with the line-start escapes, and every emitted line is styled. -/
def wctOk (bgfg lineStart : String) (st : WctSt) : Prop :=
  (st.buf = [] ∨ ∃ r, st.buf = lineStart :: r) ∧ ∀ l ∈ st.lines, styledLine bgfg l

theorem foldl_preserve {α β : Type} {P : β → Prop} (f : β → α → β)
    (h : ∀ b a, P b → P (f b a)) : ∀ (l : List α) (b : β), P b → P (l.foldl f b) := by
  intro l
  induction l with
  | nil => intro b hb; exact hb
  | cons a t ih => intro b hb; exact ih _ (h b a hb)

theorem flushLine_styled (bgfg lineStart : String) (r : List String) (p : String)
    (hls : bgfg.data <+: lineStart.data) :
    styledLine bgfg (String.join ((lineStart :: r) ++ [p, NORMAL])) := by
  have he : (lineStart :: r) ++ [p, NORMAL] = lineStart :: ((r ++ [p]) ++ [NORMAL]) := by
    simp
  rw [he, strJoin_cons, strJoin_app]
  exact ⟨pfx_ext _ hls, sfx_ext _ (sfx_self _ _)⟩

theorem wctFlush_lines_ok (width : ℕ) (bgfg lineStart : String) (st : WctSt)
    (hls : bgfg.data <+: lineStart.data) (hb : ∃ r, st.buf = lineStart :: r)
    (hlines : ∀ l ∈ st.lines, styledLine bgfg l) :
    ∀ l ∈ (wctFlush width st).lines, styledLine bgfg l := by
  obtain ⟨r, hr⟩ := hb
  intro l hl
  rw [wctFlush] at hl
  simp only [List.mem_append, List.mem_singleton] at hl
  rcases hl with hl | rfl
  · exact hlines l hl
  · rw [hr]
    exact flushLine_styled bgfg lineStart r _ hls

theorem wctWordPlace_ok (width margin : ℕ) (bgfg lineStart fg : String)
    (tw : String → ℕ) (st : WctSt) (word : String)
    (hls : bgfg.data <+: lineStart.data) (h : wctOk bgfg lineStart st) :
    (∃ r, (wctWordPlace width margin lineStart fg tw st word).buf = lineStart :: r) ∧
    ∀ l ∈ (wctWordPlace width margin lineStart fg tw st word).lines, styledLine bgfg l := by
  obtain ⟨hbuf, hlines⟩ := h
  unfold wctWordPlace
  dsimp only
  split
  · rename_i hb
    rw [if_pos (Or.inr hb)]
    exact ⟨⟨_, rfl⟩, hlines⟩
  · rename_i hb
    rcases hbuf with hb0 | ⟨r, hr⟩
    · exact absurd hb0 hb
    · split
      · exact ⟨⟨_, by rw [hr]; rfl⟩, hlines⟩
      · exact ⟨⟨_, rfl⟩, wctFlush_lines_ok width bgfg lineStart st hls ⟨r, hr⟩ hlines⟩

theorem wctSpacePlace_ok (width margin : ℕ) (bgfg lineStart : String) (st1 : WctSt)
    (space : String) (sw : ℕ) (hls : bgfg.data <+: lineStart.data)
    (hb : ∃ r, st1.buf = lineStart :: r) (hlines : ∀ l ∈ st1.lines, styledLine bgfg l) :
    wctOk bgfg lineStart (wctSpacePlace width margin st1 space sw) := by
  obtain ⟨r, hr⟩ := hb
  unfold wctSpacePlace
  dsimp only
  split
  · exact ⟨Or.inr ⟨r ++ [space], by rw [hr]; rfl⟩, hlines⟩
  · exact ⟨Or.inl rfl, wctFlush_lines_ok width bgfg lineStart st1 hls ⟨r, hr⟩ hlines⟩

theorem wctWordStep_ok (width margin : ℕ) (bgfg lineStart fg : String)
    (tw : String → ℕ) (st : WctSt) (tok : String × String)
    (hls : bgfg.data <+: lineStart.data) (h : wctOk bgfg lineStart st) :
    wctOk bgfg lineStart (wctWordStep width margin lineStart fg tw st tok) := by
  have h1 := wctWordPlace_ok width margin bgfg lineStart fg tw st tok.1 hls h
  exact wctSpacePlace_ok width margin bgfg lineStart _ tok.2 _ hls h1.1 h1.2

theorem wctItemStep_ok (width margin spacing : ℕ) (bgfg lineStart sep textFG : String)
    (tw : String → ℕ) (st : WctSt) (item : Option String × Option Color)
    (hls : bgfg.data <+: lineStart.data) (h : wctOk bgfg lineStart st) :
    wctOk bgfg lineStart (wctItemStep width margin spacing lineStart sep textFG tw st item) := by
  obtain ⟨i1, i2⟩ := item
  cases i1 with
  | none => exact h
  | some t =>
    obtain ⟨hbuf, hlines⟩ := h
    unfold wctItemStep
    dsimp only
    split
    · exact ⟨hbuf, hlines⟩
    · split
      · rename_i hb
        split
        · exact ⟨Or.inr ⟨_, by rw [hb]; rfl⟩, hlines⟩
        · split
          · exact ⟨Or.inr ⟨_, rfl⟩, hlines⟩
          · exact foldl_preserve _
              (fun b a hb2 => wctWordStep_ok width margin bgfg lineStart _ tw b a hls hb2)
              _ _ ⟨Or.inl hb, hlines⟩
      · rename_i hb
        rcases hbuf with hb0 | ⟨r, hr⟩
        · exact absurd hb0 hb
        · have hfl := wctFlush_lines_ok width bgfg lineStart st hls ⟨r, hr⟩ hlines
          split
          · exact ⟨Or.inr ⟨_, by rw [hr]; rfl⟩, hlines⟩
          · split
            · exact ⟨Or.inr ⟨_, rfl⟩, hfl⟩
            · exact foldl_preserve _
                (fun b a hb2 => wctWordStep_ok width margin bgfg lineStart _ tw b a hls hb2)
                _ _ ⟨Or.inl rfl, hfl⟩

theorem wrapColoredText_ok (items : List (Option String × Option Color))
    (o : WrapColoredTextOptions) :
    ∀ l ∈ wrapColoredText items o,
      styledLine ((COLOR_MAP (o.backgroundColor.getD .black)).2 ++
        (COLOR_MAP (o.textColor.getD (defaultTextColor (o.backgroundColor.getD .black)))).1) l := by
  intro l hl
  unfold wrapColoredText at hl
  dsimp only at hl
  have key : wctOk
      ((COLOR_MAP (o.backgroundColor.getD .black)).2 ++
        (COLOR_MAP (o.textColor.getD (defaultTextColor (o.backgroundColor.getD .black)))).1)
      ((COLOR_MAP (o.backgroundColor.getD .black)).2 ++
        (COLOR_MAP (o.textColor.getD (defaultTextColor (o.backgroundColor.getD .black)))).1 ++
        nspN (o.margin.getD 1))
      (items.foldl
        (wctItemStep (o.width.getD 80) (o.margin.getD 1) (o.spacing.getD 2)
          ((COLOR_MAP (o.backgroundColor.getD .black)).2 ++
            (COLOR_MAP (o.textColor.getD (defaultTextColor (o.backgroundColor.getD .black)))).1 ++
            nspN (o.margin.getD 1))
          ((COLOR_MAP (o.textColor.getD (defaultTextColor (o.backgroundColor.getD .black)))).1 ++
            nspN (o.spacing.getD 2))
          ((COLOR_MAP (o.textColor.getD (defaultTextColor (o.backgroundColor.getD .black)))).1)
          (o.textWidth.getD getTextWidth))
        { lineWidth := 0, buf := [], lines := [] }) := by
    refine foldl_preserve _ (fun b a hb =>
      wctItemStep_ok _ _ _ _ _ _ _ _ b a (pfx_self _ _) hb) items _ ⟨Or.inl rfl, ?_⟩
    intro x hx
    exact absurd hx (List.not_mem_nil x)
  split at hl
  · exact key.2 l hl
  · rename_i hcond
    rcases key.1 with hb | hb
    · exact absurd hb hcond
    · exact wctFlush_lines_ok _ _ _ _ (pfx_self _ _) hb key.2 l hl

theorem mkFooter_ok (datas : List CSeries) (width : ℕ) (tw : String → ℕ)
    (tc bgc : Color) :
    ∀ l ∈ mkFooter datas width tw tc bgc,
      styledLine ((COLOR_MAP bgc).2 ++ (COLOR_MAP tc).1) l := by
  intro l hl
  rw [mkFooter] at hl
  rcases List.mem_cons.mp hl with rfl | hl
  · exact ⟨pfx_ext _ (pfx_self _ _), sfx_self _ _⟩
  · have h := wrapColoredText_ok _ _ l hl
    simpa only [Option.getD_some] using h

theorem pfx_refl (a : String) : a.data <+: a.data := ⟨[], List.append_nil _⟩

theorem styled_app1 (p a : String) : styledLine p (p ++ a ++ NORMAL) :=
  ⟨pfx_ext _ (pfx_self _ _), sfx_self _ _⟩

theorem styled_app2 (p a b : String) : styledLine p (p ++ a ++ b ++ NORMAL) :=
  ⟨pfx_ext _ (pfx_ext _ (pfx_self _ _)), sfx_self _ _⟩

theorem styled_app3 (p a b c : String) : styledLine p (p ++ a ++ b ++ c ++ NORMAL) :=
  ⟨pfx_ext _ (pfx_ext _ (pfx_ext _ (pfx_self _ _))), sfx_self _ _⟩

theorem styled_parts {p s e : String} (m : String) (hs : p.data <+: s.data)
    (he : NORMAL.data <:+ e.data) : styledLine p (s ++ m ++ e) :=
  ⟨pfx_ext _ (pfx_ext _ hs), sfx_ext _ he⟩

theorem mem_ite_or {α : Type} {c : Prop} [Decidable c] {A B : List α} {l : α}
    (h : l ∈ if c then A else B) : l ∈ A ∨ l ∈ B := by
  split at h
  · exact Or.inl h
  · exact Or.inr h

theorem hFitsLines_ok (e : Env) (lp mw : ℤ) (ml : ℕ)
    (xs : List (String × List String × ℤ)) :
    ∀ l ∈ hFitsLines e lp mw ml xs, styledLine (e.bg ++ e.textFG) l := by
  intro l hl
  unfold hFitsLines at hl
  dsimp only at hl
  obtain ⟨i, -, rfl⟩ := List.mem_map.mp hl
  exact styled_app3 _ _ _ _

theorem hMarkerLine_ok (e : Env) (lp mw : ℤ) :
    ∀ l ∈ hMarkerLine e lp mw, styledLine (e.bg ++ e.textFG) l := by
  intro l hl
  rcases List.mem_singleton.mp hl with rfl
  exact styled_app3 _ _ _ _

theorem hFootnote_ok (e : Env) (f : ℕ → String) :
    ∀ l ∈ hFootnote e f, styledLine (e.bg ++ e.textFG) l := by
  intro l hl
  rcases List.mem_cons.mp hl with rfl | hl
  · exact styled_app1 _ _
  · exact wrapColoredText_ok _ _ l hl

theorem mkEnv_footer_ok (data : List DataSeries) (options : BarChartOptions) :
    ∀ l ∈ (mkEnv data options).footer,
      styledLine ((mkEnv data options).bg ++ (mkEnv data options).textFG) l := by
  intro l hl
  exact mkFooter_ok _ _ _ _ _ l hl

theorem horizLayout_lines_ok (e : Env)
    (hf : ∀ l ∈ e.footer, styledLine (e.bg ++ e.textFG) l) :
    (∀ l ∈ (horizLayout e).header, styledLine (e.bg ++ e.textFG) l) ∧
    (∀ l ∈ (horizLayout e).footer2, styledLine (e.bg ++ e.textFG) l) := by
  rcases hx : e.opts.xLabel with _ | f
  · constructor
    · intro l hl
      simp only [horizLayout, hx] at hl
      exact absurd hl (List.not_mem_nil l)
    · intro l hl
      simp only [horizLayout, hx] at hl
      exact hf l hl
  · rcases hy : e.opts.yLabel with _ | fy <;>
      rcases hpos : e.opts.xLabelPosition.getD .after with _ | _ <;>
      refine ⟨fun l hl => ?_, fun l hl => ?_⟩ <;>
      simp only [horizLayout, hx, hy, hpos, reduceIte, List.nil_append,
        Option.isSome_none, Option.isSome_some] at hl <;>
      first
        | exact absurd hl (List.not_mem_nil l)
        | (rcases mem_ite_or hl with hl | hl
           · exact hFitsLines_ok _ _ _ _ _ l hl
           · exact hMarkerLine_ok _ _ _ l hl)
        | (rcases List.mem_append.mp hl with hl | hl
           · first
             | (rcases List.mem_append.mp hl with hl | hl
                · rcases mem_ite_or hl with hl | hl
                  · exact hFitsLines_ok _ _ _ _ _ l hl
                  · exact hMarkerLine_ok _ _ _ l hl
                · rcases mem_ite_or hl with hl | hl
                  · exact absurd hl (List.not_mem_nil l)
                  · exact hFootnote_ok _ _ l hl)
             | (rcases mem_ite_or hl with hl | hl
                · exact absurd hl (List.not_mem_nil l)
                · exact hFootnote_ok _ _ l hl)
           · exact hf l hl)

theorem hRowStart_pre (e : Env) (L : HLayout) (m : List (ℤ × String)) (r : ℕ) :
    (e.bg ++ e.textFG).data <+: (hRowStart e L m r).data := by
  unfold hRowStart
  dsimp only
  repeat' split
  all_goals first
    | exact pfx_refl _
    | exact pfx_ext _ (pfx_refl _)
    | exact pfx_ext _ (pfx_ext _ (pfx_refl _))

theorem hRowEnd_suf (e : Env) (L : HLayout) (m : List (ℤ × String)) (r : ℕ) :
    NORMAL.data <:+ (hRowEnd e L m r).data := by
  unfold hRowEnd
  dsimp only
  repeat' split
  all_goals exact sfx_self _ _

theorem hRenderCore_ok (e : Env) (L : HLayout) (z : ℤ) (vs : List (List ℤ))
    (hh : ∀ l ∈ L.header, styledLine (e.bg ++ e.textFG) l)
    (hf : ∀ l ∈ L.footer2, styledLine (e.bg ++ e.textFG) l) :
    ∀ l ∈ hRenderCore e L z vs, styledLine (e.bg ++ e.textFG) l := by
  intro l hl
  unfold hRenderCore at hl
  dsimp only at hl
  rcases List.mem_append.mp hl with hl | hl
  · rcases List.mem_append.mp hl with hl | hl
    · exact hh l hl
    · obtain ⟨r, -, rfl⟩ := List.mem_map.mp hl
      exact styled_parts _ (hRowStart_pre e L _ r) (hRowEnd_suf e L _ r)
  · exact hf l hl

theorem blankCanvas_ok (width height : ℕ) (ch : ℤ) (footer : List String)
    (P : String → Prop) (hf : ∀ l ∈ footer, P l) :
    ∀ l ∈ blankCanvas width height ch footer, P l ∨ l = nspN width := by
  intro l hl
  unfold blankCanvas at hl
  split at hl
  · rcases List.mem_append.mp hl with hl | hl
    · exact Or.inr (List.eq_of_mem_replicate hl)
    · exact Or.inl (hf l hl)
  · exact Or.inr (List.eq_of_mem_replicate hl)

theorem vTemplate_ok (e : Env) (pfx sfx : List String) (li : ℤ) (c : String) :
    styledLine (e.bg ++ e.textFG) (vTemplate e pfx sfx li c) := by
  unfold vTemplate
  exact styled_app3 _ _ _ _

theorem vOverlay_ok (e : Env) (f : ℚ → String) (scw zc : ℤ) (pw : ℕ) :
    styledLine (e.bg ++ e.textFG) (vOverlay e f scw zc pw) := by
  unfold vOverlay
  dsimp only
  exact styled_app2 _ _ _

theorem vFootnote_ok (e : Env) (labels : List String) :
    ∀ l ∈ vFootnote e labels, styledLine (e.bg ++ e.textFG) l := by
  intro l hl
  rcases List.mem_cons.mp hl with rfl | hl
  · exact styled_app1 _ _
  · exact wrapColoredText_ok _ _ l hl

theorem vLayout_footerV_ok (e : Env)
    (hf : ∀ l ∈ e.footer, styledLine (e.bg ++ e.textFG) l) :
    ∀ l ∈ (vLayout e).footerV, styledLine (e.bg ++ e.textFG) l := by
  rcases hx : e.opts.xLabel with _ | f
  · intro l hl
    simp only [vLayout, hx] at hl
    exact hf l hl
  · intro l hl
    rcases hy : e.opts.yLabel with _ | fy <;>
      rcases hpos : e.opts.xLabelPosition.getD .before with _ | _ <;>
      by_cases hxs : e.xSize > 0 <;>
      simp only [vLayout, hx, hy, hpos, reduceIte, Option.isSome_none, Option.isSome_some,
        Bool.false_eq_true, if_false, if_true] at hl <;>
      [simp only [if_pos hxs] at hl; simp only [if_neg hxs] at hl;
       simp only [if_pos hxs] at hl; simp only [if_neg hxs] at hl;
       simp only [if_pos hxs] at hl; simp only [if_neg hxs] at hl;
       simp only [if_pos hxs] at hl; simp only [if_neg hxs] at hl] <;>
      split at hl <;>
      first
        | (rename_i hcc; exact absurd hcc (by decide))
        | (rename_i hcc; exact absurd rfl hcc)
        | exact hf l hl
        | (rcases List.mem_append.mp hl with hl | hl
           · exact hf l hl
           · exact vFootnote_ok _ _ l hl)
        | (split at hl <;>
           first
             | exact hf l hl
             | (rcases List.mem_append.mp hl with hl | hl
                · exact hf l hl
                · exact vFootnote_ok _ _ l hl))

theorem vInner_ok (e : Env) (V : VLayout) (pfx sfx : List String) (zc zi : ℤ)
    (iv : List (List ℤ)) (x : ℕ) (acc2 : ℤ × List String) (pr : ℕ × CSeries)
    (hb : ∀ l ∈ acc2.2, styledLine (e.bg ++ e.textFG) l) :
    ∀ l ∈ (vInner e V pfx sfx zc zi iv x acc2 pr).2, styledLine (e.bg ++ e.textFG) l := by
  intro l hl
  unfold vInner at hl
  dsimp only at hl
  rcases List.mem_append.mp hl with hl | hl
  · split at hl
    · rcases List.mem_append.mp hl with hl | hl
      · exact hb l hl
      · obtain ⟨k, -, rfl⟩ := List.mem_map.mp hl
        exact vTemplate_ok _ _ _ _ _
    · exact hb l hl
  · obtain ⟨k, -, rfl⟩ := List.mem_map.mp hl
    exact vTemplate_ok _ _ _ _ _

theorem vStep_ok (e : Env) (V : VLayout) (pfx sfx : List String) (zc zi : ℤ)
    (iv : List (List ℤ)) (acc : ℤ × List String) (x : ℕ)
    (hb : ∀ l ∈ acc.2, styledLine (e.bg ++ e.textFG) l) :
    ∀ l ∈ (vStep e V pfx sfx zc zi iv acc x).2, styledLine (e.bg ++ e.textFG) l := by
  unfold vStep
  exact @foldl_preserve (ℕ × CSeries) (ℤ × List String)
    (fun a2 => ∀ l ∈ a2.2, styledLine (e.bg ++ e.textFG) l)
    (vInner e V pfx sfx zc zi iv x)
    (fun b a hb2 => vInner_ok e V pfx sfx zc zi iv x b a hb2)
    e.datas.enum acc hb

theorem vRender_ok (e : Env)
    (hf : ∀ l ∈ e.footer, styledLine (e.bg ++ e.textFG) l) :
    ∀ l ∈ vRender e, styledLine (e.bg ++ e.textFG) l := by
  have hfv := vLayout_footerV_ok e hf
  intro l hl
  unfold vRender at hl
  dsimp only at hl
  rcases hyl : e.opts.yLabel with _ | fy <;>
    rcases hpos : e.opts.yLabelPosition.getD .before with _ | _ <;>
    simp only [hyl, hpos, Option.map_none', Option.map_some', List.mem_append] at hl <;>
    rcases hl with ((hhead | hst) | htrail) | hfoot <;>
    first
      | exact absurd hhead (List.not_mem_nil l)
      | (obtain rfl := List.mem_singleton.mp hhead
         exact vOverlay_ok _ _ _ _ _)
      | exact @foldl_preserve ℕ (ℤ × List String)
          (fun acc => ∀ m ∈ acc.2, styledLine (e.bg ++ e.textFG) m)
          _ (fun b a hb2 => vStep_ok _ _ _ _ _ _ _ b a hb2)
          _ _ (fun m hm => absurd hm (List.not_mem_nil m)) l hst
      | (obtain ⟨k, -, rfl⟩ := List.mem_map.mp htrail
         exact vTemplate_ok _ _ _ _ _)
      | exact hfv l hfoot
      | (rcases List.mem_cons.mp hfoot with rfl | hfoot
         · exact vOverlay_ok _ _ _ _ _
         · exact hfv l hfoot)

/-- C6 counterexample: the all-default degenerate chart (`unicodeBarChart []`)
emits plain blank lines — its first 39 lines are 80 bare spaces with no
background/foreground escape prefix and no reset suffix (src:403-416 pushes
`' '.repeat(width)` unstyled), refuting the claim that every emitted line
begins with the escapes and ends with the reset. -/
theorem claim_C6_counterexample :
    ∃ line ∈ unicodeBarChart [] ({} : BarChartOptions),
      ¬ (((COLOR_MAP Color.black).2 ++ (COLOR_MAP Color.white).1).data <+: line.data) ∧
      ¬ (NORMAL.data <:+ line.data) := by
  refine ⟨nspN 80, ?_, ?_, ?_⟩
  · show nspN 80 ∈ unicodeBarChart [] ({} : BarChartOptions)
    have h : unicodeBarChart [] ({} : BarChartOptions) =
        List.replicate 39 (nspN 80) ++ mkFooter [] 80 getTextWidth .white .black := rfl
    rw [h]
    exact List.mem_append_left _ (List.mem_replicate.mpr ⟨by decide, rfl⟩)
  · decide
  · decide

/-- C6 (amended): every line emitted by `unicodeBarChart` either begins with
the background and foreground ANSI escapes and ends with the style reset, or
is one of the unstyled blank-canvas lines of the degenerate paths — exactly
`width` bare spaces.  (Partial-width remainders of styled lines are padded
before the reset, so no cell of a styled line is left unstyled.) -/
theorem claim_C6_amended : ∀ (data : List DataSeries) (options : BarChartOptions),
    ∀ line ∈ unicodeBarChart data options,
      (((mkEnv data options).bg ++ (mkEnv data options).textFG).data <+: line.data ∧
        NORMAL.data <:+ line.data) ∨
      line = nspN (mkEnv data options).width := by
  intro data options line hl
  have hfoot := mkEnv_footer_ok data options
  unfold unicodeBarChart at hl
  dsimp only at hl
  split at hl
  · exact blankCanvas_ok _ _ _ _ _ hfoot line hl
  · rcases ho : (mkEnv data options).opts.orientation.getD .horizontal with _ | _ <;>
      rw [ho] at hl <;> dsimp only at hl
    · split at hl
      · exact blankCanvas_ok _ _ _ _ _
          (horizLayout_lines_ok (mkEnv data options) hfoot).2 line hl
      · left
        exact hRenderCore_ok _ _ _ _
          (horizLayout_lines_ok (mkEnv data options) hfoot).1
          (horizLayout_lines_ok (mkEnv data options) hfoot).2 line hl
    · left
      exact vRender_ok _ hfoot line hl

theorem claim_C6_witness :
    ((((mkEnv [] ({} : BarChartOptions)).bg ++ (mkEnv [] ({} : BarChartOptions)).textFG).data <+:
        (nspN 80).data ∧ NORMAL.data <:+ (nspN 80).data) ∨
      nspN 80 = nspN (mkEnv [] ({} : BarChartOptions)).width) :=
  claim_C6_amended [] {} (nspN 80) (by
    have h : unicodeBarChart [] ({} : BarChartOptions) =
        List.replicate 39 (nspN 80) ++ mkFooter [] 80 getTextWidth .white .black := rfl
    rw [h]
    exact List.mem_append_left _ (List.mem_replicate.mpr ⟨by decide, rfl⟩))

/-! ## C8: greedy-wrap idempotence

The counterexamples below show the unrestricted claim false; the amended
theorem (`claim_C8_amended`) proves idempotence for the default measurer,
left alignment, margin 0, positive width, and texts whose whitespace is
plain spaces.  The proof characterises each emitted line by a token
description (`descOK`), shows the original wrap only emits such lines, and
replays the wrapper over the rejoined text line by line. -/

theorem splitWord_app : ∀ (v s : List Char), (∀ c ∈ v, isWsChar c = false) →
    (∀ c, s.head? = some c → isWsChar c = true) → splitWord (v ++ s) = (v, s) := by
  intro v
  induction v with
  | nil =>
    intro s _ hs
    cases s with
    | nil => rfl
    | cons c t =>
      have hc := hs c rfl
      show splitWord (c :: t) = ([], c :: t)
      unfold splitWord
      simp [hc]
  | cons c t ih =>
    intro s hv hs
    have hc := hv c (List.mem_cons_self c t)
    show splitWord (c :: (t ++ s)) = (c :: t, s)
    unfold splitWord
    rw [hc]
    simp only [Bool.false_eq_true, if_false]
    rw [ih s (fun c2 h2 => hv c2 (List.mem_cons_of_mem _ h2)) hs]

theorem splitRun_app : ∀ (r s : List Char), (∀ c ∈ r, isWsChar c = true) →
    (∀ c, s.head? = some c → isWsChar c = false) → splitRun (r ++ s) = (r, s) := by
  intro r
  induction r with
  | nil =>
    intro s _ hs
    cases s with
    | nil => rfl
    | cons c t =>
      have hc := hs c rfl
      show splitRun (c :: t) = ([], c :: t)
      unfold splitRun
      simp [hc]
  | cons c t ih =>
    intro s hr hs
    have hc := hr c (List.mem_cons_self c t)
    show splitRun (c :: (t ++ s)) = (c :: t, s)
    unfold splitRun
    rw [hc]
    simp only [if_true]
    rw [ih s (fun c2 h2 => hr c2 (List.mem_cons_of_mem _ h2)) hs]

theorem splitWord_parts (cs : List Char) :
    (splitWord cs).1 ++ (splitWord cs).2 = cs ∧
    (∀ c ∈ (splitWord cs).1, isWsChar c = false) ∧
    (∀ c, (splitWord cs).2.head? = some c → isWsChar c = true) := by
  induction cs with
  | nil =>
    refine ⟨rfl, ?_, ?_⟩
    · intro c h
      cases h
    · intro c h
      exact Option.noConfusion h
  | cons c rest ih =>
    unfold splitWord
    cases hc : isWsChar c with
    | true =>
      simp only [if_true]
      refine ⟨rfl, ?_, ?_⟩
      · intro c2 h2
        cases h2
      · intro c2 h2
        rw [List.head?_cons, Option.some.injEq] at h2
        rw [← h2]
        exact hc
    | false =>
      simp only [Bool.false_eq_true, if_false]
      obtain ⟨h1, h2, h3⟩ := ih
      refine ⟨by rw [List.cons_append, h1], ?_, h3⟩
      intro c2 hm
      rcases List.mem_cons.mp hm with rfl | hm
      · exact hc
      · exact h2 c2 hm

theorem splitRun_parts (cs : List Char) :
    (splitRun cs).1 ++ (splitRun cs).2 = cs ∧
    (∀ c ∈ (splitRun cs).1, isWsChar c = true) ∧
    (∀ c, (splitRun cs).2.head? = some c → isWsChar c = false) := by
  induction cs with
  | nil =>
    refine ⟨rfl, ?_, ?_⟩
    · intro c h
      cases h
    · intro c h
      exact Option.noConfusion h
  | cons c rest ih =>
    unfold splitRun
    cases hc : isWsChar c with
    | false =>
      simp only [Bool.false_eq_true, if_false]
      refine ⟨rfl, ?_, ?_⟩
      · intro c2 h2
        cases h2
      · intro c2 h2
        rw [List.head?_cons, Option.some.injEq] at h2
        rw [← h2]
        exact hc
    | true =>
      simp only [if_true]
      obtain ⟨h1, h2, h3⟩ := ih
      refine ⟨by rw [List.cons_append, h1], ?_, h3⟩
      intro c2 hm
      rcases List.mem_cons.mp hm with rfl | hm
      · exact hc
      · exact h2 c2 hm

/-- All characters of a word are outside the whitespace class. -/
def wsFree (v : String) : Prop := ∀ c ∈ v.data, isWsChar c = false

/-- Structure of a `tokenizeWs` token stream: words are whitespace-free and
(except possibly the very first) non-empty, runs are whitespace, and only
the final token may carry an empty run. -/
def toksOK : Bool → List (String × String) → Prop
  | _, [] => True
  | first, (v, r) :: ts =>
    wsFree v ∧ (first = true ∨ v.data ≠ []) ∧ (∀ c ∈ r.data, isWsChar c = true) ∧
      (r.data = [] → ts = []) ∧ toksOK false ts

theorem tokenizeWs_struct : ∀ (n : ℕ) (cs : List Char), cs.length ≤ n →
    toksOK true (tokenizeWs cs) ∧
    ((∀ c, cs.head? = some c → isWsChar c = false) → toksOK false (tokenizeWs cs)) := by
  intro n
  induction n with
  | zero =>
    intro cs h
    have : cs = [] := List.length_eq_zero.mp (Nat.le_zero.mp h)
    subst this
    exact ⟨trivial, fun _ => trivial⟩
  | succ m ih =>
    intro cs hlen
    by_cases hcs : cs = []
    · subst hcs
      exact ⟨trivial, fun _ => trivial⟩
    · rw [tokenizeWs_cons cs hcs]
      obtain ⟨hw1, hw2, hw3⟩ := splitWord_parts cs
      obtain ⟨hr1, hr2, hr3⟩ := splitRun_parts (splitWord cs).2
      have hlt := tok_step_lt cs hcs
      have hrest := ih (splitRun (splitWord cs).2).2 (by omega)
      have htail : toksOK false (tokenizeWs (splitRun (splitWord cs).2).2) :=
        hrest.2 hr3
      have hrunEmp : ((String.mk (splitRun (splitWord cs).2).1).data = [] →
          tokenizeWs (splitRun (splitWord cs).2).2 = []) := by
        intro hre
        have hnil : (splitRun (splitWord cs).2).1 = [] := hre
        have hr2eq : (splitRun (splitWord cs).2).2 = (splitWord cs).2 := by
          have h := hr1
          rw [hnil, List.nil_append] at h
          exact h
        -- an empty run means the post-word rest starts non-whitespace;
        -- yet the post-word rest starts whitespace when non-empty, so it
        -- is empty and the scan stops
        cases hq : (splitWord cs).2 with
        | nil =>
          rfl
        | cons c q =>
          have hws := hw3 c (by rw [hq]; rfl)
          have hnws := hr3 c (by rw [hr2eq, hq]; rfl)
          rw [hws] at hnws
          exact Bool.noConfusion hnws
      constructor
      · exact ⟨hw2, Or.inl rfl, hr2, hrunEmp, htail⟩
      · intro hhead
        refine ⟨hw2, Or.inr ?_, hr2, hrunEmp, htail⟩
        cases hcc : cs with
        | nil => exact absurd hcc hcs
        | cons c q =>
          have hnws := hhead c (by rw [hcc]; rfl)
          show (splitWord (c :: q)).1 ≠ []
          unfold splitWord
          rw [hnws]
          simp

theorem tokenizeWs_chars : ∀ (n : ℕ) (cs : List Char) (p : Char → Prop),
    cs.length ≤ n → (∀ c ∈ cs, p c) →
    ∀ t ∈ tokenizeWs cs, (∀ c ∈ t.1.data, p c) ∧ (∀ c ∈ t.2.data, p c) := by
  intro n
  induction n with
  | zero =>
    intro cs p h _
    have : cs = [] := List.length_eq_zero.mp (Nat.le_zero.mp h)
    subst this
    intro t ht
    cases ht
  | succ m ih =>
    intro cs p hlen hp
    by_cases hcs : cs = []
    · subst hcs
      intro t ht
      cases ht
    · rw [tokenizeWs_cons cs hcs]
      obtain ⟨hw1, -, -⟩ := splitWord_parts cs
      obtain ⟨hr1, -, -⟩ := splitRun_parts (splitWord cs).2
      have hlt := tok_step_lt cs hcs
      intro t ht
      have hsubw : ∀ c ∈ (splitWord cs).1, p c := by
        intro c hcm
        exact hp c (by rw [← hw1]; exact List.mem_append_left _ hcm)
      have hsubq : ∀ c ∈ (splitWord cs).2, p c := by
        intro c hcm
        exact hp c (by rw [← hw1]; exact List.mem_append_right _ hcm)
      have hsubr : ∀ c ∈ (splitRun (splitWord cs).2).1, p c := by
        intro c hcm
        exact hsubq c (by rw [← hr1]; exact List.mem_append_left _ hcm)
      have hsubt : ∀ c ∈ (splitRun (splitWord cs).2).2, p c := by
        intro c hcm
        exact hsubq c (by rw [← hr1]; exact List.mem_append_right _ hcm)
      rcases List.mem_cons.mp ht with rfl | ht
      · exact ⟨hsubw, hsubr⟩
      · exact ih _ p (by omega) hsubt t ht

theorem stripZeroWidthF_keep : ∀ (f : ℕ) (cs : List Char), cs.length ≤ f →
    (∀ c ∈ cs, c = ' ' ∨ c = '\n') → stripZeroWidthF f cs = cs := by
  intro f
  induction f with
  | zero =>
    intro cs h _
    have h0 : cs = [] := List.length_eq_zero.mp (Nat.le_zero.mp h)
    subst h0
    rfl
  | succ g ih =>
    intro cs hl hc
    cases cs with
    | nil => rfl
    | cons c rest =>
      have hcc := hc c (List.mem_cons_self c rest)
      have h1 : ¬ (c = '\x1B') := by rcases hcc with rfl | rfl <;> decide
      have h2 : isZeroWidthChar c = false := by rcases hcc with rfl | rfl <;> decide
      unfold stripZeroWidthF
      dsimp only
      rw [if_neg h1, h2]
      simp only [Bool.false_eq_true, if_false]
      rw [ih rest (by simp only [List.length_cons] at hl; omega)
        (fun c2 hm => hc c2 (List.mem_cons_of_mem _ hm))]

theorem tw_all (cs : List Char) (h : ∀ c ∈ cs, c = ' ' ∨ c = '\n') :
    getTextWidth (String.mk cs) = cs.length := by
  show (stripZeroWidth cs).length = _
  unfold stripZeroWidth
  rw [stripZeroWidthF_keep _ _ (Nat.le_refl _) h]

theorem tw_spaces (n : ℕ) : getTextWidth (nspN n) = n := by
  have h := tw_all (List.replicate n ' ')
    (fun c hm => Or.inl (List.eq_of_mem_replicate hm))
  rw [List.length_replicate] at h
  exact h

theorem tw_run (r : String) (h : ∀ c ∈ r.data, c = ' ') :
    getTextWidth r = r.data.length :=
  tw_all r.data (fun c hm => Or.inl (h c hm))

theorem tw_spacesNl (n : ℕ) :
    getTextWidth (String.mk (List.replicate n ' ' ++ ['\n'])) = n + 1 := by
  have h := tw_all (List.replicate n ' ' ++ ['\n']) ?_
  · rw [List.length_append, List.length_replicate] at h
    exact h
  · intro c hm
    rcases List.mem_append.mp hm with hm | hm
    · exact Or.inl (List.eq_of_mem_replicate hm)
    · rcases List.mem_singleton.mp hm with rfl
      exact Or.inr rfl

theorem run_eq_nspN (r : String) (h : ∀ c ∈ r.data, c = ' ') :
    r = nspN r.data.length := by
  have hd : r.data = List.replicate r.data.length ' ' := List.eq_replicate_of_mem h
  cases r with
  | mk d => exact congrArg String.mk hd

theorem nspN_ne_empty {n : ℕ} (h : 1 ≤ n) : nspN n ≠ "" := by
  intro he
  have hd : List.replicate n ' ' = ([] : List Char) := congrArg String.data he
  have := congrArg List.length hd
  rw [List.length_replicate] at this
  simp at this
  omega

theorem nspN_ne_nl (n : ℕ) : nspN n ≠ "\n" := by
  intro he
  have hd : List.replicate n ' ' = ['\n'] := congrArg String.data he
  cases n with
  | zero => exact List.noConfusion hd
  | succ k =>
    rw [List.replicate_succ] at hd
    injection hd with h1 h2
    exact absurd h1 (by decide)

theorem mkRunNl_ne_empty (n : ℕ) : String.mk (List.replicate n ' ' ++ ['\n']) ≠ "" := by
  intro he
  have hd : List.replicate n ' ' ++ ['\n'] = [] := congrArg String.data he
  have := congrArg List.length hd
  simp at this

theorem mkRunNl_ne_nl {n : ℕ} (h : 1 ≤ n) :
    String.mk (List.replicate n ' ' ++ ['\n']) ≠ "\n" := by
  intro he
  have hd : List.replicate n ' ' ++ ['\n'] = ['\n'] := congrArg String.data he
  cases n with
  | zero => omega
  | succ k =>
    rw [List.replicate_succ, List.cons_append] at hd
    injection hd with h1 h2
    exact absurd h1 (by decide)

theorem strMkData (s : String) : String.mk s.data = s := by
  cases s
  rfl

/-- Characters of one wrapped line described as words interleaved with
space-run lengths (the final length covers the trailing run and the
alignment padding). -/
def descChars : List (String × ℕ) → List Char
  | [] => []
  | (v, n) :: d => v.data ++ List.replicate n ' ' ++ descChars d

/-- The width at which a line with these tokens is flushed: all words and
runs except the final pair's run. -/
def descFW : ℕ → List (String × ℕ) → ℕ
  | lw, [] => lw
  | lw, [(v, _)] => lw + getTextWidth v
  | lw, (v, n) :: d => descFW (lw + getTextWidth v + n) d

/-- Greedy-placement side conditions of a line description, starting from
line width `lw`: every word fits (or starts an empty line), every interior
run fits strictly, and the final pair's run brings the width exactly to
`w` (content plus alignment padding), or is empty on an oversized line. -/
def descOK (w : ℤ) : ℕ → List (String × ℕ) → Prop
  | _, [] => True
  | lw, (v, n) :: d =>
    ((lw + getTextWidth v : ℤ) ≤ w ∨ lw = 0) ∧
    (match d with
     | [] => ((lw + getTextWidth v : ℤ) ≤ w ∧ ((lw + getTextWidth v + n : ℤ) = w)) ∨
         (n = 0 ∧ w ≤ (lw + getTextWidth v : ℤ))
     | _ :: _ => 1 ≤ n ∧ ((lw + getTextWidth v + n : ℤ) < w) ∧
         descOK w (lw + getTextWidth v + n) d)

/-- Word structure of a line description: words are whitespace-free and,
except possibly the head of the first line, non-empty. -/
def descWords : Bool → List (String × ℕ) → Prop
  | _, [] => True
  | first, (v, _) :: d => wsFree v ∧ (first = true ∨ v.data ≠ []) ∧ descWords false d

/-- All interior runs are non-empty. -/
def runsPos : List (String × ℕ) → Prop
  | [] => True
  | [_] => True
  | (_, n) :: d => 1 ≤ n ∧ runsPos d

/-- The tokens `tokenizeWs` recovers from a rendered line: interior pairs
verbatim, the final run merged with the junction whitespace `j`. -/
def lineToks : List (String × ℕ) → List Char → List (String × String)
  | [], _ => []
  | [(v, n)], j => [(v, String.mk (List.replicate n ' ' ++ j))]
  | (v, n) :: d, j => (v, nspN n) :: lineToks d j

theorem descChars_ne_nil (v : String) (n : ℕ) (d : List (String × ℕ))
    (hv : v.data ≠ []) : descChars ((v, n) :: d) ≠ [] := by
  show v.data ++ List.replicate n ' ' ++ descChars d ≠ []
  intro hcon
  rcases List.append_eq_nil.mp hcon with ⟨h1, -⟩
  rcases List.append_eq_nil.mp h1 with ⟨h2, -⟩
  exact hv h2

theorem descChars_head_nonws (d : List (String × ℕ)) (hw : descWords false d) :
    ∀ c, (descChars d).head? = some c → isWsChar c = false := by
  cases d with
  | nil =>
    intro c h
    exact Option.noConfusion h
  | cons p d' =>
    obtain ⟨v, n⟩ := p
    obtain ⟨hws, hne, -⟩ := hw
    rcases hne with hne | hne
    · exact absurd hne (by decide)
    · intro c h
      cases hv : v.data with
      | nil => exact absurd hv hne
      | cons a t =>
        unfold descChars at h
        rw [hv] at h
        simp only [List.cons_append, List.head?_cons, Option.some.injEq] at h
        rw [← h]
        refine hws a ?_
        rw [hv]
        exact List.mem_cons_self a t

theorem tok_desc : ∀ (d : List (String × ℕ)) (fl : Bool) (j after : List Char),
    d ≠ [] →
    (∀ c ∈ j, isWsChar c = true) →
    (∀ c, after.head? = some c → isWsChar c = false) →
    (after ≠ [] → j ≠ []) →
    descWords fl d → runsPos d →
    (∀ v n, d.head? = some (v, n) → v.data = [] → 1 ≤ n) →
    tokenizeWs (descChars d ++ (j ++ after)) = lineToks d j ++ tokenizeWs after := by
  intro d
  induction d with
  | nil =>
    intro fl j after hd
    exact absurd rfl hd
  | cons p d' ih =>
    intro fl j after _ hj hafter hja hwords hruns hh
    obtain ⟨v, n⟩ := p
    obtain ⟨hws, hne, hwords'⟩ := hwords
    cases d' with
    | nil =>
      have hRws : ∀ c ∈ List.replicate n ' ' ++ j, isWsChar c = true := by
        intro c hm
        rcases List.mem_append.mp hm with hm | hm
        · rw [List.eq_of_mem_replicate hm]
          decide
        · exact hj c hm
      have hinput : descChars [(v, n)] ++ (j ++ after) =
          v.data ++ ((List.replicate n ' ' ++ j) ++ after) := by
        show v.data ++ List.replicate n ' ' ++ [] ++ (j ++ after) = _
        simp [List.append_assoc]
      have hsw : splitWord (v.data ++ ((List.replicate n ' ' ++ j) ++ after)) =
          (v.data, (List.replicate n ' ' ++ j) ++ after) := by
        refine splitWord_app _ _ hws ?_
        intro c hc
        cases hRnil : List.replicate n ' ' ++ j with
        | nil =>
          rcases List.append_eq_nil.mp hRnil with ⟨-, hj0⟩
          by_cases hafter0 : after = []
          · rw [hRnil, List.nil_append, hafter0] at hc
            exact Option.noConfusion hc
          · exact absurd hj0 (hja hafter0)
        | cons a t =>
          rw [hRnil, List.cons_append, List.head?_cons, Option.some.injEq] at hc
          rw [← hc]
          refine hRws a ?_
          rw [hRnil]
          exact List.mem_cons_self a t
      have hsr : splitRun ((List.replicate n ' ' ++ j) ++ after) =
          (List.replicate n ' ' ++ j, after) :=
        splitRun_app _ _ hRws hafter
      have hinne : v.data ++ ((List.replicate n ' ' ++ j) ++ after) ≠ [] := by
        by_cases hvz : v.data = []
        · have hn1 : 1 ≤ n := hh v n rfl hvz
          rw [hvz, List.nil_append]
          intro hcon
          rcases List.append_eq_nil.mp hcon with ⟨h1, -⟩
          rcases List.append_eq_nil.mp h1 with ⟨h2, -⟩
          have := congrArg List.length h2
          rw [List.length_replicate] at this
          simp at this
          omega
        · intro hcon
          rcases List.append_eq_nil.mp hcon with ⟨h1, -⟩
          exact hvz h1
      rw [hinput, tokenizeWs_cons _ hinne, hsw]
      dsimp only
      rw [hsr]
      dsimp only
      rw [strMkData]
      rfl
    | cons q r =>
      obtain ⟨hn1, hruns'⟩ := hruns
      have hq1 : q.1.data ≠ [] := by
        obtain ⟨-, hne2, -⟩ := hwords'
        rcases hne2 with hne2 | hne2
        · exact absurd hne2 (by decide)
        · exact hne2
      have hinput : descChars ((v, n) :: q :: r) ++ (j ++ after) =
          v.data ++ (List.replicate n ' ' ++ (descChars (q :: r) ++ (j ++ after))) := by
        show v.data ++ List.replicate n ' ' ++ descChars (q :: r) ++ (j ++ after) = _
        simp [List.append_assoc]
      have hmid : ∀ c, (descChars (q :: r) ++ (j ++ after)).head? = some c →
          isWsChar c = false := by
        intro c hc
        have hnn : descChars (q :: r) ≠ [] := by
          obtain ⟨a, b⟩ := q
          exact descChars_ne_nil a b r hq1
        cases hdc : descChars (q :: r) with
        | nil => exact absurd hdc hnn
        | cons a t =>
          rw [hdc, List.cons_append, List.head?_cons, Option.some.injEq] at hc
          rw [← hc]
          exact descChars_head_nonws (q :: r) hwords' a (by rw [hdc]; rfl)
      have hsw : splitWord (v.data ++ (List.replicate n ' ' ++
          (descChars (q :: r) ++ (j ++ after)))) =
          (v.data, List.replicate n ' ' ++ (descChars (q :: r) ++ (j ++ after))) := by
        refine splitWord_app _ _ hws ?_
        intro c hc
        cases n with
        | zero => omega
        | succ m =>
          rw [List.replicate_succ, List.cons_append, List.head?_cons,
            Option.some.injEq] at hc
          rw [← hc]
          decide
      have hsr : splitRun (List.replicate n ' ' ++ (descChars (q :: r) ++ (j ++ after))) =
          (List.replicate n ' ', descChars (q :: r) ++ (j ++ after)) := by
        refine splitRun_app _ _ ?_ hmid
        intro c hm
        rw [List.eq_of_mem_replicate hm]
        decide
      have hinne : v.data ++ (List.replicate n ' ' ++
          (descChars (q :: r) ++ (j ++ after))) ≠ [] := by
        intro hcon
        rcases List.append_eq_nil.mp hcon with ⟨-, h1⟩
        rcases List.append_eq_nil.mp h1 with ⟨h2, -⟩
        have := congrArg List.length h2
        rw [List.length_replicate] at this
        simp at this
        omega
      rw [hinput, tokenizeWs_cons _ hinne, hsw]
      dsimp only
      rw [hsr]
      dsimp only
      rw [strMkData]
      have hh' : ∀ v2 n2, (q :: r).head? = some (v2, n2) → v2.data = [] → 1 ≤ n2 := by
        intro v2 n2 hhead hveq
        rw [List.head?_cons, Option.some.injEq] at hhead
        exfalso
        apply hq1
        rw [hhead]
        exact hveq
      rw [ih false j after (by intro hcon; exact List.noConfusion hcon) hj hafter hja
        hwords' hruns' hh']
      rfl

/-- Words and interior runs of a line description, the final run dropped:
the strings the wrapper has pushed when the line is flushed at its final
run. -/
def renderD : List (String × ℕ) → List String
  | [] => []
  | [(v, _)] => [v]
  | (v, n) :: d => v :: nspN n :: renderD d

/-- `descChars` with the final run dropped. -/
def descCharsBL : List (String × ℕ) → List Char
  | [] => []
  | [(v, _)] => v.data
  | (v, n) :: d => v.data ++ List.replicate n ' ' ++ descCharsBL d

/-- The final pair's run length. -/
def lastN : List (String × ℕ) → ℕ
  | [] => 0
  | [(_, n)] => n
  | _ :: d => lastN d

theorem strJoin_append2 (a b : List String) :
    String.join (a ++ b) = String.join a ++ String.join b := by
  induction a with
  | nil =>
    rw [List.nil_append]
    show String.join b = "" ++ String.join b
    rw [String.empty_append]
  | cons x t ih =>
    rw [List.cons_append, strJoin_cons, strJoin_cons, ih, String.append_assoc]

theorem renderD_join_data (d : List (String × ℕ)) (hd : d ≠ []) :
    (String.join (renderD d ++ [nspN 0])).data = descCharsBL d := by
  induction d with
  | nil => exact absurd rfl hd
  | cons p d' ih =>
    obtain ⟨v, n⟩ := p
    cases d' with
    | nil =>
      show (String.join (v :: [nspN 0])).data = v.data
      rw [strJoin_cons, strJoin_cons]
      show (v ++ (nspN 0 ++ String.join [])).data = v.data
      simp [String.data_append, nspN]
    | cons q r =>
      show (String.join ((v :: nspN n :: renderD (q :: r)) ++ [nspN 0])).data = _
      rw [List.cons_append, List.cons_append, strJoin_cons, strJoin_cons,
        String.data_append, String.data_append,
        ih (by intro hcon; exact List.noConfusion hcon)]
      show v.data ++ (List.replicate n ' ' ++ descCharsBL (q :: r)) = _
      show _ = v.data ++ List.replicate n ' ' ++ descCharsBL (q :: r)
      rw [List.append_assoc]

theorem descChars_eq_BL (d : List (String × ℕ)) :
    descChars d = descCharsBL d ++ List.replicate (lastN d) ' ' := by
  induction d with
  | nil => rfl
  | cons p d' ih =>
    obtain ⟨v, n⟩ := p
    cases d' with
    | nil =>
      show v.data ++ List.replicate n ' ' ++ [] = v.data ++ List.replicate n ' '
      rw [List.append_nil]
    | cons q r =>
      show v.data ++ List.replicate n ' ' ++ descChars (q :: r) = _
      rw [ih]
      show _ = v.data ++ List.replicate n ' ' ++ descCharsBL (q :: r) ++
        List.replicate (lastN (q :: r)) ' '
      simp [List.append_assoc]

theorem strDataEq {s t : String} (h : s.data = t.data) : s = t := by
  cases s
  cases t
  exact congrArg String.mk h

theorem place_step (w : ℤ) (st : WrapSt) (v r : String)
    (h1 : ((st.lineWidth + getTextWidth v : ℕ) : ℤ) ≤ w - ((0 : ℕ) : ℤ) ∨
      st.lineWidth ≤ 0)
    (h2 : ((st.lineWidth + getTextWidth v +
        (if r = "" ∨ r = "\n" then 0 else getTextWidth r) : ℕ) : ℤ) < w - ((0 : ℕ) : ℤ) ∧
      r ≠ "\n") :
    wrapTextStep w 0 .left getTextWidth st (v, r) =
      { st with
        line := (st.line ++ [v]) ++ [r]
        lineWidth := st.lineWidth + getTextWidth v +
          (if r = "" ∨ r = "\n" then 0 else getTextWidth r)
        prevSpaceWidth := (if r = "" ∨ r = "\n" then 0 else getTextWidth r) } := by
  unfold wrapTextStep
  dsimp only
  rw [if_pos h1]
  dsimp only
  rw [if_pos h2]

theorem flushRun_step (w : ℤ) (st : WrapSt) (v r : String)
    (h1 : ((st.lineWidth + getTextWidth v : ℕ) : ℤ) ≤ w - ((0 : ℕ) : ℤ) ∨
      st.lineWidth ≤ 0)
    (h2 : ¬(((st.lineWidth + getTextWidth v +
        (if r = "" ∨ r = "\n" then 0 else getTextWidth r) : ℕ) : ℤ) < w - ((0 : ℕ) : ℤ) ∧
      r ≠ "\n")) :
    wrapTextStep w 0 .left getTextWidth st (v, r) =
      { line := [nspN 0]
        lineWidth := 0
        prevSpaceWidth := 0
        maxWidth := max st.maxWidth ((st.lineWidth + getTextWidth v + 0 : ℕ) : ℤ)
        lines := st.lines ++ [(alignInternal
          (String.join ((st.line ++ [v]) ++ [nspN 0]))
          (st.lineWidth + getTextWidth v + 0) w .left,
          st.lineWidth + getTextWidth v + 0)] } := by
  unfold wrapTextStep
  dsimp only
  rw [if_pos h1]
  dsimp only
  rw [if_neg h2]

theorem nspN_zero : nspN 0 = "" := rfl

theorem step2_aux (w : ℤ) : ∀ (d : List (String × ℕ)) (jn : List Char),
    (jn = [] ∨ jn = ['\n']) → d ≠ [] →
    ∀ (lw : ℕ), descOK w lw d →
    ∀ (pre : List String) (p0 : ℕ) (mw : ℤ) (ls : List (String × ℕ)),
    (lineToks d jn).foldl (wrapTextStep w 0 .left getTextWidth)
      { line := pre, lineWidth := lw, prevSpaceWidth := p0, maxWidth := mw, lines := ls } =
    { line := [nspN 0]
      lineWidth := 0
      prevSpaceWidth := 0
      maxWidth := max mw ((descFW lw d : ℕ) : ℤ)
      lines := ls ++ [(alignInternal (String.join ((pre ++ renderD d) ++ [nspN 0]))
        (descFW lw d) w .left, descFW lw d)] } := by
  intro d
  induction d with
  | nil =>
    intro jn _ hd
    exact absurd rfl hd
  | cons p d' ih =>
    intro jn hjn _ lw hOK pre p0 mw ls
    obtain ⟨v, n⟩ := p
    obtain ⟨hword, hfin⟩ := hOK
    have h1 : ((lw + getTextWidth v : ℕ) : ℤ) ≤ w - ((0 : ℕ) : ℤ) ∨ lw ≤ 0 := by
      rcases hword with h | h
      · left
        simpa using h
      · right
        omega
    cases d' with
    | nil =>
      -- the line's final pair: flush at the merged junction run
      rw [show lineToks [(v, n)] jn =
        [(v, String.mk (List.replicate n ' ' ++ jn))] from rfl]
      rw [List.foldl_cons, List.foldl_nil]
      have h2 : ¬(((lw + getTextWidth v +
          (if String.mk (List.replicate n ' ' ++ jn) = "" ∨
            String.mk (List.replicate n ' ' ++ jn) = "\n" then 0
           else getTextWidth (String.mk (List.replicate n ' ' ++ jn))) : ℕ) : ℤ) <
            w - ((0 : ℕ) : ℤ) ∧
          String.mk (List.replicate n ' ' ++ jn) ≠ "\n") := by
        rcases hjn with rfl | rfl
        · cases n with
          | zero =>
            rintro ⟨hA, -⟩
            have hsw0 : (if String.mk (List.replicate 0 ' ' ++ ([] : List Char)) = "" ∨
                String.mk (List.replicate 0 ' ' ++ ([] : List Char)) = "\n" then 0
                else getTextWidth (String.mk (List.replicate 0 ' ' ++ []))) = 0 :=
              if_pos (Or.inl (by rfl))
            rw [hsw0] at hA
            rcases hfin with ⟨-, heq⟩ | ⟨-, hge⟩
            · push_cast at hA heq
              omega
            · push_cast at hA hge
              omega
          | succ m =>
            have hReq : String.mk (List.replicate (m + 1) ' ' ++ []) = nspN (m + 1) := by
              rw [List.append_nil]
              rfl
            rintro ⟨hA, -⟩
            rw [hReq, if_neg ?_, tw_spaces] at hA
            · rcases hfin with ⟨-, heq⟩ | ⟨hz, -⟩
              · push_cast at hA heq
                omega
              · exact absurd hz (by omega)
            · rintro (h | h)
              · exact nspN_ne_empty (by omega) h
              · exact nspN_ne_nl _ h
        · cases n with
          | zero =>
            rintro ⟨-, hB⟩
            exact hB rfl
          | succ m =>
            rintro ⟨hA, -⟩
            rw [if_neg ?_, tw_spacesNl] at hA
            · rcases hfin with ⟨-, heq⟩ | ⟨hz, -⟩
              · push_cast at hA heq
                omega
              · exact absurd hz (by omega)
            · rintro (h | h)
              · exact mkRunNl_ne_empty _ h
              · exact mkRunNl_ne_nl (by omega) h
      rw [flushRun_step w _ v _ h1 h2]
      show _ = ({ line := [nspN 0]
                  lineWidth := 0
                  prevSpaceWidth := 0
                  maxWidth := max mw ((lw + getTextWidth v : ℕ) : ℤ)
                  lines := ls ++ [(alignInternal
                    (String.join ((pre ++ [v]) ++ [nspN 0]))
                    (lw + getTextWidth v) w .left, lw + getTextWidth v)] } : WrapSt)
      simp only [Nat.add_zero]
    | cons q r =>
      obtain ⟨hn1, hlt, hOK'⟩ := hfin
      rw [show lineToks ((v, n) :: q :: r) jn = (v, nspN n) :: lineToks (q :: r) jn
        from rfl]
      rw [List.foldl_cons]
      have hite : (if nspN n = "" ∨ nspN n = "\n" then 0 else getTextWidth (nspN n)) = n := by
        rw [if_neg, tw_spaces]
        rintro (h | h)
        · exact nspN_ne_empty hn1 h
        · exact nspN_ne_nl n h
      have h2 : ((lw + getTextWidth v +
          (if nspN n = "" ∨ nspN n = "\n" then 0 else getTextWidth (nspN n)) : ℕ) : ℤ) <
            w - ((0 : ℕ) : ℤ) ∧ nspN n ≠ "\n" := by
        refine ⟨?_, nspN_ne_nl n⟩
        rw [hite]
        simpa using hlt
      rw [place_step w _ v _ h1 h2, hite]
      show (lineToks (q :: r) jn).foldl (wrapTextStep w 0 .left getTextWidth)
        ({ line := (pre ++ [v]) ++ [nspN n]
           lineWidth := lw + getTextWidth v + n
           prevSpaceWidth := n
           maxWidth := mw
           lines := ls } : WrapSt) = _
      have hrec := ih jn hjn (by intro hcon; exact List.noConfusion hcon)
        (lw + getTextWidth v + n) hOK' ((pre ++ [v]) ++ [nspN n]) n mw ls
      rw [hrec]
      have hlist : ((pre ++ [v]) ++ [nspN n]) ++ renderD (q :: r) =
          pre ++ renderD ((v, n) :: q :: r) := by
        show _ = pre ++ (v :: nspN n :: renderD (q :: r))
        simp
      rw [hlist]
      rfl

theorem pad_eq (w : ℤ) : ∀ (d : List (String × ℕ)) (lw : ℕ), d ≠ [] → descOK w lw d →
    (w - (descFW lw d : ℤ)).toNat = lastN d := by
  intro d
  induction d with
  | nil =>
    intro lw hd
    exact absurd rfl hd
  | cons p d' ih =>
    intro lw _ hOK
    obtain ⟨v, n⟩ := p
    obtain ⟨-, hfin⟩ := hOK
    cases d' with
    | nil =>
      show (w - ((lw + getTextWidth v : ℕ) : ℤ)).toNat = n
      rcases hfin with ⟨hle, heq⟩ | ⟨hz, hge⟩
      · push_cast at heq ⊢
        omega
      · push_cast at hge ⊢
        omega
    | cons q r =>
      obtain ⟨-, -, hOK'⟩ := hfin
      show (w - (descFW (lw + getTextWidth v + n) (q :: r) : ℤ)).toNat = lastN (q :: r)
      exact ih (lw + getTextWidth v + n) (by intro hcon; exact List.noConfusion hcon) hOK'

theorem lineStr_eq (w : ℤ) (d : List (String × ℕ)) (hd : d ≠ []) (hOK : descOK w 0 d) :
    alignInternal (String.join (([nspN 0] ++ renderD d) ++ [nspN 0])) (descFW 0 d) w .left
      = String.mk (descChars d) := by
  apply strDataEq
  show (String.join (([nspN 0] ++ renderD d) ++ [nspN 0]) ++
    nspN ((w - (descFW 0 d : ℤ)).toNat)).data = descChars d
  rw [String.data_append]
  have hjoin : (String.join (([nspN 0] ++ renderD d) ++ [nspN 0])).data = descCharsBL d := by
    rw [List.append_assoc]
    rw [show [nspN 0] ++ (renderD d ++ [nspN 0]) = nspN 0 :: (renderD d ++ [nspN 0])
      from rfl]
    rw [strJoin_cons, String.data_append, renderD_join_data d hd]
    rfl
  rw [hjoin]
  show descCharsBL d ++ List.replicate ((w - (descFW 0 d : ℤ)).toNat) ' ' = descChars d
  rw [descChars_eq_BL, pad_eq w d 0 hd hOK]

/-- The characters of the newline-rejoined list of rendered lines. -/
def chainChars : List (List (String × ℕ)) → List Char
  | [] => []
  | [d] => descChars d
  | d :: ds => descChars d ++ ('\n' :: chainChars ds)

/-- A line description an original wrap can emit. -/
def lineOK (w : ℤ) (d : List (String × ℕ)) : Prop :=
  d ≠ [] ∧ descOK w 0 d ∧ runsPos d ∧
    (∀ v n, d.head? = some (v, n) → v.data = [] → 1 ≤ n)

theorem descWords_weaken (d : List (String × ℕ)) (h : descWords false d) :
    descWords true d := by
  cases d with
  | nil => trivial
  | cons p d' =>
    obtain ⟨h1, -, h3⟩ := h
    exact ⟨h1, Or.inl rfl, h3⟩

theorem chain_head_nonws : ∀ (ds : List (List (String × ℕ))),
    (∀ d ∈ ds, descWords false d ∧ d ≠ []) →
    ∀ c, (chainChars ds).head? = some c → isWsChar c = false := by
  intro ds h c hc
  cases ds with
  | nil => exact Option.noConfusion hc
  | cons d ds' =>
    obtain ⟨hw, hne⟩ := h d (List.mem_cons_self d ds')
    cases hd : d with
    | nil => exact absurd hd hne
    | cons p t =>
      have hq1 : p.1.data ≠ [] := by
        rw [hd] at hw
        obtain ⟨-, hne2, -⟩ := hw
        rcases hne2 with hne2 | hne2
        · exact absurd hne2 (by decide)
        · exact hne2
      have hnn : descChars (p :: t) ≠ [] := by
        obtain ⟨a, b⟩ := p
        exact descChars_ne_nil a b t hq1
      have hhead : ∀ c2, (descChars (p :: t)).head? = some c2 → isWsChar c2 = false := by
        rw [← hd]
        rw [hd] at hw ⊢
        exact descChars_head_nonws (p :: t) hw
      cases ds' with
      | nil =>
        rw [hd] at hc
        exact hhead c hc
      | cons d2 ds'' =>
        rw [hd] at hc
        cases hdc : descChars (p :: t) with
        | nil => exact absurd hdc hnn
        | cons a u =>
          rw [show chainChars ((p :: t) :: d2 :: ds'') = descChars (p :: t) ++
            ('\n' :: chainChars (d2 :: ds'')) from rfl, hdc] at hc
          rw [List.cons_append, List.head?_cons, Option.some.injEq] at hc
          exact hc ▸ hhead a (by rw [hdc]; rfl)

theorem step2_chain (w : ℤ) : ∀ (ds : List (List (String × ℕ)))
    (hall : ∀ d ∈ ds, lineOK w d)
    (hWhead : ∀ d, ds.head? = some d → descWords true d)
    (hWtail : ∀ d ∈ ds.tail, descWords false d)
    (p0 : ℕ) (mw : ℤ) (ls : List (String × ℕ)),
    ∃ (p2 : ℕ) (mw2 : ℤ),
    (tokenizeWs (chainChars ds)).foldl (wrapTextStep w 0 .left getTextWidth)
      { line := [nspN 0], lineWidth := 0, prevSpaceWidth := p0, maxWidth := mw,
        lines := ls } =
    { line := [nspN 0], lineWidth := 0, prevSpaceWidth := p2, maxWidth := mw2,
      lines := ls ++ ds.map (fun d => (String.mk (descChars d), descFW 0 d)) } := by
  intro ds
  induction ds with
  | nil =>
    intro _ _ _ p0 mw ls
    refine ⟨p0, mw, ?_⟩
    show ({ line := [nspN 0], lineWidth := 0, prevSpaceWidth := p0, maxWidth := mw,
            lines := ls } : WrapSt) = _
    simp
  | cons d ds' ih =>
    intro hall hWhead hWtail p0 mw ls
    obtain ⟨hd, hOK, hruns, hh⟩ := hall d (List.mem_cons_self d ds')
    have hWd : descWords true d := hWhead d rfl
    cases ds' with
    | nil =>
      have htok := tok_desc d true [] [] hd (by intro c hc; cases hc)
        (by intro c hc; exact Option.noConfusion hc) (by intro hcon; exact absurd rfl hcon)
        hWd hruns hh
      have h0 : descChars d ++ (([] : List Char) ++ []) = descChars d := by simp
      rw [h0] at htok
      rw [show tokenizeWs ([] : List Char) = [] from rfl, List.append_nil] at htok
      refine ⟨0, max mw ((descFW 0 d : ℕ) : ℤ), ?_⟩
      rw [show chainChars [d] = descChars d from rfl]
      rw [htok, step2_aux w d [] (Or.inl rfl) hd 0 hOK [nspN 0] p0 mw ls,
        lineStr_eq w d hd hOK]
      rfl
    | cons d2 ds'' =>
      have hafter : ∀ c, (chainChars (d2 :: ds'')).head? = some c → isWsChar c = false := by
        refine chain_head_nonws (d2 :: ds'') ?_
        intro x hx
        refine ⟨hWtail x hx, (hall x (List.mem_cons_of_mem d hx)).1⟩
      have htok := tok_desc d true ['\n'] (chainChars (d2 :: ds'')) hd
        (by intro c hc; rcases List.mem_singleton.mp hc with rfl; decide)
        hafter (fun _ => by intro hcon; exact List.noConfusion hcon)
        hWd hruns hh
      rw [show ['\n'] ++ chainChars (d2 :: ds'') = '\n' :: chainChars (d2 :: ds'')
        from rfl] at htok
      obtain ⟨p2, mw2, hrec⟩ := ih
        (fun x hx => hall x (List.mem_cons_of_mem d hx))
        (fun x hx => descWords_weaken x (by
          rw [List.head?_cons, Option.some.injEq] at hx
          rw [← hx]
          exact hWtail d2 (List.mem_cons_self d2 ds'')))
        (fun x hx => hWtail x (List.mem_cons_of_mem d2 hx))
        0 (max mw ((descFW 0 d : ℕ) : ℤ))
        (ls ++ [(alignInternal (String.join (([nspN 0] ++ renderD d) ++ [nspN 0]))
          (descFW 0 d) w .left, descFW 0 d)])
      refine ⟨p2, mw2, ?_⟩
      rw [show chainChars (d :: d2 :: ds'') = descChars d ++
        ('\n' :: chainChars (d2 :: ds'')) from rfl]
      rw [htok, List.foldl_append,
        step2_aux w d ['\n'] (Or.inr rfl) hd 0 hOK [nspN 0] p0 mw ls, hrec,
        lineStr_eq w d hd hOK]
      simp

/-- Full line width, including the final pair's run. -/
def descSum : ℕ → List (String × ℕ) → ℕ
  | lw, [] => lw
  | lw, (v, n) :: d => descSum (lw + getTextWidth v + n) d

/-- The strings the wrapper's `line` array holds for these pairs: each word
followed by its placed run. -/
def renderFull : List (String × ℕ) → List String
  | [] => []
  | (v, n) :: d => v :: nspN n :: renderFull d

/-- Placement conditions of every pair, final run included (strictly). -/
def prefOK (w : ℤ) : ℕ → List (String × ℕ) → Prop
  | _, [] => True
  | lw, (v, n) :: d => ((lw + getTextWidth v : ℤ) ≤ w ∨ lw = 0) ∧
      ((lw + getTextWidth v + n : ℤ) < w) ∧ prefOK w (lw + getTextWidth v + n) d

theorem descSum_snoc (init : List (String × ℕ)) (v : String) (n : ℕ) : ∀ lw,
    descSum lw (init ++ [(v, n)]) = descSum lw init + getTextWidth v + n := by
  induction init with
  | nil => intro lw; rfl
  | cons p d ih =>
    intro lw
    obtain ⟨u, m⟩ := p
    show descSum (lw + getTextWidth u + m) (d ++ [(v, n)]) = _
    exact ih _

theorem descFW_snoc (init : List (String × ℕ)) (v : String) (n : ℕ) : ∀ lw,
    descFW lw (init ++ [(v, n)]) = descSum lw init + getTextWidth v := by
  induction init with
  | nil => intro lw; rfl
  | cons p d ih =>
    intro lw
    obtain ⟨u, m⟩ := p
    cases d with
    | nil => exact ih _
    | cons q r => exact ih _

theorem lastN_snoc (init : List (String × ℕ)) (v : String) (n : ℕ) :
    lastN (init ++ [(v, n)]) = n := by
  induction init with
  | nil => rfl
  | cons p d ih =>
    cases d with
    | nil => rfl
    | cons q r =>
      show lastN ((q :: r) ++ [(v, n)]) = n
      exact ih

theorem renderFull_snoc (init : List (String × ℕ)) (v : String) (n : ℕ) :
    renderFull (init ++ [(v, n)]) = renderFull init ++ [v, nspN n] := by
  induction init with
  | nil => rfl
  | cons p d ih =>
    obtain ⟨u, m⟩ := p
    show u :: nspN m :: renderFull (d ++ [(v, n)]) = _
    rw [ih]
    rfl

theorem renderD_snoc (init : List (String × ℕ)) (v : String) (n : ℕ) :
    renderD (init ++ [(v, n)]) = renderFull init ++ [v] := by
  induction init with
  | nil => rfl
  | cons p d ih =>
    obtain ⟨u, m⟩ := p
    cases hd : d ++ [(v, n)] with
    | nil => exact absurd hd (by simp)
    | cons q r =>
      show renderD ((u, m) :: d ++ [(v, n)]) = _
      cases d with
      | nil =>
        simp at hd
        show renderD [(u, m), (v, n)] = [u, nspN m, v]
        rfl
      | cons x y =>
        show u :: nspN m :: renderD ((x :: y) ++ [(v, n)]) = _
        rw [ih]
        rfl

theorem descCharsBL_snoc (init : List (String × ℕ)) (v : String) (n : ℕ) :
    descCharsBL (init ++ [(v, n)]) = descChars init ++ v.data := by
  induction init with
  | nil => rfl
  | cons p d ih =>
    obtain ⟨u, m⟩ := p
    cases d with
    | nil =>
      show u.data ++ List.replicate m ' ' ++ v.data = (u.data ++ List.replicate m ' ' ++ []) ++ v.data
      simp
    | cons x y =>
      show u.data ++ List.replicate m ' ' ++ descCharsBL ((x :: y) ++ [(v, n)]) = _
      rw [ih]
      show _ = (u.data ++ List.replicate m ' ' ++ descChars (x :: y)) ++ v.data
      simp [List.append_assoc]

theorem prefOK_snoc (init : List (String × ℕ)) (v : String) (n : ℕ) : ∀ (w : ℤ) (lw : ℕ),
    prefOK w lw (init ++ [(v, n)]) ↔
      (prefOK w lw init ∧
        ((descSum lw init + getTextWidth v : ℤ) ≤ w ∨ descSum lw init = 0) ∧
        ((descSum lw init + getTextWidth v + n : ℤ) < w)) := by
  induction init with
  | nil =>
    intro w lw
    constructor
    · rintro ⟨h1, h2, -⟩
      exact ⟨trivial, h1, h2⟩
    · rintro ⟨-, h1, h2⟩
      exact ⟨h1, h2, trivial⟩
  | cons p d ih =>
    intro w lw
    obtain ⟨u, m⟩ := p
    constructor
    · rintro ⟨h1, h2, h3⟩
      obtain ⟨h4, h5, h6⟩ := (ih w _).mp h3
      exact ⟨⟨h1, h2, h4⟩, h5, h6⟩
    · rintro ⟨⟨h1, h2, h4⟩, h5, h6⟩
      exact ⟨h1, h2, (ih w _).mpr ⟨h4, h5, h6⟩⟩

theorem runsPos_snoc (v : String) (n : ℕ) : ∀ (init : List (String × ℕ)),
    (∀ p ∈ init, 1 ≤ p.2) → runsPos (init ++ [(v, n)]) := by
  intro init
  induction init with
  | nil => intro _; trivial
  | cons p d ih =>
    intro h
    obtain ⟨u, m⟩ := p
    cases d with
    | nil => exact ⟨h (u, m) (List.mem_cons_self _ _), trivial⟩
    | cons q r =>
      exact ⟨h (u, m) (List.mem_cons_self _ _),
        ih (fun p2 hp2 => h p2 (List.mem_cons_of_mem _ hp2))⟩

theorem descOK_of_parts (w : ℤ) (v : String) (pad : ℕ) :
    ∀ (init : List (String × ℕ)) (lw : ℕ),
    prefOK w lw init → (∀ p ∈ init, 1 ≤ p.2) →
    ((descSum lw init + getTextWidth v : ℤ) ≤ w ∨ descSum lw init = 0) →
    (((descSum lw init + getTextWidth v : ℤ) ≤ w ∧
        ((descSum lw init + getTextWidth v + pad : ℤ) = w)) ∨
      (pad = 0 ∧ w ≤ (descSum lw init + getTextWidth v : ℤ))) →
    descOK w lw (init ++ [(v, pad)]) := by
  intro init
  induction init with
  | nil =>
    intro lw _ _ hword hfin
    exact ⟨hword, hfin⟩
  | cons p d ih =>
    intro lw hpref hpos hword hfin
    obtain ⟨u, m⟩ := p
    obtain ⟨h1, h2, h3⟩ := hpref
    refine ⟨h1, ?_⟩
    cases d with
    | nil =>
      refine ⟨hpos (u, m) (List.mem_cons_self _ _), h2, ?_⟩
      exact ih _ h3 (fun q hq => hpos q (List.mem_cons_of_mem _ hq)) hword hfin
    | cons x y =>
      refine ⟨hpos (u, m) (List.mem_cons_self _ _), h2, ?_⟩
      exact ih _ h3 (fun q hq => hpos q (List.mem_cons_of_mem _ hq)) hword hfin

theorem runsPos_all (d : List (String × ℕ)) (hr : runsPos d)
    (hl : d = [] ∨ 1 ≤ lastN d) : ∀ p ∈ d, 1 ≤ p.2 := by
  induction d with
  | nil =>
    intro p hp
    cases hp
  | cons q r ih =>
    intro p hp
    cases r with
    | nil =>
      rcases List.mem_singleton.mp hp with rfl
      rcases hl with hl | hl
      · exact absurd hl (by simp)
      · exact hl
    | cons x y =>
      obtain ⟨h1, h2⟩ := hr
      rcases List.mem_cons.mp hp with rfl | hp
      · exact h1
      · refine ih h2 ?_ p hp
        rcases hl with hl | hl
        · exact absurd hl (by simp)
        · right
          exact hl

theorem run_ne_nl (r : String) (hr : ∀ c ∈ r.data, c = ' ') : r ≠ "\n" := by
  intro he
  subst he
  exact absurd (hr '\n' (List.mem_singleton_self _)) (by decide)

theorem SW_eq (r : String) (hr : ∀ c ∈ r.data, c = ' ') :
    (if r = "" ∨ r = "\n" then 0 else getTextWidth r) = r.data.length := by
  by_cases h0 : r = ""
  · subst h0
    rw [if_pos (Or.inl rfl)]
    rfl
  · rw [if_neg (by rintro (h | h); exacts [h0 h, run_ne_nl r hr h])]
    exact tw_run r hr

theorem tw_of_nil (v : String) (h : v.data = []) : getTextWidth v = 0 := by
  cases v with
  | mk d =>
    have hd : d = [] := h
    subst hd
    rfl

theorem descWords_snoc (v : String) (n : ℕ) (fl : Bool) :
    ∀ (init : List (String × ℕ)), descWords fl init → wsFree v →
    (v.data ≠ [] ∨ (fl = true ∧ init = [])) → descWords fl (init ++ [(v, n)]) := by
  intro init
  induction init generalizing fl with
  | nil =>
    intro _ hws hv
    refine ⟨hws, ?_, trivial⟩
    rcases hv with hv | ⟨hfl, -⟩
    · exact Or.inr hv
    · exact Or.inl hfl
  | cons p d ih =>
    intro hd hws hv
    obtain ⟨u, m⟩ := p
    obtain ⟨h1, h2, h3⟩ := hd
    refine ⟨h1, h2, ?_⟩
    refine ih false h3 hws ?_
    rcases hv with hv | ⟨-, hcon⟩
    · exact Or.inl hv
    · exact absurd hcon (by simp)

theorem descWords_setLast (v : String) (n m : ℕ) (fl : Bool) :
    ∀ (init : List (String × ℕ)), descWords fl (init ++ [(v, n)]) →
    descWords fl (init ++ [(v, m)]) := by
  intro init
  induction init generalizing fl with
  | nil =>
    intro h
    obtain ⟨h1, h2, -⟩ := h
    exact ⟨h1, h2, trivial⟩
  | cons p d ih =>
    intro h
    obtain ⟨h1, h2, h3⟩ := h
    exact ⟨h1, h2, ih false h3⟩

theorem renderFull_join_data : ∀ (d : List (String × ℕ)),
    (String.join (renderFull d ++ [nspN 0])).data = descChars d := by
  intro d
  induction d with
  | nil => rfl
  | cons p d' ih =>
    obtain ⟨v, n⟩ := p
    show (String.join ((v :: nspN n :: renderFull d') ++ [nspN 0])).data = _
    rw [List.cons_append, List.cons_append, strJoin_cons, strJoin_cons,
      String.data_append, String.data_append, ih]
    show v.data ++ (List.replicate n ' ' ++ descChars d') =
      v.data ++ List.replicate n ' ' ++ descChars d'
    rw [List.append_assoc]

theorem renderFull_join_data0 (d : List (String × ℕ)) :
    (String.join ((nspN 0 :: renderFull d) ++ [nspN 0])).data = descChars d := by
  rw [List.cons_append, strJoin_cons, String.data_append, renderFull_join_data]
  rfl

theorem head_app {α : Type} (l l2 : List α) (h : l ≠ []) :
    (l ++ l2).head? = l.head? := by
  cases l with
  | nil => exact absurd rfl h
  | cons a t => rfl

theorem descSum_lt_w (w : ℤ) : ∀ (pairs : List (String × ℕ)) (lw : ℕ),
    pairs ≠ [] → prefOK w lw pairs → ((descSum lw pairs : ℕ) : ℤ) < w := by
  intro pairs
  induction pairs with
  | nil =>
    intro lw h
    exact absurd rfl h
  | cons p d ih =>
    intro lw _ hpref
    obtain ⟨v, n⟩ := p
    obtain ⟨-, h2, h3⟩ := hpref
    cases d with
    | nil =>
      show ((descSum (lw + getTextWidth v + n) [] : ℕ) : ℤ) < w
      exact h2
    | cons q r =>
      exact ih _ (by intro hcon; exact List.noConfusion hcon) h3

theorem tokenizeWs_first_empty (cs : List Char) (v r : String) (ts : List (String × String))
    (h : tokenizeWs cs = (v, r) :: ts) (hv : v.data = []) : r.data ≠ [] := by
  have hcs : cs ≠ [] := by
    intro hc
    subst hc
    exact List.noConfusion h
  rw [tokenizeWs_cons cs hcs] at h
  injection h with h1 h2
  injection h1 with hveq hreq
  cases hcc : cs with
  | nil => exact absurd hcc hcs
  | cons c q =>
    subst hcc
    by_cases hws : isWsChar c
    · rw [splitWord_ws hws] at hreq
      show r.data ≠ []
      rw [← hreq]
      show (splitRun (c :: q)).1 ≠ []
      unfold splitRun
      rw [if_pos hws]
      simp
    · have : v.data = (splitWord (c :: q)).1 := by rw [← hveq]
      rw [hv] at this
      unfold splitWord at this
      rw [if_neg hws] at this
      exact List.noConfusion this

theorem pairs_snoc_ex (pairs : List (String × ℕ)) (h : pairs ≠ []) :
    ∃ init vk nk, pairs = init ++ [(vk, nk)] := by
  refine ⟨pairs.dropLast, (pairs.getLast h).1, (pairs.getLast h).2, ?_⟩
  rw [Prod.mk.eta]
  exact (List.dropLast_append_getLast h).symm

theorem descSum_pos_ne (pairs : List (String × ℕ)) (h : 0 < descSum 0 pairs) :
    pairs ≠ [] := by
  intro hc
  subst hc
  exact absurd h (by simp [descSum])

theorem wordFlushPlace_step (w : ℤ) (st : WrapSt) (v r : String)
    (h1 : ¬(((st.lineWidth + getTextWidth v : ℕ) : ℤ) ≤ w - ((0 : ℕ) : ℤ) ∨
      st.lineWidth ≤ 0))
    (hp : st.prevSpaceWidth > 0)
    (h2 : ((0 + getTextWidth v +
        (if r = "" ∨ r = "\n" then 0 else getTextWidth r) : ℕ) : ℤ) < w - ((0 : ℕ) : ℤ) ∧
      r ≠ "\n") :
    wrapTextStep w 0 .left getTextWidth st (v, r) =
      { line := [nspN 0, v] ++ [r]
        lineWidth := 0 + getTextWidth v +
          (if r = "" ∨ r = "\n" then 0 else getTextWidth r)
        prevSpaceWidth := (if r = "" ∨ r = "\n" then 0 else getTextWidth r)
        maxWidth := max st.maxWidth ((st.lineWidth - st.prevSpaceWidth + 0 : ℕ) : ℤ)
        lines := st.lines ++ [(alignInternal
          (String.join (st.line.dropLast ++ [nspN 0]))
          (st.lineWidth - st.prevSpaceWidth + 0) w .left,
          st.lineWidth - st.prevSpaceWidth + 0)] } := by
  unfold wrapTextStep
  dsimp only
  rw [if_neg h1, if_pos hp]
  dsimp only
  rw [if_pos h2]

theorem wordFlushFlush_step (w : ℤ) (st : WrapSt) (v r : String)
    (h1 : ¬(((st.lineWidth + getTextWidth v : ℕ) : ℤ) ≤ w - ((0 : ℕ) : ℤ) ∨
      st.lineWidth ≤ 0))
    (hp : st.prevSpaceWidth > 0)
    (h2 : ¬(((0 + getTextWidth v +
        (if r = "" ∨ r = "\n" then 0 else getTextWidth r) : ℕ) : ℤ) < w - ((0 : ℕ) : ℤ) ∧
      r ≠ "\n")) :
    wrapTextStep w 0 .left getTextWidth st (v, r) =
      { line := [nspN 0]
        lineWidth := 0
        prevSpaceWidth := 0
        maxWidth := max (max st.maxWidth ((st.lineWidth - st.prevSpaceWidth + 0 : ℕ) : ℤ))
          ((0 + getTextWidth v + 0 : ℕ) : ℤ)
        lines := (st.lines ++ [(alignInternal
          (String.join (st.line.dropLast ++ [nspN 0]))
          (st.lineWidth - st.prevSpaceWidth + 0) w .left,
          st.lineWidth - st.prevSpaceWidth + 0)]) ++
          [(alignInternal (String.join ([nspN 0, v] ++ [nspN 0]))
            (0 + getTextWidth v + 0) w .left, 0 + getTextWidth v + 0)] } := by
  unfold wrapTextStep
  dsimp only
  rw [if_neg h1, if_pos hp]
  dsimp only
  rw [if_neg h2]

/-- Invariant of the original wrap's fold (width `w`, margin 0, left
alignment, `getTextWidth`): the state is described by the pairs of the
open line and the descriptions of the flushed lines. -/
def wrapInv (w : ℤ) (st : WrapSt) (pairs : List (String × ℕ))
    (ds : List (List (String × ℕ))) : Prop :=
  st.line = nspN 0 :: renderFull pairs ∧
  st.lineWidth = descSum 0 pairs ∧
  st.prevSpaceWidth = lastN pairs ∧
  st.lines.map Prod.fst = ds.map (fun d => String.mk (descChars d)) ∧
  prefOK w 0 pairs ∧
  runsPos pairs ∧
  (∀ v n, pairs.head? = some (v, n) → v.data = [] → 1 ≤ n) ∧
  descWords ds.isEmpty pairs ∧
  (∀ d ∈ ds, lineOK w d) ∧
  (∀ d, ds.head? = some d → descWords true d) ∧
  (∀ d ∈ ds.tail, descWords false d)

theorem isEmpty_app {α : Type} (l : List α) (x : α) : (l ++ [x]).isEmpty = false := by
  cases l <;> rfl

theorem ds_extend (w : ℤ) (ds : List (List (String × ℕ))) (dn : List (String × ℕ))
    (hDS : ∀ d ∈ ds, lineOK w d)
    (hDSh : ∀ d, ds.head? = some d → descWords true d)
    (hDSt : ∀ d ∈ ds.tail, descWords false d)
    (hnew : lineOK w dn)
    (hneww : descWords ds.isEmpty dn) :
    (∀ d ∈ ds ++ [dn], lineOK w d) ∧
    (∀ d, (ds ++ [dn]).head? = some d → descWords true d) ∧
    (∀ d ∈ (ds ++ [dn]).tail, descWords false d) := by
  refine ⟨?_, ?_, ?_⟩
  · intro d hd
    rcases List.mem_append.mp hd with hd | hd
    · exact hDS d hd
    · rcases List.mem_singleton.mp hd with rfl
      exact hnew
  · cases ds with
    | nil =>
      intro d hd
      rw [show (([] : List (List (String × ℕ))) ++ [dn]).head? = some dn from rfl,
        Option.some.injEq] at hd
      rw [← hd]
      exact hneww
    | cons x t =>
      intro d hd
      rw [head_app _ _ (by intro hc; exact List.noConfusion hc)] at hd
      exact hDSh d hd
  · cases ds with
    | nil =>
      intro d hd
      cases hd
    | cons x t =>
      intro d hd
      rcases List.mem_append.mp hd with hd | hd
      · exact hDSt d hd
      · rcases List.mem_singleton.mp hd with rfl
        exact hneww

theorem lineOK_build (w : ℤ) (init : List (String × ℕ)) (v : String) (nn : ℕ)
    (hpre : prefOK w 0 init)
    (hpos : ∀ p ∈ init, 1 ≤ p.2)
    (hword : ((descSum 0 init + getTextWidth v : ℤ) ≤ w ∨ descSum 0 init = 0))
    (hfin : (((descSum 0 init + getTextWidth v : ℤ) ≤ w ∧
        ((descSum 0 init + getTextWidth v + nn : ℤ) = w)) ∨
      (nn = 0 ∧ w ≤ (descSum 0 init + getTextWidth v : ℤ))))
    (hhead : ∀ v2 n2, (init ++ [(v, nn)]).head? = some (v2, n2) → v2.data = [] → 1 ≤ n2) :
    lineOK w (init ++ [(v, nn)]) :=
  ⟨by simp, descOK_of_parts w v nn init 0 hpre hpos hword hfin,
    runsPos_snoc v nn init hpos, hhead⟩

theorem headCond_snoc (init : List (String × ℕ)) (v : String) (nn : ℕ)
    (hne : init ≠ [])
    (hh : ∀ v2 n2, init.head? = some (v2, n2) → v2.data = [] → 1 ≤ n2) :
    ∀ v2 n2, (init ++ [(v, nn)]).head? = some (v2, n2) → v2.data = [] → 1 ≤ n2 := by
  intro v2 n2 h
  rw [head_app _ _ hne] at h
  exact hh v2 n2 h

theorem step1_fold (w : ℤ) (hw : 0 < w) : ∀ (ts : List (String × String)) (fl : Bool)
    (st : WrapSt) (pairs : List (String × ℕ)) (ds : List (List (String × ℕ))),
    toksOK fl ts →
    (∀ t ∈ ts, ∀ c ∈ t.2.data, c = ' ') →
    (fl = true → pairs = [] ∧ ds = []) →
    (∀ v2 r2 ts2, ts = (v2, r2) :: ts2 → fl = true → v2.data = [] → r2.data ≠ []) →
    wrapInv w st pairs ds →
    (ts ≠ [] → (pairs = [] ∨ 1 ≤ lastN pairs)) →
    ∃ pairs2 ds2,
      wrapInv w (ts.foldl (wrapTextStep w 0 .left getTextWidth) st) pairs2 ds2 := by
  intro ts
  induction ts with
  | nil =>
    intro fl st pairs ds _ _ _ _ hInv _
    exact ⟨pairs, ds, hInv⟩
  | cons t ts2 ih =>
    intro fl st pairs ds htok hsp hfl hE hInv hlast
    obtain ⟨v, r⟩ := t
    obtain ⟨hvfree, hvne, hrws, hrlast, htok2⟩ := htok
    have hr2 : ∀ c ∈ r.data, c = ' ' := hsp (v, r) (List.mem_cons_self _ _)
    have hSW := SW_eq r hr2
    have hrnl : r ≠ "\n" := run_ne_nl r hr2
    have hreq : r = nspN r.data.length := run_eq_nspN r hr2
    obtain ⟨hLine, hLW, hPSW, hLines, hPre, hRuns, hHead, hWordsP, hDS, hDSh, hDSt⟩ := hInv
    have hL := hlast (by intro hc; exact List.noConfusion hc)
    by_cases hC1 : ((st.lineWidth + getTextWidth v : ℕ) : ℤ) ≤ w - ((0 : ℕ) : ℤ) ∨
        st.lineWidth ≤ 0
    · have hword : ((descSum 0 pairs + getTextWidth v : ℤ) ≤ w ∨ descSum 0 pairs = 0) := by
        rcases hC1 with h | h
        · left
          rw [hLW] at h
          push_cast at h ⊢
          omega
        · right
          rw [hLW] at h
          omega
      have hOr : v.data ≠ [] ∨ (ds.isEmpty = true ∧ pairs = []) := by
        by_cases hvd : v.data = []
        · right
          rcases hvne with hflT | hvne2
          · obtain ⟨hpE, hdE⟩ := hfl hflT
            exact ⟨by rw [hdE]; rfl, hpE⟩
          · exact absurd hvd hvne2
        · exact Or.inl hvd
      by_cases hC2 : ((st.lineWidth + getTextWidth v +
          (if r = "" ∨ r = "\n" then 0 else getTextWidth r) : ℕ) : ℤ) < w - ((0 : ℕ) : ℤ) ∧
          r ≠ "\n"
      · -- place word, place run
        rw [List.foldl_cons, place_step w st v r hC1 hC2]
        have hrun : ((descSum 0 pairs + getTextWidth v + r.data.length : ℤ) < w) := by
          have h := hC2.1
          rw [hLW, hSW] at h
          push_cast at h ⊢
          omega
        refine ih false _ (pairs ++ [(v, r.data.length)]) ds htok2
          (fun t ht => hsp t (List.mem_cons_of_mem _ ht))
          (fun h => Bool.noConfusion h)
          (fun _ _ _ _ h => Bool.noConfusion h) ?_ ?_
        · refine ⟨?_, ?_, ?_, hLines, ?_, ?_, ?_, ?_, hDS, hDSh, hDSt⟩
          · show (st.line ++ [v]) ++ [r] = nspN 0 :: renderFull (pairs ++ [(v, r.data.length)])
            rw [renderFull_snoc, ← hreq, hLine]
            simp
          · show st.lineWidth + getTextWidth v +
              (if r = "" ∨ r = "\n" then 0 else getTextWidth r) =
              descSum 0 (pairs ++ [(v, r.data.length)])
            rw [hLW, hSW, descSum_snoc]
          · show (if r = "" ∨ r = "\n" then 0 else getTextWidth r) =
              lastN (pairs ++ [(v, r.data.length)])
            rw [hSW, lastN_snoc]
          · exact (prefOK_snoc pairs v r.data.length w 0).mpr ⟨hPre, hword, hrun⟩
          · exact runsPos_snoc v r.data.length pairs (runsPos_all pairs hRuns hL)
          · by_cases hpn : pairs = []
            · subst hpn
              intro v2 n2 h hv2
              rw [show (([] : List (String × ℕ)) ++ [(v, r.data.length)]).head? =
                some (v, r.data.length) from rfl, Option.some.injEq] at h
              injection h with h1 h2
              subst h1
              rw [← h2]
              rcases hvne with hflT | hvne2
              · exact List.length_pos.mpr (hE v r ts2 rfl hflT hv2)
              · exact absurd hv2 hvne2
            · exact headCond_snoc pairs v _ hpn hHead
          · exact descWords_snoc v r.data.length ds.isEmpty pairs hWordsP hvfree hOr
        · intro hts2
          right
          rw [lastN_snoc]
          refine List.length_pos.mpr ?_
          intro hre
          exact hts2 (hrlast hre)
      · -- place word, flush at the run
        rw [List.foldl_cons, flushRun_step w st v r hC1 hC2]
        have hpos := runsPos_all pairs hRuns hL
        have hfin : (((descSum 0 pairs + getTextWidth v : ℤ) ≤ w ∧
            ((descSum 0 pairs + getTextWidth v +
              ((w - ((descSum 0 pairs + getTextWidth v : ℕ) : ℤ)).toNat : ℕ) : ℤ) = w)) ∨
          ((((w - ((descSum 0 pairs + getTextWidth v : ℕ) : ℤ)).toNat : ℕ) = 0 ∧
            w ≤ (descSum 0 pairs + getTextWidth v : ℤ)))) := by
          by_cases hle : ((descSum 0 pairs + getTextWidth v : ℕ) : ℤ) ≤ w
          · left
            push_cast at hle ⊢
            omega
          · right
            push_cast at hle ⊢
            omega
        have hHd : ∀ v2 n2, (pairs ++
            [(v, (w - ((descSum 0 pairs + getTextWidth v : ℕ) : ℤ)).toNat)]).head? =
            some (v2, n2) → v2.data = [] → 1 ≤ n2 := by
          by_cases hpn : pairs = []
          · subst hpn
            intro v2 n2 h hv2
            rw [show (([] : List (String × ℕ)) ++
              [(v, (w - ((descSum 0 [] + getTextWidth v : ℕ) : ℤ)).toNat)]).head? =
              some (v, (w - ((descSum 0 ([] : List (String × ℕ)) +
                getTextWidth v : ℕ) : ℤ)).toNat) from rfl, Option.some.injEq] at h
            injection h with h1 h2
            subst h1
            rw [← h2]
            have htw : getTextWidth v = 0 := tw_of_nil v hv2
            rw [show descSum 0 ([] : List (String × ℕ)) = 0 from rfl, htw]
            omega
          · exact headCond_snoc pairs v _ hpn hHead
        have hOK2 : descOK w 0 (pairs ++
            [(v, (w - ((descSum 0 pairs + getTextWidth v : ℕ) : ℤ)).toNat)]) :=
          descOK_of_parts w v _ pairs 0 hPre hpos hword hfin
        have hlineOK : lineOK w (pairs ++
            [(v, (w - ((descSum 0 pairs + getTextWidth v : ℕ) : ℤ)).toNat)]) :=
          lineOK_build w pairs v _ hPre hpos hword hfin hHd
        have hWrd : descWords ds.isEmpty (pairs ++
            [(v, (w - ((descSum 0 pairs + getTextWidth v : ℕ) : ℤ)).toNat)]) :=
          descWords_snoc v _ ds.isEmpty pairs hWordsP hvfree hOr
        obtain ⟨hDS2, hDSh2, hDSt2⟩ := ds_extend w ds _ hDS hDSh hDSt hlineOK hWrd
        have hstr : alignInternal (String.join ((st.line ++ [v]) ++ [nspN 0]))
            (st.lineWidth + getTextWidth v + 0) w .left =
            String.mk (descChars (pairs ++
              [(v, (w - ((descSum 0 pairs + getTextWidth v : ℕ) : ℤ)).toNat)])) := by
          have h1 : st.line ++ [v] = [nspN 0] ++ renderD (pairs ++
              [(v, (w - ((descSum 0 pairs + getTextWidth v : ℕ) : ℤ)).toNat)]) := by
            rw [renderD_snoc, hLine]
            simp
          have h2 : st.lineWidth + getTextWidth v + 0 = descFW 0 (pairs ++
              [(v, (w - ((descSum 0 pairs + getTextWidth v : ℕ) : ℤ)).toNat)]) := by
            rw [descFW_snoc, hLW, Nat.add_zero]
          rw [h1, h2]
          exact lineStr_eq w _ (by simp) hOK2
        refine ih false _ [] (ds ++ [pairs ++
            [(v, (w - ((descSum 0 pairs + getTextWidth v : ℕ) : ℤ)).toNat)]]) htok2
          (fun t ht => hsp t (List.mem_cons_of_mem _ ht))
          (fun h => Bool.noConfusion h)
          (fun _ _ _ _ h => Bool.noConfusion h) ?_ ?_
        · refine ⟨rfl, rfl, rfl, ?_, trivial, trivial, ?_, trivial, hDS2, hDSh2, hDSt2⟩
          · show (st.lines ++ [(alignInternal
              (String.join ((st.line ++ [v]) ++ [nspN 0]))
              (st.lineWidth + getTextWidth v + 0) w .left,
              st.lineWidth + getTextWidth v + 0)]).map Prod.fst = _
            have hsing : List.map Prod.fst [(alignInternal
                (String.join ((st.line ++ [v]) ++ [nspN 0]))
                (st.lineWidth + getTextWidth v + 0) w .left,
                st.lineWidth + getTextWidth v + 0)] =
                List.map (fun d => String.mk (descChars d)) [pairs ++
                  [(v, (w - ((descSum 0 pairs + getTextWidth v : ℕ) : ℤ)).toNat)]] := by
              show [alignInternal (String.join ((st.line ++ [v]) ++ [nspN 0]))
                (st.lineWidth + getTextWidth v + 0) w .left] =
                [String.mk (descChars (pairs ++
                  [(v, (w - ((descSum 0 pairs + getTextWidth v : ℕ) : ℤ)).toNat)]))]
              rw [hstr]
            rw [List.map_append, List.map_append, hLines, hsing]
          · intro v2 n2 h
            exact Option.noConfusion h
        · intro _
          exact Or.inl rfl
    · -- word overflow: pop the previous run and flush the open line
      have hlwpos : 0 < st.lineWidth := by
        by_contra hcon
        exact hC1 (Or.inr (by omega))
      have hpne : pairs ≠ [] := descSum_pos_ne pairs (by rw [← hLW]; exact hlwpos)
      obtain ⟨init, vk, nk, hpe⟩ := pairs_snoc_ex pairs hpne
      have hnk : 1 ≤ nk := by
        rcases hL with h | h
        · exact absurd h hpne
        · rw [hpe, lastN_snoc] at h
          exact h
      have hp : st.prevSpaceWidth > 0 := by
        rw [hPSW, hpe, lastN_snoc]
        exact hnk
      obtain ⟨hPreI, hWordK, hRunK⟩ := (prefOK_snoc init vk nk w 0).mp
        (by rw [← hpe]; exact hPre)
      have hposP := runsPos_all pairs hRuns hL
      have hposI : ∀ p ∈ init, 1 ≤ p.2 := fun p hp2 =>
        hposP p (by rw [hpe]; exact List.mem_append_left _ hp2)
      have hfw : st.lineWidth - st.prevSpaceWidth + 0 = descSum 0 init + getTextWidth vk := by
        rw [hLW, hPSW, hpe, descSum_snoc, lastN_snoc]
        omega
      have hfin1 : (((descSum 0 init + getTextWidth vk : ℤ) ≤ w ∧
          ((descSum 0 init + getTextWidth vk +
            (((w - ((descSum 0 init + getTextWidth vk : ℕ) : ℤ)).toNat : ℕ)) : ℤ) = w)) ∨
        ((((w - ((descSum 0 init + getTextWidth vk : ℕ) : ℤ)).toNat : ℕ) = 0 ∧
          w ≤ (descSum 0 init + getTextWidth vk : ℤ)))) := by
        left
        constructor
        · push_cast at hRunK ⊢
          omega
        · push_cast at hRunK ⊢
          omega
      have hHd1 : ∀ v2 n2, (init ++
          [(vk, (w - ((descSum 0 init + getTextWidth vk : ℕ) : ℤ)).toNat)]).head? =
          some (v2, n2) → v2.data = [] → 1 ≤ n2 := by
        by_cases hin : init = []
        · subst hin
          intro v2 n2 h hv2
          rw [show (([] : List (String × ℕ)) ++
            [(vk, (w - ((descSum 0 ([] : List (String × ℕ)) +
              getTextWidth vk : ℕ) : ℤ)).toNat)]).head? =
            some (vk, (w - ((descSum 0 ([] : List (String × ℕ)) +
              getTextWidth vk : ℕ) : ℤ)).toNat) from rfl, Option.some.injEq] at h
          injection h with h1 h2
          subst h1
          rw [← h2]
          have htw : getTextWidth vk = 0 := tw_of_nil vk hv2
          rw [show descSum 0 ([] : List (String × ℕ)) = 0 from rfl, htw]
          omega
        · exact headCond_snoc init vk _ hin
            (fun v2 n2 h => hHead v2 n2 (by rw [hpe, head_app _ _ hin]; exact h))
      have hOKd1 : descOK w 0 (init ++
          [(vk, (w - ((descSum 0 init + getTextWidth vk : ℕ) : ℤ)).toNat)]) :=
        descOK_of_parts w vk _ init 0 hPreI hposI hWordK hfin1
      have hlineOK1 : lineOK w (init ++
          [(vk, (w - ((descSum 0 init + getTextWidth vk : ℕ) : ℤ)).toNat)]) :=
        lineOK_build w init vk _ hPreI hposI hWordK hfin1 hHd1
      have hWrd1 : descWords ds.isEmpty (init ++
          [(vk, (w - ((descSum 0 init + getTextWidth vk : ℕ) : ℤ)).toNat)]) := by
        refine descWords_setLast vk nk _ ds.isEmpty init ?_
        rw [← hpe]
        exact hWordsP
      obtain ⟨hDSb, hDShb, hDStb⟩ := ds_extend w ds _ hDS hDSh hDSt hlineOK1 hWrd1
      have hstr1 : alignInternal (String.join (st.line.dropLast ++ [nspN 0]))
          (st.lineWidth - st.prevSpaceWidth + 0) w .left =
          String.mk (descChars (init ++
            [(vk, (w - ((descSum 0 init + getTextWidth vk : ℕ) : ℤ)).toNat)])) := by
        have hdl : st.line.dropLast = [nspN 0] ++ renderD (init ++
            [(vk, (w - ((descSum 0 init + getTextWidth vk : ℕ) : ℤ)).toNat)]) := by
          rw [hLine, hpe, renderFull_snoc, renderD_snoc]
          rw [show nspN 0 :: (renderFull init ++ [vk, nspN nk]) =
            ((nspN 0 :: renderFull init) ++ [vk]) ++ [nspN nk] by simp]
          rw [List.dropLast_concat]
          simp
        have hfw2 : st.lineWidth - st.prevSpaceWidth + 0 = descFW 0 (init ++
            [(vk, (w - ((descSum 0 init + getTextWidth vk : ℕ) : ℤ)).toNat)]) := by
          rw [descFW_snoc]
          exact hfw
        rw [hdl, hfw2]
        exact lineStr_eq w _ (by simp) hOKd1
      have hvW : 0 < getTextWidth v := by
        have hlt := descSum_lt_w w pairs 0 hpne hPre
        rw [← hLW] at hlt
        by_contra hcon
        exact hC1 (Or.inl (by push_cast; omega))
      have hvd : v.data ≠ [] := by
        intro hcon
        rw [tw_of_nil v hcon] at hvW
        omega
      by_cases hC2b : ((0 + getTextWidth v +
          (if r = "" ∨ r = "\n" then 0 else getTextWidth r) : ℕ) : ℤ) < w - ((0 : ℕ) : ℤ) ∧
          r ≠ "\n"
      · -- the word opens a fresh line and its run is placed there
        rw [List.foldl_cons, wordFlushPlace_step w st v r hC1 hp hC2b]
        refine ih false _ [(v, r.data.length)] (ds ++ [init ++
            [(vk, (w - ((descSum 0 init + getTextWidth vk : ℕ) : ℤ)).toNat)]]) htok2
          (fun t ht => hsp t (List.mem_cons_of_mem _ ht))
          (fun h => Bool.noConfusion h)
          (fun _ _ _ _ h => Bool.noConfusion h) ?_ ?_
        · refine ⟨?_, ?_, ?_, ?_, ?_, trivial, ?_, ?_, hDSb, hDShb, hDStb⟩
          · show [nspN 0, v] ++ [r] = nspN 0 :: renderFull [(v, r.data.length)]
            rw [show renderFull [(v, r.data.length)] = [v, nspN r.data.length] from rfl,
              ← hreq]
            rfl
          · show 0 + getTextWidth v + (if r = "" ∨ r = "\n" then 0 else getTextWidth r) =
              descSum 0 [(v, r.data.length)]
            rw [hSW]
            rfl
          · show (if r = "" ∨ r = "\n" then 0 else getTextWidth r) =
              lastN [(v, r.data.length)]
            rw [hSW]
            rfl
          · have hsing : List.map Prod.fst [(alignInternal
                (String.join (st.line.dropLast ++ [nspN 0]))
                (st.lineWidth - st.prevSpaceWidth + 0) w .left,
                st.lineWidth - st.prevSpaceWidth + 0)] =
                List.map (fun d => String.mk (descChars d)) [init ++
                  [(vk, (w - ((descSum 0 init + getTextWidth vk : ℕ) : ℤ)).toNat)]] := by
              show [alignInternal (String.join (st.line.dropLast ++ [nspN 0]))
                (st.lineWidth - st.prevSpaceWidth + 0) w .left] =
                [String.mk (descChars (init ++
                  [(vk, (w - ((descSum 0 init + getTextWidth vk : ℕ) : ℤ)).toNat)]))]
              rw [hstr1]
            show (st.lines ++ [(alignInternal
              (String.join (st.line.dropLast ++ [nspN 0]))
              (st.lineWidth - st.prevSpaceWidth + 0) w .left,
              st.lineWidth - st.prevSpaceWidth + 0)]).map Prod.fst = _
            rw [List.map_append, List.map_append, hLines, hsing]
          · refine ⟨Or.inr rfl, ?_, trivial⟩
            have h := hC2b.1
            rw [hSW] at h
            push_cast at h ⊢
            omega
          · intro v2 n2 h hv2
            rw [show ([(v, r.data.length)] : List (String × ℕ)).head? =
              some (v, r.data.length) from rfl, Option.some.injEq] at h
            injection h with h1 h2
            subst h1
            exact absurd hv2 hvd
          · show descWords (ds ++ [init ++
              [(vk, (w - ((descSum 0 init + getTextWidth vk : ℕ) : ℤ)).toNat)]]).isEmpty
              [(v, r.data.length)]
            rw [isEmpty_app]
            exact ⟨hvfree, Or.inr hvd, trivial⟩
        · intro hts2
          right
          refine List.length_pos.mpr ?_
          intro hre
          exact hts2 (hrlast hre)
      · -- both the old line and the oversized word's own line are flushed
        rw [List.foldl_cons, wordFlushFlush_step w st v r hC1 hp hC2b]
        have hposnil : ∀ p ∈ ([] : List (String × ℕ)), 1 ≤ p.2 := by
          intro p hp2
          cases hp2
        have hfin2 : (((descSum 0 ([] : List (String × ℕ)) + getTextWidth v : ℤ) ≤ w ∧
            ((descSum 0 ([] : List (String × ℕ)) + getTextWidth v +
              (((w - ((descSum 0 ([] : List (String × ℕ)) +
                getTextWidth v : ℕ) : ℤ)).toNat : ℕ)) : ℤ) = w)) ∨
          ((((w - ((descSum 0 ([] : List (String × ℕ)) +
              getTextWidth v : ℕ) : ℤ)).toNat : ℕ) = 0 ∧
            w ≤ (descSum 0 ([] : List (String × ℕ)) + getTextWidth v : ℤ)))) := by
          by_cases hle : ((descSum 0 ([] : List (String × ℕ)) + getTextWidth v : ℕ) : ℤ) ≤ w
          · left
            push_cast at hle ⊢
            omega
          · right
            push_cast at hle ⊢
            omega
        have hHd2 : ∀ v2 n2, (([] : List (String × ℕ)) ++
            [(v, (w - ((descSum 0 ([] : List (String × ℕ)) +
              getTextWidth v : ℕ) : ℤ)).toNat)]).head? =
            some (v2, n2) → v2.data = [] → 1 ≤ n2 := by
          intro v2 n2 h hv2
          rw [show (([] : List (String × ℕ)) ++
            [(v, (w - ((descSum 0 ([] : List (String × ℕ)) +
              getTextWidth v : ℕ) : ℤ)).toNat)]).head? =
            some (v, (w - ((descSum 0 ([] : List (String × ℕ)) +
              getTextWidth v : ℕ) : ℤ)).toNat) from rfl, Option.some.injEq] at h
          injection h with h1 h2
          subst h1
          exact absurd hv2 hvd
        have hOKd2 : descOK w 0 (([] : List (String × ℕ)) ++
            [(v, (w - ((descSum 0 ([] : List (String × ℕ)) +
              getTextWidth v : ℕ) : ℤ)).toNat)]) :=
          descOK_of_parts w v _ [] 0 trivial hposnil (Or.inr rfl) hfin2
        have hlineOK2 : lineOK w (([] : List (String × ℕ)) ++
            [(v, (w - ((descSum 0 ([] : List (String × ℕ)) +
              getTextWidth v : ℕ) : ℤ)).toNat)]) :=
          lineOK_build w [] v _ trivial hposnil (Or.inr rfl) hfin2 hHd2
        have hWrd2 : descWords (ds ++ [init ++
            [(vk, (w - ((descSum 0 init + getTextWidth vk : ℕ) : ℤ)).toNat)]]).isEmpty
            (([] : List (String × ℕ)) ++
              [(v, (w - ((descSum 0 ([] : List (String × ℕ)) +
                getTextWidth v : ℕ) : ℤ)).toNat)]) := by
          rw [isEmpty_app]
          exact ⟨hvfree, Or.inr hvd, trivial⟩
        obtain ⟨hDSc, hDShc, hDStc⟩ := ds_extend w (ds ++ [init ++
            [(vk, (w - ((descSum 0 init + getTextWidth vk : ℕ) : ℤ)).toNat)]])
          (([] : List (String × ℕ)) ++
            [(v, (w - ((descSum 0 ([] : List (String × ℕ)) +
              getTextWidth v : ℕ) : ℤ)).toNat)])
          hDSb hDShb hDStb hlineOK2 hWrd2
        have hstr2 : alignInternal (String.join (([nspN 0, v] : List String) ++ [nspN 0]))
            (0 + getTextWidth v + 0) w .left =
            String.mk (descChars (([] : List (String × ℕ)) ++
              [(v, (w - ((descSum 0 ([] : List (String × ℕ)) +
                getTextWidth v : ℕ) : ℤ)).toNat)])) := by
          have h2 : 0 + getTextWidth v + 0 = descFW 0 (([] : List (String × ℕ)) ++
              [(v, (w - ((descSum 0 ([] : List (String × ℕ)) +
                getTextWidth v : ℕ) : ℤ)).toNat)]) := by
            show 0 + getTextWidth v + 0 = 0 + getTextWidth v
            omega
          rw [show ([nspN 0, v] : List String) = [nspN 0] ++ renderD
            (([] : List (String × ℕ)) ++
              [(v, (w - ((descSum 0 ([] : List (String × ℕ)) +
                getTextWidth v : ℕ) : ℤ)).toNat)]) from rfl, h2]
          exact lineStr_eq w _ (by simp) hOKd2
        refine ih false _ [] ((ds ++ [init ++
            [(vk, (w - ((descSum 0 init + getTextWidth vk : ℕ) : ℤ)).toNat)]]) ++
          [([] : List (String × ℕ)) ++
            [(v, (w - ((descSum 0 ([] : List (String × ℕ)) +
              getTextWidth v : ℕ) : ℤ)).toNat)]]) htok2
          (fun t ht => hsp t (List.mem_cons_of_mem _ ht))
          (fun h => Bool.noConfusion h)
          (fun _ _ _ _ h => Bool.noConfusion h) ?_ ?_
        · refine ⟨rfl, rfl, rfl, ?_, trivial, trivial, ?_, trivial, hDSc, hDShc, hDStc⟩
          · have hsing1 : List.map Prod.fst [(alignInternal
                (String.join (st.line.dropLast ++ [nspN 0]))
                (st.lineWidth - st.prevSpaceWidth + 0) w .left,
                st.lineWidth - st.prevSpaceWidth + 0)] =
                List.map (fun d => String.mk (descChars d)) [init ++
                  [(vk, (w - ((descSum 0 init + getTextWidth vk : ℕ) : ℤ)).toNat)]] := by
              show [alignInternal (String.join (st.line.dropLast ++ [nspN 0]))
                (st.lineWidth - st.prevSpaceWidth + 0) w .left] =
                [String.mk (descChars (init ++
                  [(vk, (w - ((descSum 0 init + getTextWidth vk : ℕ) : ℤ)).toNat)]))]
              rw [hstr1]
            have hsing2 : List.map Prod.fst [(alignInternal
                (String.join (([nspN 0, v] : List String) ++ [nspN 0]))
                (0 + getTextWidth v + 0) w .left, 0 + getTextWidth v + 0)] =
                List.map (fun d => String.mk (descChars d))
                  [([] : List (String × ℕ)) ++
                    [(v, (w - ((descSum 0 ([] : List (String × ℕ)) +
                      getTextWidth v : ℕ) : ℤ)).toNat)]] := by
              show [alignInternal (String.join (([nspN 0, v] : List String) ++ [nspN 0]))
                (0 + getTextWidth v + 0) w .left] =
                [String.mk (descChars (([] : List (String × ℕ)) ++
                  [(v, (w - ((descSum 0 ([] : List (String × ℕ)) +
                    getTextWidth v : ℕ) : ℤ)).toNat)]))]
              rw [hstr2]
            show ((st.lines ++ [(alignInternal
              (String.join (st.line.dropLast ++ [nspN 0]))
              (st.lineWidth - st.prevSpaceWidth + 0) w .left,
              st.lineWidth - st.prevSpaceWidth + 0)]) ++
              [(alignInternal (String.join (([nspN 0, v] : List String) ++ [nspN 0]))
                (0 + getTextWidth v + 0) w .left, 0 + getTextWidth v + 0)]).map Prod.fst = _
            rw [List.map_append, List.map_append, List.map_append, List.map_append,
              hLines, hsing1, hsing2]
          · intro v2 n2 h
            exact Option.noConfusion h
        · intro _
          exact Or.inl rfl

theorem runsPos_init : ∀ (init : List (String × ℕ)) (q : String × ℕ),
    runsPos (init ++ [q]) → ∀ p ∈ init, 1 ≤ p.2 := by
  intro init
  induction init with
  | nil =>
    intro q _ p hp
    cases hp
  | cons x t ih =>
    intro q hr p hp
    obtain ⟨a, b⟩ := x
    have h12 : 1 ≤ b ∧ runsPos (t ++ [q]) := by
      cases hx : t ++ [q] with
      | nil => exact absurd hx (by simp)
      | cons y u =>
        rw [show ((a, b) :: t) ++ [q] = (a, b) :: (t ++ [q]) from rfl, hx] at hr
        obtain ⟨h1, h2⟩ := hr
        exact ⟨h1, h2⟩
    rcases List.mem_cons.mp hp with rfl | hp
    · exact h12.1
    · exact ih q h12.2 p hp

theorem step1_finish (w : ℤ) (hw : 0 < w) (st : WrapSt)
    (pairs : List (String × ℕ)) (ds : List (List (String × ℕ)))
    (hInv : wrapInv w st pairs ds) :
    ∃ ds2 : List (List (String × ℕ)),
      (wrapTextFinish w 0 .left st).lines.map Prod.fst =
        ds2.map (fun d => String.mk (descChars d)) ∧
      (∀ d ∈ ds2, lineOK w d) ∧ (∀ d, ds2.head? = some d → descWords true d) ∧
      (∀ d ∈ ds2.tail, descWords false d) := by
  obtain ⟨hLine, hLW, hPSW, hLines, hPre, hRuns, hHead, hWordsP, hDS, hDSh, hDSt⟩ := hInv
  unfold wrapTextFinish
  by_cases hpos : st.lineWidth > 0
  · rw [if_pos hpos]
    have hpne : pairs ≠ [] := descSum_pos_ne pairs (by rw [← hLW]; exact hpos)
    obtain ⟨init, vk, nk, hpe⟩ := pairs_snoc_ex pairs hpne
    obtain ⟨hPreI, hWordK, hRunK⟩ := (prefOK_snoc init vk nk w 0).mp
      (by rw [← hpe]; exact hPre)
    have hposI : ∀ p ∈ init, 1 ≤ p.2 :=
      runsPos_init init (vk, nk) (by rw [← hpe]; exact hRuns)
    have hfinF : (((descSum 0 init + getTextWidth vk : ℤ) ≤ w ∧
        ((descSum 0 init + getTextWidth vk +
          ((nk + (w - ((descSum 0 init + getTextWidth vk + nk : ℕ) : ℤ)).toNat : ℕ)) : ℤ)
          = w)) ∨
      (((nk + (w - ((descSum 0 init + getTextWidth vk + nk : ℕ) : ℤ)).toNat : ℕ) = 0 ∧
        w ≤ (descSum 0 init + getTextWidth vk : ℤ)))) := by
      left
      constructor
      · push_cast at hRunK ⊢
        omega
      · push_cast at hRunK ⊢
        omega
    have hHdF : ∀ v2 n2, (init ++
        [(vk, nk + (w - ((descSum 0 init + getTextWidth vk + nk : ℕ) : ℤ)).toNat)]).head? =
        some (v2, n2) → v2.data = [] → 1 ≤ n2 := by
      by_cases hin : init = []
      · subst hin
        intro v2 n2 h hv2
        rw [show (([] : List (String × ℕ)) ++
          [(vk, nk + (w - ((descSum 0 ([] : List (String × ℕ)) +
            getTextWidth vk + nk : ℕ) : ℤ)).toNat)]).head? =
          some (vk, nk + (w - ((descSum 0 ([] : List (String × ℕ)) +
            getTextWidth vk + nk : ℕ) : ℤ)).toNat) from rfl, Option.some.injEq] at h
        injection h with h1 h2
        subst h1
        rw [← h2]
        have hnk1 : 1 ≤ nk := hHead vk nk (by rw [hpe]; rfl) hv2
        omega
      · exact headCond_snoc init vk _ hin
          (fun v2 n2 h => hHead v2 n2 (by rw [hpe, head_app _ _ hin]; exact h))
    have hOKdF : descOK w 0 (init ++
        [(vk, nk + (w - ((descSum 0 init + getTextWidth vk + nk : ℕ) : ℤ)).toNat)]) :=
      descOK_of_parts w vk _ init 0 hPreI hposI hWordK hfinF
    have hlineOKF : lineOK w (init ++
        [(vk, nk + (w - ((descSum 0 init + getTextWidth vk + nk : ℕ) : ℤ)).toNat)]) :=
      lineOK_build w init vk _ hPreI hposI hWordK hfinF hHdF
    have hWrdF : descWords ds.isEmpty (init ++
        [(vk, nk + (w - ((descSum 0 init + getTextWidth vk + nk : ℕ) : ℤ)).toNat)]) := by
      refine descWords_setLast vk nk _ ds.isEmpty init ?_
      rw [← hpe]
      exact hWordsP
    obtain ⟨hDSf, hDShf, hDStf⟩ := ds_extend w ds _ hDS hDSh hDSt hlineOKF hWrdF
    have hstrF : alignInternal (String.join (st.line ++ [nspN 0]))
        (st.lineWidth + 0) w .left =
        String.mk (descChars (init ++
          [(vk, nk + (w - ((descSum 0 init + getTextWidth vk + nk : ℕ) : ℤ)).toNat)])) := by
      apply strDataEq
      show (String.join (st.line ++ [nspN 0]) ++
        nspN ((w - ((st.lineWidth + 0 : ℕ) : ℤ)).toNat)).data = _
      rw [String.data_append, hLine, renderFull_join_data0]
      have hrem : ((w - ((st.lineWidth + 0 : ℕ) : ℤ)).toNat) =
          (w - ((descSum 0 init + getTextWidth vk + nk : ℕ) : ℤ)).toNat := by
        rw [hLW, hpe, descSum_snoc]
        omega
      show descChars pairs ++ (nspN ((w - ((st.lineWidth + 0 : ℕ) : ℤ)).toNat)).data = _
      rw [show ∀ m, (nspN m).data = List.replicate m ' ' from fun m => rfl, hrem, hpe,
        descChars_eq_BL, descChars_eq_BL, descCharsBL_snoc, descCharsBL_snoc,
        lastN_snoc, lastN_snoc, List.replicate_add]
      simp [List.append_assoc]
    refine ⟨ds ++ [init ++
      [(vk, nk + (w - ((descSum 0 init + getTextWidth vk + nk : ℕ) : ℤ)).toNat)]],
      ?_, hDSf, hDShf, hDStf⟩
    have hsingF : List.map Prod.fst [(alignInternal
        (String.join (st.line ++ [nspN 0])) (st.lineWidth + 0) w .left,
        st.lineWidth + 0)] =
        List.map (fun d => String.mk (descChars d)) [init ++
          [(vk, nk + (w - ((descSum 0 init + getTextWidth vk + nk : ℕ) : ℤ)).toNat)]] := by
      show [alignInternal (String.join (st.line ++ [nspN 0])) (st.lineWidth + 0) w .left] =
        [String.mk (descChars (init ++
          [(vk, nk + (w - ((descSum 0 init + getTextWidth vk + nk : ℕ) : ℤ)).toNat)]))]
      rw [hstrF]
    show (st.lines ++ [(alignInternal (String.join (st.line ++ [nspN 0]))
      (st.lineWidth + 0) w .left, st.lineWidth + 0)]).map Prod.fst = _
    rw [List.map_append, List.map_append, hLines, hsingF]
  · rw [if_neg hpos]
    exact ⟨ds, hLines, hDS, hDSh, hDSt⟩

theorem toksOK_run_ws : ∀ (ts : List (String × String)) (fl : Bool), toksOK fl ts →
    ∀ t ∈ ts, ∀ c ∈ t.2.data, isWsChar c = true := by
  intro ts
  induction ts with
  | nil =>
    intro fl _ t ht
    cases ht
  | cons p ts2 ih =>
    intro fl h t ht
    obtain ⟨a, b⟩ := p
    obtain ⟨-, -, h3, -, h5⟩ := h
    rcases List.mem_cons.mp ht with rfl | ht
    · exact h3
    · exact ih false h5 t ht

/-- The original wrap (margin 0, left alignment, `getTextWidth`, every
whitespace character a plain space) produces exactly the renderings of a
list of well-formed line descriptions. -/
theorem wrap_struct (w : ℤ) (hw : 0 < w) (text : String)
    (hsp : ∀ c ∈ text.data, isWsChar c = true → c = ' ') :
    ∃ ds : List (List (String × ℕ)),
      (wrapText text w .left 0 getTextWidth).1 =
        ds.map (fun d => String.mk (descChars d)) ∧
      (∀ d ∈ ds, lineOK w d) ∧ (∀ d, ds.head? = some d → descWords true d) ∧
      (∀ d ∈ ds.tail, descWords false d) := by
  have hInv0 : wrapInv w (wrapTextInit w 0) [] [] := by
    refine ⟨rfl, rfl, rfl, rfl, trivial, trivial, ?_, trivial, ?_, ?_, ?_⟩
    · intro v n h
      exact Option.noConfusion h
    · intro d hd
      cases hd
    · intro d hd
      exact Option.noConfusion hd
    · intro d hd
      cases hd
  have htoks := (tokenizeWs_struct text.data.length text.data (Nat.le_refl _)).1
  have hspT : ∀ t ∈ tokenizeWs text.data, ∀ c ∈ t.2.data, c = ' ' := by
    intro t ht c hc
    exact (tokenizeWs_chars text.data.length text.data
      (fun c => isWsChar c = true → c = ' ') (Nat.le_refl _) hsp t ht).2 c hc
      (toksOK_run_ws (tokenizeWs text.data) true htoks t ht c hc)
  obtain ⟨pairs2, ds2, hInvF⟩ := step1_fold w hw (tokenizeWs text.data) true
    (wrapTextInit w 0) [] [] htoks hspT (fun _ => ⟨rfl, rfl⟩)
    (fun v2 r2 ts2 h _ hv => tokenizeWs_first_empty text.data v2 r2 ts2 h hv)
    hInv0 (fun _ => Or.inl rfl)
  obtain ⟨dsF, h1, h2, h3, h4⟩ := step1_finish w hw _ pairs2 ds2 hInvF
  exact ⟨dsF, h1, h2, h3, h4⟩

theorem interGo_acc (s : String) : ∀ (t : List String) (acc : String),
    String.intercalate.go acc s t = acc ++ String.intercalate.go "" s t := by
  intro t
  induction t with
  | nil =>
    intro acc
    show acc = acc ++ ""
    rw [String.append_empty]
  | cons a u ih =>
    intro acc
    show String.intercalate.go (acc ++ s ++ a) s u =
      acc ++ String.intercalate.go ("" ++ s ++ a) s u
    rw [ih (acc ++ s ++ a), ih ("" ++ s ++ a), String.empty_append]
    simp [String.append_assoc]

theorem intercalate_cons2 (s a b : String) (t : List String) :
    String.intercalate s (a :: b :: t) = a ++ s ++ String.intercalate s (b :: t) := by
  show String.intercalate.go (a ++ s ++ b) s t = _
  rw [interGo_acc s t (a ++ s ++ b)]
  show _ = a ++ s ++ String.intercalate.go b s t
  rw [interGo_acc s t b]
  simp [String.append_assoc]

theorem intercalate_chain : ∀ (ds : List (List (String × ℕ))),
    (String.intercalate "\n" (ds.map (fun d => String.mk (descChars d)))).data =
      chainChars ds := by
  intro ds
  induction ds with
  | nil => rfl
  | cons d ds2 ih =>
    cases ds2 with
    | nil => rfl
    | cons d2 t =>
      rw [show (d :: d2 :: t).map (fun d => String.mk (descChars d)) =
        String.mk (descChars d) :: String.mk (descChars d2) ::
          t.map (fun d => String.mk (descChars d)) from rfl]
      rw [intercalate_cons2, String.data_append, String.data_append]
      rw [show (String.mk (descChars d2) :: t.map (fun d => String.mk (descChars d))) =
        (d2 :: t).map (fun d => String.mk (descChars d)) from rfl, ih]
      show descChars d ++ ['\n'] ++ chainChars (d2 :: t) =
        descChars d ++ ('\n' :: chainChars (d2 :: t))
      simp

theorem finish_noflush (w : ℤ) (p2 : ℕ) (mw2 : ℤ) (ls : List (String × ℕ)) :
    wrapTextFinish w 0 .left
      { line := [nspN 0], lineWidth := 0, prevSpaceWidth := p2,
        maxWidth := mw2, lines := ls } =
      { line := [nspN 0], lineWidth := 0, prevSpaceWidth := p2,
        maxWidth := mw2, lines := ls } := by
  unfold wrapTextFinish
  rw [if_neg (fun h => Nat.lt_irrefl 0 h)]

/-- C8 counterexample: greedy wrapping is not idempotent for every margin.
With width 2 and margin 1, `wrapText "a"` yields the single line `" a "`;
re-wrapping the rejoined text at the same width, margin and measurer yields
two lines `["  ", " a "]` (the leading margin space of the rendered line is
read back as a separator run, which no longer fits before the word), so the
line count and content change. -/
theorem claim_C8_counterexample :
    (wrapText (String.intercalate "\n" (wrapText "a" 2 .left 1 getTextWidth).1)
        2 .left 1 getTextWidth).1 ≠
      (wrapText "a" 2 .left 1 getTextWidth).1 := by decide

/-- C8 (amended): greedy wrapping is idempotent in the regime the chart
engine uses it in — a positive width, margin 0, left alignment, the
`getTextWidth` measurer, and text whose whitespace consists of plain
spaces: joining the lines produced by `wrapText` with newlines and wrapping
the result again at the same width with the same measurer reproduces
exactly the same lines. -/
theorem claim_C8_amended (text : String) (w : ℤ) (hw : 0 < w)
    (hsp : ∀ c ∈ text.data, isWsChar c = true → c = ' ') :
    (wrapText (String.intercalate "\n" (wrapText text w .left 0 getTextWidth).1)
        w .left 0 getTextWidth).1 =
      (wrapText text w .left 0 getTextWidth).1 := by
  obtain ⟨ds, heq, hall, hWh, hWt⟩ := wrap_struct w hw text hsp
  rw [heq]
  obtain ⟨p2, mw2, hfold⟩ := step2_chain w ds hall hWh hWt 0 w []
  show (wrapTextFinish w 0 .left ((tokenizeWs (String.intercalate "\n"
    (ds.map (fun d => String.mk (descChars d)))).data).foldl
    (wrapTextStep w 0 .left getTextWidth) (wrapTextInit w 0))).lines.map Prod.fst =
    ds.map (fun d => String.mk (descChars d))
  rw [intercalate_chain ds]
  rw [show wrapTextInit w 0 =
    { line := [nspN 0], lineWidth := 0, prevSpaceWidth := 0,
      maxWidth := w, lines := [] } from rfl]
  rw [hfold, finish_noflush]
  show ((([] : List (String × ℕ)) ++
    ds.map (fun d => (String.mk (descChars d), descFW 0 d))).map Prod.fst) = _
  rw [List.nil_append, List.map_map]
  rfl

/-- C8 witness: the amended idempotence applied to `"hello world"` at
width 6 — the wrap gives `["hello ", "world "]` and re-wrapping the
rejoined text reproduces it. -/
theorem claim_C8_witness :
    (0 : ℤ) < 6 ∧ (∀ c ∈ ("hello world" : String).data, isWsChar c = true → c = ' ') ∧
    (wrapText (String.intercalate "\n" (wrapText "hello world" 6 .left 0 getTextWidth).1)
        6 .left 0 getTextWidth).1 = (wrapText "hello world" 6 .left 0 getTextWidth).1 :=
  ⟨by decide, by decide, claim_C8_amended "hello world" 6 (by decide) (by decide)⟩

end BarChart

